import Mathlib

/-!
Verification development for the `upd` utility (upgrade NPM package
dependencies).  The definitions below are a shallow embedding of
`src/upd.js`: strings are represented as `List Char`, the dependency
inventory as an association list, the position-aware syntax tree of the
manifest as a list of text tokens, and the asynchronous pipeline as a
sequential `Except` computation (all shared-state mutation in the source
happens strictly after the concurrent phase, so the sequential model is
faithful for everything except scheduling itself).
-/

namespace Upd

/-- Strings are modelled as lists of characters. -/
abbrev Str := List Char

/-! ## Character classes

All classes are defined through `Char.toNat` code points so that facts
about them reduce to linear arithmetic.  `isSpaceJS` is the character
class of the JavaScript regexp escape `\s` (ECMAScript WhiteSpace and
LineTerminator code points). -/

/-- Decimal digit, the JavaScript regexp class `\d` (`0`-`9`). -/
def isDigitC (c : Char) : Bool := 48 ≤ c.toNat && c.toNat ≤ 57

/-- ASCII letter (`A`-`Z` or `a`-`z`). -/
def isAlphaC (c : Char) : Bool :=
  (65 ≤ c.toNat && c.toNat ≤ 90) || (97 ≤ c.toNat && c.toNat ≤ 122)

/-- The JavaScript regexp class `\s`: space, tab, line terminators, and
the Unicode space separators recognised by ECMAScript. -/
def isSpaceJS (c : Char) : Bool :=
  c.toNat = 32 || c.toNat = 9 || c.toNat = 10 || c.toNat = 11 || c.toNat = 12 ||
  c.toNat = 13 || c.toNat = 160 || c.toNat = 5760 ||
  (8192 ≤ c.toNat && c.toNat ≤ 8202) ||
  c.toNat = 8232 || c.toNat = 8233 || c.toNat = 8239 || c.toNat = 8287 ||
  c.toNat = 12288 || c.toNat = 65279

/-- Character allowed inside the bare-version token of the specifier
grammar: the regexp class `[^<>=|\s]` (not `<` 60, `=` 61, `>` 62,
`|` 124, and not whitespace). -/
def notFb (c : Char) : Bool :=
  !(c.toNat = 60 || c.toNat = 61 || c.toNat = 62 || c.toNat = 124 || isSpaceJS c)

/-! ## The specifier grammar

`upd.js` line 113 matches each specifier against
`/^\s*(?:[\^~]\s*)?(\d+[^<>=|\s]*)\s*$/` and captures the bare pinned
version.  The regexp is deterministic (no backtracking can change the
outcome, because the token class excludes whitespace and the operator
characters are not digits), so it is embedded as the following function. -/

/-- Drop leading JavaScript whitespace (the regexp prefix `\s*`). -/
def dropSp (l : Str) : Str := l.dropWhile isSpaceJS

/-- Consume the optional operator group `(?:[\^~]\s*)?` (`^` is 94,
`~` is 126). -/
def afterOp (l : Str) : Str :=
  match l with
  | [] => []
  | c :: r => if c.toNat = 94 || c.toNat = 126 then dropSp r else c :: r

/-- The whole specifier regexp: returns the captured pinned version
(`\d+[^<>=|\s]*`) when the specifier matches, `none` otherwise. -/
def specMatch (s : Str) : Option Str :=
  match afterOp (dropSp s) with
  | [] => none
  | c :: _ =>
    if isDigitC c then
      if (afterOp (dropSp s)).dropWhile notFb |>.all isSpaceJS then
        some ((afterOp (dropSp s)).takeWhile notFb)
      else none
    else none

/-- Declarative reading of the specifier grammar: optional whitespace, an
optional `^`/`~` operator with optional following whitespace, then a
token that starts with a digit and contains no `<`, `>`, `=`, `|` or
whitespace, then optional trailing whitespace. -/
def Decomp (s tok : Str) : Prop :=
  ∃ ws1 op ws2 ws3 : Str,
    s = ws1 ++ (op ++ (ws2 ++ (tok ++ ws3))) ∧
    (∀ c ∈ ws1, isSpaceJS c = true) ∧
    (op = [] ∨ op = ['^'] ∨ op = ['~']) ∧
    (∀ c ∈ ws2, isSpaceJS c = true) ∧
    (op = [] → ws2 = []) ∧
    (∀ c ∈ ws3, isSpaceJS c = true) ∧
    (∃ d t, tok = d :: t ∧ isDigitC d = true) ∧
    (∀ c ∈ tok, notFb c = true)

/-! ## Semantic versions

`upd.js` compares versions through the `semver` npm package
(`semver.gt`, `semver.rcompare`).  The library is modelled here from its
documented strict grammar and precedence rules: an optional leading `v`,
three dot-separated numeric identifiers without leading zeroes, an
optional dash-prefixed pre-release (dot-separated numeric or
alphanumeric identifiers) and an optional plus-prefixed build suffix
which is ignored by precedence.  `semver.gt` throws on input that does
not parse, modelled by `Option`. -/

/-- Identifier character of the semver grammar (`[0-9A-Za-z-]`). -/
def isIdentC (c : Char) : Bool := isDigitC c || isAlphaC c || c.toNat = 45

/-- Characters that can occur in a string accepted by the semver
grammar: identifier characters, `.` (46), `+` (43) and `v` (118). -/
def svChar (c : Char) : Bool :=
  isIdentC c || c.toNat = 46 || c.toNat = 43 || c.toNat = 118

/-- Pre-release identifier: numeric identifiers compare numerically and
before any alphanumeric identifier. -/
inductive PreId where
  | num : Nat → PreId
  | str : Str → PreId
deriving DecidableEq

/-- Parsed semantic version. -/
structure SemVer where
  major : Nat
  minor : Nat
  patch : Nat
  pre : List PreId
  build : List Str
deriving DecidableEq

/-- Numeric value of a digit string. -/
def strToNat (l : Str) : Nat := l.foldl (fun a c => a * 10 + (c.toNat - 48)) 0

/-- Parse a numeric identifier (digits, no leading zero unless the
identifier is exactly `0`), returning the rest of the input. -/
def parseNumId (l : Str) : Option (Nat × Str) :=
  let ds := l.takeWhile isDigitC
  if ds = [] then none
  else if 1 < ds.length ∧ ds.headD 'x' = '0' then none
  else some (strToNat ds, l.dropWhile isDigitC)

/-- Split a list at the separator `.` (46); the separators are removed. -/
def splitDot : Str → List Str
  | [] => [[]]
  | c :: r =>
    if c.toNat = 46 then [] :: splitDot r
    else
      match splitDot r with
      | [] => [[c]]
      | h :: t => (c :: h) :: t

/-- Validate one pre-release identifier. -/
def validPreId (l : Str) : Option PreId :=
  if l = [] then none
  else if l.all isDigitC then
    if 1 < l.length ∧ l.headD 'x' = '0' then none else some (.num (strToNat l))
  else if l.all isIdentC then some (.str l)
  else none

/-- Validate one build identifier (non-empty, `[0-9A-Za-z-]`). -/
def validBuildId (l : Str) : Option Str :=
  if l ≠ [] ∧ l.all isIdentC then some l else none

/-- Validate every chunk of a dot-separated identifier list. -/
def validateAll (f : Str → Option α) : List Str → Option (List α)
  | [] => some []
  | x :: xs =>
    match f x with
    | none => none
    | some y =>
      match validateAll f xs with
      | none => none
      | some ys => some (y :: ys)

/-- Strip the optional leading `v` (118) of the semver grammar. -/
def dropLeadV : Str → Str
  | [] => []
  | c :: r => if c.toNat = 118 then r else c :: r

/-- Parse the pre-release/build tail that follows `major.minor.patch`
(`-` is 45, `+` is 43). -/
def parseTail (maj mino pat : Nat) : Str → Option SemVer
  | [] => some ⟨maj, mino, pat, [], []⟩
  | c :: r =>
    if c.toNat = 43 then
      (validateAll validBuildId (splitDot r)).map (fun bs => ⟨maj, mino, pat, [], bs⟩)
    else if c.toNat = 45 then
      let pc := r.takeWhile (fun d => !(d.toNat = 43))
      match validateAll validPreId (splitDot pc) with
      | none => none
      | some pre =>
        match r.dropWhile (fun d => !(d.toNat = 43)) with
        | [] => some ⟨maj, mino, pat, pre, []⟩
        | _ :: b => (validateAll validBuildId (splitDot b)).map
            (fun bs => ⟨maj, mino, pat, pre, bs⟩)
    else none

/-- Parse a strict semver string (`v?N.N.N(-pre)?(+build)?`). -/
def parseSemVer (s : Str) : Option SemVer :=
  match parseNumId (dropLeadV s) with
  | none => none
  | some (maj, r1) =>
    match r1 with
    | c1 :: r2 =>
      if c1.toNat = 46 then
        match parseNumId r2 with
        | none => none
        | some (mino, r3) =>
          match r3 with
          | c2 :: r4 =>
            if c2.toNat = 46 then
              match parseNumId r4 with
              | none => none
              | some (pat, r5) => parseTail maj mino pat r5
            else none
          | [] => none
      else none
    | [] => none

/-- Three-way comparison of naturals. -/
def cmpNat (a b : Nat) : Ordering :=
  if a < b then .lt else if b < a then .gt else .eq

/-- Lexicographic ASCII comparison of strings. -/
def cmpStr : Str → Str → Ordering
  | [], [] => .eq
  | [], _ :: _ => .lt
  | _ :: _, [] => .gt
  | a :: as, b :: bs =>
    match cmpNat a.toNat b.toNat with
    | .eq => cmpStr as bs
    | o => o

/-- Pre-release identifier precedence: numeric before alphanumeric. -/
def cmpPreId : PreId → PreId → Ordering
  | .num a, .num b => cmpNat a b
  | .num _, .str _ => .lt
  | .str _, .num _ => .gt
  | .str a, .str b => cmpStr a b

/-- Pre-release list precedence: element-wise, a strict prefix comes
first. -/
def cmpPreList : List PreId → List PreId → Ordering
  | [], [] => .eq
  | [], _ :: _ => .lt
  | _ :: _, [] => .gt
  | a :: as, b :: bs =>
    match cmpPreId a b with
    | .eq => cmpPreList as bs
    | o => o

/-- Semver precedence: `major.minor.patch`, then a version without a
pre-release outranks one with a pre-release; build metadata is ignored. -/
def cmpSemVer (a b : SemVer) : Ordering :=
  match cmpNat a.major b.major with
  | .eq =>
    match cmpNat a.minor b.minor with
    | .eq =>
      match cmpNat a.patch b.patch with
      | .eq =>
        match a.pre, b.pre with
        | [], [] => .eq
        | [], _ :: _ => .gt
        | _ :: _, [] => .lt
        | _ :: _, _ :: _ => cmpPreList a.pre b.pre
      | o => o
    | o => o
  | o => o

/-- Model of `semver.gt(a, b)`: `none` when either string does not
parse (the library throws), otherwise whether `a` has strictly higher
precedence than `b`. -/
def semverGtE (a b : Str) : Option Bool :=
  match parseSemVer a, parseSemVer b with
  | some x, some y => some (cmpSemVer x y == Ordering.gt)
  | _, _ => none

/-! ## First-occurrence replacement

`upd.js` line 213 builds `new RegExp(escRE(vOld), "")` — a literal
pattern without the global flag — and calls `sOld.replace(re, vNew)`.
`String.replace` substitutes the first occurrence and interprets the
dollar escapes `$$`, `$&`, a dollar followed by 96 (backquote) and a
dollar followed by 39 (quote) inside the replacement string; a dollar
followed by anything else is kept literally because the pattern has no
capture groups. -/

/-- Does the first list start the second one? -/
def stripPref : Str → Str → Option Str
  | [], s => some s
  | _ :: _, [] => none
  | a :: as, b :: bs => if a = b then stripPref as bs else none

/-- Split at the first occurrence of `pat`: returns the part before and
the part after the occurrence. -/
def splitFirst (pat : Str) : Str → Option (Str × Str)
  | [] =>
    match stripPref pat [] with
    | some r => some ([], r)
    | none => none
  | c :: s =>
    match stripPref pat (c :: s) with
    | some r => some ([], r)
    | none => (splitFirst pat s).map (fun q => (c :: q.1, q.2))

/-- Expand the ECMAScript replacement-string dollar escapes (`$` is 36,
`&` is 38, backquote is 96, quote is 39). -/
def expandDollar (matched bef aft : Str) : Str → Str
  | [] => []
  | [c] => [c]
  | c :: d :: r2 =>
    if c.toNat = 36 then
      if d.toNat = 36 then d :: expandDollar matched bef aft r2
      else if d.toNat = 38 then matched ++ expandDollar matched bef aft r2
      else if d.toNat = 96 then bef ++ expandDollar matched bef aft r2
      else if d.toNat = 39 then aft ++ expandDollar matched bef aft r2
      else c :: expandDollar matched bef aft (d :: r2)
    else c :: expandDollar matched bef aft (d :: r2)

/-- Model of `s.replace(new RegExp(escRE(pat), ""), repl)`. -/
def jsReplaceFirst (s pat repl : Str) : Str :=
  match splitFirst pat s with
  | none => s
  | some (bef, aft) => bef ++ expandDollar pat bef aft repl ++ aft

/-! ## Selection patterns

`upd.js` line 109-111 classifies an entry as `todo` when no patterns
were given or when `micromatch([module], pats)` keeps the module, where
pats prepends `"*"` if the first pattern is negated.  `micromatch` is an
external library; it is modelled from its documented default semantics:
an item is kept when it matches some positive pattern and no negated
pattern (when every pattern is negated, items matching none are kept);
`*` matches any run of characters except `/`, and a wildcard does not
match a leading dot. -/

/-- Expansion of one `*`: try to match the rest of the pattern (`f`)
at every suffix of the text, where the wildcard consumes neither `/`
(47) nor a dot (46) at the start of a segment. -/
def starLoop (f : Str → Bool → Bool) : Str → Bool → Bool
  | [], atS2 => f [] atS2
  | t :: ts2, atS2 =>
    f (t :: ts2) atS2 ||
      (!(t.toNat = 47) && !(atS2 && t.toNat = 46) && starLoop f ts2 false)

/-- Glob matching for patterns made of literal characters and `*`
(42); `atS` records whether the current text position starts a path
segment, where a wildcard may not match a dot (46) and `*` never
matches `/` (47). -/
def globC : Str → Str → Bool → Bool
  | [], ts, _ => ts.isEmpty
  | p :: ps2, ts, atS =>
    if p.toNat = 42 then starLoop (fun ts3 atS3 => globC ps2 ts3 atS3) ts atS
    else
      match ts with
      | [] => false
      | t :: ts2 => p = t && globC ps2 ts2 (t.toNat = 47)

/-- Whether a glob pattern matches a whole name. -/
def glob (p m : Str) : Bool := globC p m true

/-- Negated pattern (leading `!`, 33). -/
def isNegPat (p : Str) : Bool :=
  match p with
  | [] => false
  | c :: _ => c.toNat = 33

/-- Strip the leading `!` of a negated pattern. -/
def stripNeg (p : Str) : Str :=
  match p with
  | [] => []
  | c :: r => if c.toNat = 33 then r else c :: r

/-- Does `micromatch([m], pats)` keep `m`? -/
def micromatchHit (m : Str) (pats : List Str) : Bool :=
  if pats ≠ [] ∧ pats.all isNegPat then
    pats.all (fun p => !glob (stripNeg p) m)
  else
    pats.any (fun p => !isNegPat p && glob p m) &&
      pats.all (fun p => !isNegPat p || !glob (stripNeg p) m)

/-! ## Dependency entries and the mixin -/

/-- Entry states, as in the `state` strings of `upd.js`. -/
inductive EState where
  | ignored | todo | skipped | check | kept | updated
deriving DecidableEq

/-- One dependency entry of one section, mirroring the object pushed at
`upd.js` line 123 (`{ section, sOld, vOld, sNew, vNew, state }`); the
entry's module name is the key of its `manifest` bucket. -/
structure Entry where
  sect : Str
  sOld : Str
  vOld : Str
  sNew : Str
  vNew : Str
  state : EState
deriving DecidableEq

/-- The ignored/todo selection of `upd.js` line 109-111. -/
def classifyState (pats : List Str) (module : Str) : EState :=
  if pats = [] then .todo
  else if micromatchHit module
      ((if isNegPat (pats.headD []) then [['*']] else []) ++ pats) then .todo
  else .ignored

/-- One entry as built by the `mixin` loop body (`upd.js` lines
107-123): selection, then the specifier grammar refines `todo` into
`check` (capturing the pinned version) or `skipped`. -/
def mixinEntry (pats : List Str) (sect module sOld : Str) : Entry :=
  let st := classifyState pats module
  if st = .todo then
    match specMatch sOld with
    | some v => ⟨sect, sOld, v, sOld, v, .check⟩
    | none => ⟨sect, sOld, sOld, sOld, sOld, .skipped⟩
  else ⟨sect, sOld, sOld, sOld, sOld, st⟩

/-! ## The manifest inventory

`manifest` in `upd.js` is a plain object mapping a module name to the
array of its entries, filled by running `mixin` over the four dependency
sections in a fixed order.  A JavaScript object keeps keys in insertion
order, so the object is modelled as an association list whose keys
appear in order of first appearance and whose buckets collect the
entries of that name in processing order. -/

/-- A parsed `package.json`, restricted to its dependency sections:
association list from section name to the ordered `(module, specifier)`
pairs of that section. -/
abbrev Pkg := List (Str × List (Str × Str))

/-- The inventory: association list from module name to its entries. -/
abbrev Manifest := List (Str × List Entry)

/-- First-match association-list lookup. -/
def lookupA : List (Str × β) → Str → Option β
  | [], _ => none
  | (k, v) :: r, n => if k = n then some v else lookupA r n

/-- The four mixin calls of `upd.js` lines 127-130, in order. -/
def sectionsOrder : List Str :=
  [("optionalDependencies".data), ("peerDependencies".data),
   ("devDependencies".data), ("dependencies".data)]

/-- The sections that are present, in processing order. -/
def orderedSections (pkg : Pkg) : Pkg :=
  sectionsOrder.filterMap (fun s => (lookupA pkg s).map (fun items => (s, items)))

/-- Every `(section, module, specifier)` triple, in processing order. -/
def allPairs (pkg : Pkg) : List (Str × Str × Str) :=
  ((orderedSections pkg).map (fun se => se.2.map (fun it => (se.1, it.1, it.2)))).flatten

/-- Remove duplicates keeping the first occurrence (elements already
seen are skipped). -/
def ddupAux (seen : List Str) : List Str → List Str
  | [] => []
  | a :: l => if a ∈ seen then ddupAux seen l else a :: ddupAux (a :: seen) l

/-- Remove duplicates keeping the first occurrence. -/
def ddup (l : List Str) : List Str := ddupAux [] l

/-- Module names in order of first appearance. -/
def manifestKeys (pkg : Pkg) : List Str :=
  ddup ((allPairs pkg).map (fun tr => tr.2.1))

/-- All entries of one module name, in processing order. -/
def bucketFor (pats : List Str) (pkg : Pkg) (n : Str) : List Entry :=
  (allPairs pkg).filterMap
    (fun tr => if tr.2.1 = n then some (mixinEntry pats tr.1 n tr.2.2) else none)

/-- The inventory built by the four `mixin` calls. -/
def buildManifest (pats : List Str) (pkg : Pkg) : Manifest :=
  (manifestKeys pkg).map (fun n => (n, bucketFor pats pkg n))

/-- Does a bucket contain an entry in `check` state? -/
def hasCheck (es : List Entry) : Bool := es.any (fun e => e.state = .check)

/-- The deduplicated lookup list (`Object.keys(checked)` of `upd.js`
lines 174-180): module names having at least one `check` entry, in
manifest order. -/
def checkedNames (m : Manifest) : List Str :=
  (m.filter (fun b => hasCheck b.2)).map Prod.fst

/-- ASCII lowercasing (`name.toLowerCase()` at `upd.js` line 182). -/
def lowerChar (c : Char) : Char :=
  if 65 ≤ c.toNat ∧ c.toNat ≤ 90 then Char.ofNat (c.toNat + 32) else c

/-- Lowercase a whole name. -/
def lowerStr (s : Str) : Str := s.map lowerChar

/-! ## The syntax tree and the patcher

`json-asty` parses the manifest into a tree whose leaves keep the raw
source text, re-rendered by concatenation (`JsonAsty.unparse`), so that
an unmodified tree round-trips byte-identically.  The tree is modelled
as the flat list of its leaves; a leaf that is the value string holding
the specifier of entry `(section, module)` carries that key.  The
compiled query of `upd.js` lines 159-171 selects the value-string node
whose enclosing member has name `module` inside the member named
`section`, and the code demands exactly one hit. -/

/-- One leaf of the syntax tree: its raw text, and the `(section,
module)` key when the leaf is that entry's specifier value string. -/
structure Tok where
  key : Option (Str × Str)
  text : Str
deriving DecidableEq

/-- A document is the list of its leaves. -/
abbrev Doc := List Tok

/-- Re-render the tree (`JsonAsty.unparse`). -/
def unparse (d : Doc) : Str := (d.map Tok.text).flatten

/-- Lowercase hex digit. -/
def hexDigit (n : Nat) : Char :=
  if n < 10 then Char.ofNat (48 + n) else Char.ofNat (87 + n)

/-- JSON string escaping of one character (`JSON.stringify`). -/
def escChar (c : Char) : Str :=
  if c.toNat = 34 then [Char.ofNat 92, Char.ofNat 34]
  else if c.toNat = 92 then [Char.ofNat 92, Char.ofNat 92]
  else if c.toNat = 10 then [Char.ofNat 92, 'n']
  else if c.toNat = 13 then [Char.ofNat 92, 'r']
  else if c.toNat = 9 then [Char.ofNat 92, 't']
  else if c.toNat = 8 then [Char.ofNat 92, 'b']
  else if c.toNat = 12 then [Char.ofNat 92, 'f']
  else if c.toNat < 32 then
    [Char.ofNat 92, 'u', '0', '0', hexDigit (c.toNat / 16), hexDigit (c.toNat % 16)]
  else [c]

/-- `JSON.stringify` of a string (34 is the double quote). -/
def jsonQuote (s : Str) : Str :=
  Char.ofNat 34 :: (s.map escChar).flatten ++ [Char.ofNat 34]

instance {ε α : Type} [DecidableEq ε] [DecidableEq α] : DecidableEq (Except ε α) :=
  fun a b =>
    match a, b with
    | .error e1, .error e2 =>
      if h : e1 = e2 then isTrue (by rw [h])
      else isFalse (by intro hh; cases hh; exact h rfl)
    | .error _, .ok _ => isFalse (by intro h; cases h)
    | .ok _, .error _ => isFalse (by intro h; cases h)
    | .ok a1, .ok a2 =>
      if h : a1 = a2 then isTrue (by rw [h])
      else isFalse (by intro hh; cases hh; exact h rfl)

/-- Errors that abort the run (each corresponds to a `throw` in
`upd.js`; any of them reaches the final catch and exits non-zero). -/
inductive UpdErr where
  | fetchFailed : Str → UpdErr
  | noLatest : Str → UpdErr
  | invalidVersion : UpdErr
  | substFailed : Str → UpdErr
  | astQueryFailed : Str → UpdErr
deriving DecidableEq

/-- Execute the compiled query for `(section, module)` and set the
single matching node's text (`upd.js` lines 221-229): with exactly one
hit the node text becomes `JSON.stringify` of the new specifier,
otherwise the run aborts. -/
def astPatch (sect module txt : Str) (d : Doc) : Except UpdErr Doc :=
  if d.countP (fun t => t.key = some (sect, module)) = 1 then
    .ok (d.map (fun t => if t.key = some (sect, module) then { t with text := txt } else t))
  else .error (.astQueryFailed module)

/-! ## Registry data and resolution -/

/-- Registry metadata for one package, as used by the merge loop:
the keys of `data.versions` and `data["dist-tags"].latest`. -/
structure PkgData where
  versions : List Str
  latest : Option Str
deriving DecidableEq

/-- Pick the head of the `semver.rcompare`-descending sort of the
published versions (`upd.js` lines 190-193).  `rcompare` throws on a
version that does not parse, aborting the run; ties (distinct strings
of equal precedence) are resolved deterministically to the earliest,
matching the stable engine sort. -/
def greatestVersion (vs : List Str) : Except UpdErr Str :=
  match validateAll (fun v => (parseSemVer v).map (fun sv => (v, sv))) vs with
  | none => .error .invalidVersion
  | some parsed =>
    match parsed.foldl
        (fun acc p =>
          match acc with
          | none => some p
          | some q => if cmpSemVer p.2 q.2 == Ordering.gt then some p else some q)
        none with
    | some q => .ok q.1
    | none => .error .invalidVersion

/-- The resolution target of one package (`upd.js` lines 188-199):
greatest published version in greatest mode, else the `latest` dist-tag,
whose absence aborts the run. -/
def resolveTarget (greatest : Bool) (name : Str) (d : PkgData) : Except UpdErr Str :=
  if greatest then greatestVersion d.versions
  else
    match d.latest with
    | some v => .ok v
    | none => .error (.noLatest name)

/-! ## The merge loop -/

/-- Merge one resolved version into one entry, patching the tree when
the entry updates and `nop` is not set (`upd.js` lines 200-233): a
non-`check` entry is untouched; equal strings keep; `semver.gt` keeps
on a pinned version ahead of the registry and throws on versions that
do not parse; otherwise the first occurrence of the pinned version in
the specifier is replaced, an unchanged specifier aborts, and the tree
node is rewritten.  Returns the entry, its updates-flag contribution,
and the (possibly patched) document. -/
def mergeOne (nop : Bool) (name vNew : Str) (e : Entry) (doc : Doc) :
    Except UpdErr (Entry × Bool × Doc) :=
  if e.state ≠ .check then .ok (e, false, doc)
  else if e.vOld = vNew then
    .ok ({ e with vNew := vNew, sNew := vNew, state := .kept }, false, doc)
  else
    match semverGtE e.vOld vNew with
    | none => .error .invalidVersion
    | some true => .ok ({ e with vNew := vNew, sNew := vNew, state := .kept }, false, doc)
    | some false =>
      let sN := jsReplaceFirst e.sOld e.vOld vNew
      if sN = e.sOld then .error (.substFailed name)
      else if nop then
        .ok ({ e with vNew := vNew, sNew := sN, state := .updated }, true, doc)
      else
        match astPatch e.sect name (jsonQuote sN) doc with
        | .error er => .error er
        | .ok doc2 => .ok ({ e with vNew := vNew, sNew := sN, state := .updated }, true, doc2)

/-- Merge one resolved version into every entry of a bucket, in order. -/
def mergeSpecs (nop : Bool) (name vNew : Str) :
    List Entry → Doc → Except UpdErr (List Entry × Bool × Doc)
  | [], doc => .ok ([], false, doc)
  | e :: es, doc =>
    match mergeOne nop name vNew e doc with
    | .error er => .error er
    | .ok (e2, u, doc2) =>
      match mergeSpecs nop name vNew es doc2 with
      | .error er => .error er
      | .ok (es2, u2, doc3) => .ok (e2 :: es2, u || u2, doc3)

/-- Apply one resolved version to the bucket of its name
(`manifest[name].forEach` at `upd.js` line 200). -/
def updBucket (nop : Bool) (name vNew : Str) :
    Manifest → Doc → Except UpdErr (Manifest × Bool × Doc)
  | [], doc => .ok ([], false, doc)
  | (k, es) :: rest, doc =>
    if k = name then
      match mergeSpecs nop name vNew es doc with
      | .error er => .error er
      | .ok (es2, u, doc2) => .ok ((k, es2) :: rest, u, doc2)
    else
      match updBucket nop name vNew rest doc with
      | .error er => .error er
      | .ok (rest2, u, doc2) => .ok ((k, es) :: rest2, u, doc2)

/-- The whole merge loop over the resolution results (`upd.js` lines
186-234), threading the updates flag and the document. -/
def mergeResults (nop greatest : Bool) :
    List (Str × PkgData) → Manifest → Doc → Except UpdErr (Manifest × Bool × Doc)
  | [], m, doc => .ok (m, false, doc)
  | (name, d) :: rs, m, doc =>
    match resolveTarget greatest name d with
    | .error er => .error er
    | .ok vNew =>
      match updBucket nop name vNew m doc with
      | .error er => .error er
      | .ok (m2, u, doc2) =>
        match mergeResults nop greatest rs m2 doc2 with
        | .error er => .error er
        | .ok (m3, u2, doc3) => .ok (m3, u || u2, doc3)

/-! ## The whole run -/

/-- The command-line options that reach the core (`-n` is `nop`, `-g`
is `greatest`, `-a` is `all`; positional arguments are the patterns).
The concurrency bound only affects scheduling and is not part of the
sequential model. -/
structure Argv where
  patterns : List Str
  nop : Bool
  greatest : Bool
  all : Bool
deriving DecidableEq

/-- One row of the report table (`upd.js` lines 263-290), stripped of
colouring. -/
structure Row where
  name : Str
  sOld : Str
  sNew : Str
  state : EState
deriving DecidableEq

/-- The report: one row per entry, restricted to updated entries unless
`all` is set. -/
def mkReport (all : Bool) (m : Manifest) : List Row :=
  (m.map (fun b => b.2.filterMap
    (fun e =>
      if e.state = .updated ∨ all = true then some (⟨b.1, e.sOld, e.sNew, e.state⟩ : Row)
      else none))).flatten

/-- Resolve every checked name against the registry (the
`awaity/mapLimit` fan-out of `upd.js` lines 181-184): each lookup
yields the metadata for the lowercased name, and any failure fails the
whole resolution phase. -/
def fetchAll (registry : Str → Except Str PkgData) :
    List Str → Except UpdErr (List (Str × PkgData))
  | [] => .ok []
  | n :: ns =>
    match registry (lowerStr n) with
    | .error msg => .error (.fetchFailed msg)
    | .ok d =>
      match fetchAll registry ns with
      | .error er => .error er
      | .ok rs => .ok ((n, d) :: rs)

/-- Outcome of a successful run: the final inventory, the report, the
updates flag, and the text written back to disk (`none` when the file
is left untouched). -/
structure RunOut where
  manifest : Manifest
  report : List Row
  updates : Bool
  written : Option Str
deriving DecidableEq

/-- The whole pipeline of the main IIFE on one manifest: build the
inventory, resolve the deduplicated checked names, merge and patch,
report, and write the re-rendered document only when something updated
and `nop` is off (`upd.js` lines 314-318).  Any thrown error aborts the
run before the write. -/
def runUpd (argv : Argv) (pkg : Pkg) (registry : Str → Except Str PkgData)
    (doc : Doc) : Except UpdErr RunOut :=
  let m := buildManifest argv.patterns pkg
  match fetchAll registry (checkedNames m) with
  | .error er => .error er
  | .ok results =>
    match mergeResults argv.nop argv.greatest results m doc with
    | .error er => .error er
    | .ok (m2, updates, doc2) =>
      .ok ⟨m2, mkReport argv.all m2, updates,
           if updates && !argv.nop then some (unparse doc2) else none⟩

/-! ## The second run

Idempotence compares a run with the run on the rewritten manifest.  The
rewritten file differs from the original exactly in the specifier
strings of the updated entries, so the inventory it parses to is the
original one with those specifiers replaced. -/

/-- The entry of a given section inside a bucket. -/
def firstSect : List Entry → Str → Option Entry
  | [], _ => none
  | e :: es, s => if e.sect = s then some e else firstSect es s

/-- The specifier that the rewritten manifest declares for
`(sect, module)`: the new specifier when that entry updated, the
original one otherwise. -/
def nextSpec (m : Manifest) (sect module sOld : Str) : Str :=
  match lookupA m module with
  | none => sOld
  | some es =>
    match firstSect es sect with
    | none => sOld
    | some e => if e.state = .updated then e.sNew else sOld

/-- The dependency sections of the rewritten manifest. -/
def nextPkg (m : Manifest) (pkg : Pkg) : Pkg :=
  pkg.map (fun se => (se.1, se.2.map (fun it => (it.1, nextSpec m se.1 it.1 it.2))))

/-- The `(section, name)` keys of the entries that reached `updated`. -/
def updatedKeysL (m : Manifest) : List (Str × Str) :=
  (m.map (fun b => b.2.filterMap
    (fun e => if e.state = .updated then some (e.sect, b.1) else none))).flatten

/-! ## Characterizations used by the proofs

`mergeOne` touches the document only through `astPatch`; its entry and
flag outputs are a pure function of the entry and the resolved version,
captured by `mergeEntryOk` (`none` when the merge would abort). -/

/-- The entry/flag outcome of `mergeOne`, independent of the document
and the dry-run flag. -/
def mergeEntryOk (vNew : Str) (e : Entry) : Option (Entry × Bool) :=
  if e.state ≠ .check then some (e, false)
  else if e.vOld = vNew then
    some ({ e with vNew := vNew, sNew := vNew, state := .kept }, false)
  else
    match semverGtE e.vOld vNew with
    | none => none
    | some true => some ({ e with vNew := vNew, sNew := vNew, state := .kept }, false)
    | some false =>
      if jsReplaceFirst e.sOld e.vOld vNew = e.sOld then none
      else some ({ e with vNew := vNew, sNew := jsReplaceFirst e.sOld e.vOld vNew, state := .updated }, true)

/-- The merged entry (the entry itself when the merge would abort). -/
def extractE (vNew : Str) (e : Entry) : Entry :=
  match mergeEntryOk vNew e with
  | some p => p.1
  | none => e

/-- The updates-flag contribution of one entry. -/
def mergeFlag (vNew : Str) (e : Entry) : Bool :=
  match mergeEntryOk vNew e with
  | some p => p.2
  | none => false

/-- The resolved version a result list determines for a name. -/
def resolveFor (g : Bool) (rs : List (Str × PkgData)) (k : Str) : Option Str :=
  match lookupA rs k with
  | none => none
  | some d =>
    match resolveTarget g k d with
    | .ok v => some v
    | .error _ => none

/-- A bucket after the merge loop. -/
def finalBucket (g : Bool) (rs : List (Str × PkgData)) (k : Str) (es : List Entry) :
    List Entry :=
  match resolveFor g rs k with
  | none => es
  | some v => es.map (extractE v)

/-- A bucket's contribution to the updates flag. -/
def bucketFlag (g : Bool) (rs : List (Str × PkgData)) (k : Str) (es : List Entry) : Bool :=
  match resolveFor g rs k with
  | none => false
  | some v => es.any (mergeFlag v)

/-- Relation between the document before and after a phase of patching:
same length, same keys, and every token whose key is not selected by
`P` is unchanged. -/
def DocChanges (P : Str × Str → Prop) (doc doc2 : Doc) : Prop :=
  doc2.length = doc.length ∧
  ∀ i (h1 : i < doc.length) (h2 : i < doc2.length),
    (doc2.get ⟨i, h2⟩).key = (doc.get ⟨i, h1⟩).key ∧
    ((∀ kk, (doc.get ⟨i, h1⟩).key = some kk → ¬P kk) →
      doc2.get ⟨i, h2⟩ = doc.get ⟨i, h1⟩)

/-! ## List and character-class lemmas -/

theorem char_eq_of_toNat {c d : Char} (h : c.toNat = d.toNat) : c = d :=
  Char.eq_of_val_eq (UInt32.eq_of_toBitVec_eq (BitVec.eq_of_toNat_eq h))

theorem dropWhile_append_all {p : Char → Bool} :
    ∀ (a b : Str), (∀ c ∈ a, p c = true) →
      List.dropWhile p (a ++ b) = List.dropWhile p b
  | [], _, _ => rfl
  | c :: a, b, h => by
    have hc : p c = true := h c (by simp)
    simp only [List.cons_append, List.dropWhile_cons, hc, if_true]
    exact dropWhile_append_all a b (fun d hd => h d (by simp [hd]))

theorem takeWhile_append_all {p : Char → Bool} :
    ∀ (a b : Str), (∀ c ∈ a, p c = true) →
      List.takeWhile p (a ++ b) = a ++ List.takeWhile p b
  | [], _, _ => rfl
  | c :: a, b, h => by
    have hc : p c = true := h c (by simp)
    simp only [List.cons_append, List.takeWhile_cons, hc, if_true]
    simp [takeWhile_append_all a b (fun d hd => h d (by simp [hd]))]

theorem dropWhile_cons_neg {p : Char → Bool} {c : Char} {l : Str}
    (h : p c = false) : List.dropWhile p (c :: l) = c :: l := by
  simp [List.dropWhile_cons, h]

theorem takeWhile_cons_neg {p : Char → Bool} {c : Char} {l : Str}
    (h : p c = false) : List.takeWhile p (c :: l) = [] := by
  simp [List.takeWhile_cons, h]

theorem dropWhile_head_false {p : Char → Bool} :
    ∀ {l : Str} {c : Char} {r : Str}, List.dropWhile p l = c :: r → p c = false := by
  intro l
  induction l with
  | nil => intro c r h; cases h
  | cons a l ih =>
    intro c r h
    by_cases ha : p a = true
    · rw [List.dropWhile_cons, if_pos ha] at h
      exact ih h
    · rw [List.dropWhile_cons, if_neg ha] at h
      cases h
      simpa using ha

theorem digit_not_space {c : Char} (h : isDigitC c = true) : isSpaceJS c = false := by
  simp only [isDigitC, Bool.and_eq_true, decide_eq_true_eq] at h
  simp only [isSpaceJS, Bool.or_eq_false_iff, Bool.and_eq_false_iff,
    decide_eq_false_iff_not]
  omega

theorem digit_notFb {c : Char} (h : isDigitC c = true) : notFb c = true := by
  simp only [isDigitC, Bool.and_eq_true, decide_eq_true_eq] at h
  simp only [notFb, isSpaceJS, Bool.not_eq_true', Bool.or_eq_false_iff,
    Bool.and_eq_false_iff, decide_eq_false_iff_not]
  omega

theorem space_not_notFb {c : Char} (h : isSpaceJS c = true) : notFb c = false := by
  simp only [notFb, Bool.not_eq_false]
  simp [h]

theorem digit_not_op {c : Char} (h : isDigitC c = true) :
    (c.toNat = 94 || c.toNat = 126) = false := by
  simp only [isDigitC, Bool.and_eq_true, decide_eq_true_eq] at h
  simp only [Bool.or_eq_false_iff, decide_eq_false_iff_not]
  omega

theorem all_space_dropWhile_notFb {l : Str} (h : ∀ c ∈ l, isSpaceJS c = true) :
    List.dropWhile notFb l = l := by
  cases l with
  | nil => rfl
  | cons c r => exact dropWhile_cons_neg (space_not_notFb (h c (by simp)))

theorem all_space_takeWhile_notFb {l : Str} (h : ∀ c ∈ l, isSpaceJS c = true) :
    List.takeWhile notFb l = [] := by
  cases l with
  | nil => rfl
  | cons c r => exact takeWhile_cons_neg (space_not_notFb (h c (by simp)))

theorem afterOp_cons (c : Char) (r : Str) :
    afterOp (c :: r) = if c.toNat = 94 || c.toNat = 126 then dropSp r else c :: r := rfl

/-! ## The grammar characterization -/

/-- The deterministic matcher agrees with the declarative reading of
the specifier grammar. -/
theorem specMatch_iff_decomp (s tok : Str) : specMatch s = some tok ↔ Decomp s tok := by
  constructor
  · intro h
    rcases h2 : afterOp (dropSp s) with _ | ⟨c, l2t⟩
    · simp only [specMatch, h2] at h
      exact Option.noConfusion h
    · simp only [specMatch, h2] at h
      by_cases hd : isDigitC c = true
      · rw [if_pos hd] at h
        by_cases hsp : ((c :: l2t).dropWhile notFb).all isSpaceJS = true
        · rw [if_pos hsp] at h
          injection h with h
          subst h
          have hs1 : s = s.takeWhile isSpaceJS ++ dropSp s :=
            (List.takeWhile_append_dropWhile ..).symm
          have hws1 : ∀ d ∈ s.takeWhile isSpaceJS, isSpaceJS d = true := by
            intro d hdm
            exact List.mem_takeWhile_imp hdm
          have hws3 : ∀ d ∈ (c :: l2t).dropWhile notFb, isSpaceJS d = true := by
            intro d hdm
            exact List.all_eq_true.mp hsp d hdm
          have hsplit : c :: l2t =
              (c :: l2t).takeWhile notFb ++ (c :: l2t).dropWhile notFb :=
            (List.takeWhile_append_dropWhile ..).symm
          have htokmem : ∀ d ∈ (c :: l2t).takeWhile notFb, notFb d = true := by
            intro d hdm
            exact List.mem_takeWhile_imp hdm
          have htokhead : ∃ d t, (c :: l2t).takeWhile notFb = d :: t ∧ isDigitC d = true := by
            refine ⟨c, List.takeWhile notFb l2t, ?_, hd⟩
            rw [List.takeWhile_cons, if_pos (digit_notFb hd)]
          rcases h1 : dropSp s with _ | ⟨c0, r0⟩
          · rw [h1] at h2; cases h2
          · rw [h1] at h2
            by_cases hop : (c0.toNat = 94 || c0.toNat = 126) = true
            · have hsame : dropSp r0 = c :: l2t := by
                rw [afterOp_cons] at h2
                rw [if_pos hop] at h2
                exact h2
              refine ⟨s.takeWhile isSpaceJS, [c0], r0.takeWhile isSpaceJS,
                (c :: l2t).dropWhile notFb, ?_, hws1, ?_, ?_, ?_, hws3,
                htokhead, htokmem⟩
              · refine hs1.trans ?_
                rw [h1]
                refine congrArg (fun l => List.takeWhile isSpaceJS s ++ l) ?_
                have hr0 : List.takeWhile isSpaceJS r0 ++ List.dropWhile isSpaceJS r0 = r0 :=
                  List.takeWhile_append_dropWhile ..
                calc c0 :: r0
                    = c0 :: (List.takeWhile isSpaceJS r0 ++ List.dropWhile isSpaceJS r0) := by
                      rw [hr0]
                  _ = c0 :: (List.takeWhile isSpaceJS r0 ++
                        ((c :: l2t).takeWhile notFb ++ (c :: l2t).dropWhile notFb)) := by
                      rw [show List.dropWhile isSpaceJS r0 =
                            (c :: l2t).takeWhile notFb ++ (c :: l2t).dropWhile notFb from
                          hsame.trans hsplit]
                  _ = [c0] ++ (List.takeWhile isSpaceJS r0 ++
                        ((c :: l2t).takeWhile notFb ++ (c :: l2t).dropWhile notFb)) := rfl
              · rcases Bool.or_eq_true_iff.mp hop with h94 | h126
                · right; left
                  have := char_eq_of_toNat (show c0.toNat = ('^').toNat from by
                    simpa using h94)
                  simp [this]
                · right; right
                  have := char_eq_of_toNat (show c0.toNat = ('~').toNat from by
                    simpa using h126)
                  simp [this]
              · intro d hdm
                exact List.mem_takeWhile_imp hdm
              · intro hc
                cases hc
            · have hsame : c0 :: r0 = c :: l2t := by
                rw [afterOp_cons] at h2
                rw [if_neg hop] at h2
                exact h2
              refine ⟨s.takeWhile isSpaceJS, [], [], (c :: l2t).dropWhile notFb,
                ?_, hws1, Or.inl rfl, ?_, ?_, hws3,
                htokhead, htokmem⟩
              · refine hs1.trans ?_
                rw [h1, hsame]
                simp only [List.nil_append]
                exact congrArg (fun l => List.takeWhile isSpaceJS s ++ l) hsplit
              · intro d hdm
                cases hdm
              · intro hc
                rfl
        · rw [if_neg hsp] at h; cases h
      · rw [if_neg hd] at h; cases h
  · rintro ⟨ws1, op, ws2, ws3, hs, hws1, hop, hws2, hopws2, hws3, ⟨d, t, htok, hd⟩, htokFb⟩
    have hdsp : isSpaceJS d = false := digit_not_space hd
    have hcore : List.dropWhile isSpaceJS (tok ++ ws3) = tok ++ ws3 := by
      rw [htok]
      exact dropWhile_cons_neg hdsp
    have hmatch : afterOp (dropSp s) = d :: (t ++ ws3) := by
      have hgoal : afterOp (dropSp s) = tok ++ ws3 := by
        unfold dropSp
        rw [hs, dropWhile_append_all ws1 _ hws1]
        rcases hop with hop | hop | hop
        · subst hop
          rw [hopws2 rfl]
          simp only [List.nil_append]
          rw [hcore, htok]
          rw [show (d :: t) ++ ws3 = d :: (t ++ ws3) from rfl, afterOp_cons]
          rw [if_neg (by simp [digit_not_op hd] : ¬(d.toNat = 94 || d.toNat = 126) = true)]
        · subst hop
          rw [show (['^'] : Str) ++ (ws2 ++ (tok ++ ws3)) = '^' :: (ws2 ++ (tok ++ ws3))
            from rfl]
          rw [dropWhile_cons_neg (show isSpaceJS '^' = false from by decide)]
          rw [afterOp_cons]
          rw [if_pos (by decide)]
          unfold dropSp
          rw [dropWhile_append_all ws2 _ hws2]
          exact hcore
        · subst hop
          rw [show (['~'] : Str) ++ (ws2 ++ (tok ++ ws3)) = '~' :: (ws2 ++ (tok ++ ws3))
            from rfl]
          rw [dropWhile_cons_neg (show isSpaceJS '~' = false from by decide)]
          rw [afterOp_cons]
          rw [if_pos (by decide)]
          unfold dropSp
          rw [dropWhile_append_all ws2 _ hws2]
          exact hcore
      rw [hgoal, htok]
      rfl
    have hdw : List.dropWhile notFb (d :: (t ++ ws3)) = ws3 := by
      rw [show d :: (t ++ ws3) = (d :: t) ++ ws3 from rfl, ← htok]
      rw [dropWhile_append_all tok _ htokFb]
      exact all_space_dropWhile_notFb hws3
    have htw : List.takeWhile notFb (d :: (t ++ ws3)) = tok := by
      rw [show d :: (t ++ ws3) = (d :: t) ++ ws3 from rfl, ← htok]
      rw [takeWhile_append_all tok _ htokFb, all_space_takeWhile_notFb hws3]
      simp
    simp only [specMatch, hmatch, hdw, htw]
    rw [if_pos hd, if_pos (List.all_eq_true.mpr hws3)]

/-! ## Comparison lemmas -/

theorem cmpNat_self (a : Nat) : cmpNat a a = .eq := by
  simp [cmpNat]

theorem cmpStr_self : ∀ l : Str, cmpStr l l = .eq
  | [] => rfl
  | a :: as => by
    simp only [cmpStr, cmpNat_self]
    exact cmpStr_self as

theorem cmpPreId_self (p : PreId) : cmpPreId p p = .eq := by
  cases p with
  | num a => simp [cmpPreId, cmpNat_self]
  | str a => simp [cmpPreId, cmpStr_self]

theorem cmpPreList_self : ∀ l : List PreId, cmpPreList l l = .eq
  | [] => rfl
  | a :: as => by
    simp only [cmpPreList, cmpPreId_self]
    exact cmpPreList_self as

theorem cmpSemVer_self (v : SemVer) : cmpSemVer v v = .eq := by
  unfold cmpSemVer
  rw [cmpNat_self, cmpNat_self, cmpNat_self]
  cases h : v.pre with
  | nil => rfl
  | cons a as => simp [h, cmpPreList_self]

/-- `semver.gt` never holds between equal strings. -/
theorem semverGtE_ne_of_gt {a b : Str} (h : semverGtE a b = some true) : a ≠ b := by
  intro hab
  subst hab
  cases hp : parseSemVer a with
  | none => simp [semverGtE, hp] at h
  | some x =>
    simp only [semverGtE, hp, cmpSemVer_self] at h
    exact absurd h (by decide)

/-! ## Replacement lemmas -/

theorem stripPref_append : ∀ (pat r : Str), stripPref pat (pat ++ r) = some r
  | [], _ => rfl
  | a :: as, r => by
    simp only [List.cons_append, stripPref, if_pos rfl]
    exact stripPref_append as r

theorem stripPref_some : ∀ {pat s r : Str}, stripPref pat s = some r → s = pat ++ r := by
  intro pat
  induction pat with
  | nil => intro s r h; cases h; rfl
  | cons a as ih =>
    intro s r h
    cases s with
    | nil => cases h
    | cons b bs =>
      simp only [stripPref] at h
      by_cases hab : a = b
      · rw [if_pos hab] at h
        rw [← hab]
        simpa using ih h
      · rw [if_neg hab] at h
        cases h

theorem stripPref_head_ne {d c : Char} {t s : Str} (h : c ≠ d) :
    stripPref (d :: t) (c :: s) = none := by
  simp only [stripPref]
  rw [if_neg (fun hdc => h hdc.symm)]

theorem splitFirst_cons (pat : Str) (c : Char) (s : Str) :
    splitFirst pat (c :: s) =
      match stripPref pat (c :: s) with
      | some r => some ([], r)
      | none => (splitFirst pat s).map (fun q => (c :: q.1, q.2)) := rfl

/-- The first occurrence of a token that starts with a digit, inside a
string whose prefix contains no digit, is exactly at the end of that
prefix. -/
theorem splitFirst_at_capture {d : Char} {t : Str} (hd : isDigitC d = true) :
    ∀ (bef aft : Str), (∀ c ∈ bef, isDigitC c = false) →
      splitFirst (d :: t) (bef ++ ((d :: t) ++ aft)) = some (bef, aft)
  | [], aft, _ => by
    have h1 : stripPref (d :: t) (d :: (t ++ aft)) = some aft :=
      stripPref_append (d :: t) aft
    rw [List.nil_append]
    rw [show (d :: t) ++ aft = d :: (t ++ aft) from rfl]
    simp only [splitFirst_cons, h1]
  | c :: bef, aft, h => by
    have hcd : c ≠ d := by
      intro hc
      rw [hc] at h
      have := h d (by simp)
      rw [hd] at this
      cases this
    rw [show (c :: bef) ++ ((d :: t) ++ aft) = c :: (bef ++ ((d :: t) ++ aft)) from rfl]
    simp only [splitFirst_cons, stripPref_head_ne hcd]
    rw [splitFirst_at_capture hd bef aft (fun x hx => h x (by simp [hx]))]
    rfl

theorem expandDollar_cons_not36 {c : Char} (hc : ¬c.toNat = 36) (m b a : Str) :
    ∀ r : Str, expandDollar m b a (c :: r) = c :: expandDollar m b a r
  | [] => rfl
  | d :: r2 => by
    simp only [expandDollar]
    rw [if_neg hc]

theorem expandDollar_no_dollar {m b a : Str} :
    ∀ {repl : Str}, (∀ c ∈ repl, isDigitC c = true ∨ ¬c.toNat = 36) →
      expandDollar m b a repl = repl := by
  intro repl
  induction repl with
  | nil => intro _; rfl
  | cons c r ih =>
    intro h
    have hc : ¬c.toNat = 36 := by
      rcases h c (by simp) with hc | hc
      · simp only [isDigitC, Bool.and_eq_true, decide_eq_true_eq] at hc
        omega
      · exact hc
    rw [expandDollar_cons_not36 hc]
    rw [ih (fun x hx => h x (by simp [hx]))]

theorem append_middle_ne {bef pat aft repl : Str} (hne : repl ≠ pat) :
    bef ++ (repl ++ aft) ≠ bef ++ (pat ++ aft) := by
  intro h
  have h1 : repl ++ aft = pat ++ aft := by
    exact List.append_cancel_left h
  exact hne (List.append_cancel_right h1)

/-! ## Character sets of parsed semvers -/

theorem svChar_notFb {c : Char} (h : svChar c = true) : notFb c = true := by
  simp only [svChar, isIdentC, isDigitC, isAlphaC, Bool.or_eq_true,
    Bool.and_eq_true, decide_eq_true_eq] at h
  simp only [notFb, isSpaceJS, Bool.not_eq_true', Bool.or_eq_false_iff,
    Bool.and_eq_false_iff, decide_eq_false_iff_not]
  omega

theorem svChar_no_dollar {c : Char} (h : svChar c = true) : ¬c.toNat = 36 := by
  simp only [svChar, isIdentC, isDigitC, isAlphaC, Bool.or_eq_true,
    Bool.and_eq_true, decide_eq_true_eq] at h
  omega

theorem svChar_not_space {c : Char} (h : svChar c = true) : isSpaceJS c = false := by
  have := svChar_notFb h
  simp only [notFb, Bool.not_eq_true', Bool.or_eq_false_iff] at this
  exact this.2

theorem parseNumId_chars {l : Str} {n : Nat} {r : Str} (h : parseNumId l = some (n, r)) :
    ∃ ds, l = ds ++ r ∧ ∀ c ∈ ds, isDigitC c = true := by
  unfold parseNumId at h
  by_cases h1 : l.takeWhile isDigitC = []
  · rw [if_pos h1] at h
    cases h
  · rw [if_neg h1] at h
    by_cases h2 : 1 < (l.takeWhile isDigitC).length ∧ (l.takeWhile isDigitC).headD 'x' = '0'
    · rw [if_pos h2] at h
      cases h
    · rw [if_neg h2] at h
      injection h with h
      have hr : r = l.dropWhile isDigitC := congrArg Prod.snd h.symm
      refine ⟨l.takeWhile isDigitC, ?_, ?_⟩
      · rw [hr, List.takeWhile_append_dropWhile]
      · intro c hc
        exact List.mem_takeWhile_imp hc

theorem splitDot_chars : ∀ {l : Str} {c : Char}, c ∈ l →
    c.toNat = 46 ∨ ∃ ch ∈ splitDot l, c ∈ ch := by
  intro l
  induction l with
  | nil => intro c hc; cases hc
  | cons a r ih =>
    intro c hc
    by_cases ha : a.toNat = 46
    · rcases List.mem_cons.mp hc with hc | hc
      · left; rw [hc]; exact ha
      · rcases ih hc with h46 | ⟨ch, hch, hcch⟩
        · left; exact h46
        · right
          refine ⟨ch, ?_, hcch⟩
          simp only [splitDot, if_pos ha]
          exact List.mem_cons_of_mem _ hch
    · rcases List.mem_cons.mp hc with hc | hc
      · right
        subst hc
        simp only [splitDot, if_neg ha]
        rcases hs : splitDot r with _ | ⟨h0, t0⟩
        · exact ⟨[c], by simp, by simp⟩
        · exact ⟨c :: h0, by simp, by simp⟩
      · rcases ih hc with h46 | ⟨ch, hch, hcch⟩
        · left; exact h46
        · right
          simp only [splitDot, if_neg ha]
          rcases hs : splitDot r with _ | ⟨h0, t0⟩
          · rw [hs] at hch; cases hch
          · rw [hs] at hch
            rcases List.mem_cons.mp hch with hch | hch
            · refine ⟨a :: h0, by simp, ?_⟩
              rw [hch] at hcch
              exact List.mem_cons_of_mem _ hcch
            · exact ⟨ch, by simp [hch], hcch⟩

theorem validateAll_mem {f : Str → Option α} :
    ∀ {xs : List Str} {ys : List α}, validateAll f xs = some ys →
      ∀ x ∈ xs, ∃ y, f x = some y := by
  intro xs
  induction xs with
  | nil => intro ys _ x hx; cases hx
  | cons a r ih =>
    intro ys h x hx
    simp only [validateAll] at h
    cases hfa : f a with
    | none => rw [hfa] at h; cases h
    | some y =>
      rw [hfa] at h
      cases hr : validateAll f r with
      | none => rw [hr] at h; cases h
      | some ys2 =>
        rcases List.mem_cons.mp hx with hx | hx
        · exact ⟨y, by rw [hx]; exact hfa⟩
        · exact ih hr x hx

theorem validPreId_chars {l : Str} {p : PreId} (h : validPreId l = some p) :
    ∀ c ∈ l, isIdentC c = true := by
  unfold validPreId at h
  by_cases h0 : l = []
  · rw [if_pos h0] at h; cases h
  · rw [if_neg h0] at h
    by_cases h1 : l.all isDigitC = true
    · intro c hc
      have := List.all_eq_true.mp h1 c hc
      simp [isIdentC, this]
    · rw [if_neg h1] at h
      by_cases h2 : l.all isIdentC = true
      · intro c hc
        exact List.all_eq_true.mp h2 c hc
      · rw [if_neg h2] at h; cases h

theorem validBuildId_chars {l : Str} {b : Str} (h : validBuildId l = some b) :
    ∀ c ∈ l, isIdentC c = true := by
  unfold validBuildId at h
  by_cases h0 : l ≠ [] ∧ l.all isIdentC = true
  · intro c hc
    exact List.all_eq_true.mp h0.2 c hc
  · rw [if_neg h0] at h; cases h

theorem chunk_chars_of_validate {f : Str → Option α} {l : Str} {ys : List α}
    (hval : validateAll f (splitDot l) = some ys)
    (hf : ∀ ch p, f ch = some p → ∀ c ∈ ch, isIdentC c = true) :
    ∀ c ∈ l, svChar c = true := by
  intro c hc
  rcases splitDot_chars hc with h46 | ⟨ch, hch, hcch⟩
  · simp [svChar, h46]
  · rcases validateAll_mem hval ch hch with ⟨p, hp⟩
    have := hf ch p hp c hcch
    simp [svChar, this]

theorem parseTail_chars {maj mino pat : Nat} {l : Str} {v : SemVer}
    (h : parseTail maj mino pat l = some v) : ∀ c ∈ l, svChar c = true := by
  cases l with
  | nil => intro c hc; cases hc
  | cons c0 r =>
    simp only [parseTail] at h
    by_cases h43 : c0.toNat = 43
    · rw [if_pos h43] at h
      cases hb : validateAll validBuildId (splitDot r) with
      | none => simp [hb] at h
      | some bs =>
        intro c hc
        rcases List.mem_cons.mp hc with hc | hc
        · subst hc; simp [svChar, h43]
        · exact chunk_chars_of_validate hb (fun ch p hp => validBuildId_chars hp) c hc
    · rw [if_neg h43] at h
      by_cases h45 : c0.toNat = 45
      · rw [if_pos h45] at h
        cases hp : validateAll validPreId (splitDot (r.takeWhile (fun d => !(d.toNat = 43)))) with
        | none => simp [hp] at h
        | some pre =>
          simp only [hp] at h
          intro c hc
          rcases List.mem_cons.mp hc with hc | hc
          · subst hc
            simp [svChar, isIdentC, h45]
          · have hsplit : c ∈ r.takeWhile (fun d => !(d.toNat = 43)) ∨
                c ∈ r.dropWhile (fun d => !(d.toNat = 43)) := by
              rw [← List.mem_append, List.takeWhile_append_dropWhile]
              exact hc
            rcases hsplit with hc2 | hc2
            · exact chunk_chars_of_validate hp (fun ch p hpp => validPreId_chars hpp) c hc2
            · cases hdw : r.dropWhile (fun d => !(d.toNat = 43)) with
              | nil => rw [hdw] at hc2; cases hc2
              | cons q b =>
                simp only [hdw] at h
                rw [hdw] at hc2
                have hq : q.toNat = 43 := by
                  have := dropWhile_head_false hdw
                  simpa using this
                cases hbb : validateAll validBuildId (splitDot b) with
                | none => simp [hbb] at h
                | some bs =>
                  rcases List.mem_cons.mp hc2 with hc3 | hc3
                  · subst hc3; simp [svChar, hq]
                  · exact chunk_chars_of_validate hbb
                      (fun ch p hpp => validBuildId_chars hpp) c hc3
      · rw [if_neg h45] at h
        cases h

theorem parseSemVer_chars {s : Str} {v : SemVer} (h : parseSemVer s = some v) :
    ∀ c ∈ s, svChar c = true := by
  unfold parseSemVer at h
  cases h1 : parseNumId (dropLeadV s) with
  | none => simp [h1] at h
  | some p1 =>
    simp only [h1] at h
    rcases p1 with ⟨maj, r1⟩
    have hcore : ∀ c ∈ dropLeadV s, svChar c = true := by
      rcases parseNumId_chars h1 with ⟨ds1, hds1, hdig1⟩
      cases hr1 : r1 with
      | nil => simp [hr1] at h
      | cons c1 r2 =>
        simp only [hr1] at h
        by_cases h46a : c1.toNat = 46
        · rw [if_pos h46a] at h
          cases h2 : parseNumId r2 with
          | none => simp [h2] at h
          | some p2 =>
            simp only [h2] at h
            rcases p2 with ⟨mino, r3⟩
            rcases parseNumId_chars h2 with ⟨ds2, hds2, hdig2⟩
            cases hr3 : r3 with
            | nil => simp [hr3] at h
            | cons c2 r4 =>
              simp only [hr3] at h
              by_cases h46b : c2.toNat = 46
              · rw [if_pos h46b] at h
                cases h3 : parseNumId r4 with
                | none => simp [h3] at h
                | some p3 =>
                  simp only [h3] at h
                  rcases p3 with ⟨pat, r5⟩
                  rcases parseNumId_chars h3 with ⟨ds3, hds3, hdig3⟩
                  have htail := parseTail_chars h
                  intro c hc
                  rw [hds1, hr1] at hc
                  rcases List.mem_append.mp hc with hc | hc
                  · simp [svChar, isIdentC, hdig1 c hc]
                  · rcases List.mem_cons.mp hc with hc | hc
                    · subst hc; simp [svChar, h46a]
                    · rw [hds2, hr3] at hc
                      rcases List.mem_append.mp hc with hc | hc
                      · simp [svChar, isIdentC, hdig2 c hc]
                      · rcases List.mem_cons.mp hc with hc | hc
                        · subst hc; simp [svChar, h46b]
                        · rw [hds3] at hc
                          rcases List.mem_append.mp hc with hc | hc
                          · simp [svChar, isIdentC, hdig3 c hc]
                          · exact htail c hc
              · rw [if_neg h46b] at h
                cases h
        · rw [if_neg h46a] at h
          cases h
    intro c hc
    cases hs : s with
    | nil => rw [hs] at hc; cases hc
    | cons a rest =>
      rw [hs] at hc
      by_cases hv : a.toNat = 118
      · rcases List.mem_cons.mp hc with hc | hc
        · subst hc; simp [svChar, hv]
        · apply hcore
          rw [hs]
          simp only [dropLeadV, if_pos hv]
          exact hc
      · apply hcore
        rw [hs]
        simp only [dropLeadV, if_neg hv]
        exact hc

/-! ## Merge-step lemmas -/

theorem space_not_digit {c : Char} (h : isSpaceJS c = true) : isDigitC c = false := by
  simp only [isSpaceJS, Bool.or_eq_true, Bool.and_eq_true, decide_eq_true_eq] at h
  simp only [isDigitC, Bool.and_eq_false_iff, decide_eq_false_iff_not]
  omega

theorem semverGtE_parses {a b : Str} {bb : Bool} (h : semverGtE a b = some bb) :
    (∃ x, parseSemVer a = some x) ∧ (∃ y, parseSemVer b = some y) := by
  cases ha : parseSemVer a with
  | none => simp [semverGtE, ha] at h
  | some x =>
    cases hb : parseSemVer b with
    | none => simp [semverGtE, ha, hb] at h
    | some y => exact ⟨⟨x, rfl⟩, ⟨y, rfl⟩⟩

theorem str_ne_of_cmp_ne_eq {a b : Str} {x y : SemVer}
    (ha : parseSemVer a = some x) (hb : parseSemVer b = some y)
    (hc : cmpSemVer x y ≠ .eq) : a ≠ b := by
  intro hab
  subst hab
  rw [ha] at hb
  injection hb with hb
  subst hb
  exact hc (cmpSemVer_self x)

/-- Replacing the pinned version inside a specifier that satisfies the
grammar substitutes exactly the captured span. -/
theorem jsReplaceFirst_decomp {sOld vOld vNew ws1 op ws2 ws3 : Str}
    (hs : sOld = ws1 ++ (op ++ (ws2 ++ (vOld ++ ws3))))
    (hws1 : ∀ c ∈ ws1, isSpaceJS c = true)
    (hop : op = [] ∨ op = ['^'] ∨ op = ['~'])
    (hws2 : ∀ c ∈ ws2, isSpaceJS c = true)
    (hd : ∃ d t, vOld = d :: t ∧ isDigitC d = true)
    (hnd : ∀ c ∈ vNew, ¬c.toNat = 36) :
    jsReplaceFirst sOld vOld vNew = (ws1 ++ (op ++ ws2)) ++ vNew ++ ws3 := by
  rcases hd with ⟨d, t, hvOld, hdig⟩
  have hnodig : ∀ c ∈ ws1 ++ (op ++ ws2), isDigitC c = false := by
    intro c hc
    rcases List.mem_append.mp hc with hc | hc
    · exact space_not_digit (hws1 c hc)
    · rcases List.mem_append.mp hc with hc | hc
      · rcases hop with hopc | hopc | hopc <;> rw [hopc] at hc
        · cases hc
        · rcases List.mem_singleton.mp hc with rfl
          decide
        · rcases List.mem_singleton.mp hc with rfl
          decide
      · exact space_not_digit (hws2 c hc)
  have hassoc : sOld = (ws1 ++ (op ++ ws2)) ++ ((d :: t) ++ ws3) := by
    rw [hs, hvOld]
    simp [List.append_assoc]
  have hsplit : splitFirst vOld sOld = some (ws1 ++ (op ++ ws2), ws3) := by
    rw [hvOld, hassoc]
    exact splitFirst_at_capture hdig _ _ hnodig
  unfold jsReplaceFirst
  simp only [hsplit]
  rw [expandDollar_no_dollar (fun c hc => Or.inr (hnd c hc))]

theorem replaced_ne {bef vOld vNew ws3 : Str} (hne : vNew ≠ vOld) :
    bef ++ vNew ++ ws3 ≠ bef ++ vOld ++ ws3 := by
  intro h
  rw [List.append_assoc, List.append_assoc] at h
  exact append_middle_ne hne h

theorem append_normal (ws1 op ws2 v ws3 : Str) :
    ws1 ++ (op ++ (ws2 ++ (v ++ ws3))) = (ws1 ++ (op ++ ws2)) ++ v ++ ws3 := by
  simp [List.append_assoc]

theorem mergeOne_not_check {nop : Bool} {name vNew : Str} {e : Entry} {doc : Doc}
    (h : e.state ≠ .check) :
    mergeOne nop name vNew e doc = .ok (e, false, doc) := by
  unfold mergeOne
  rw [if_pos h]

theorem mergeOne_eq_str {nop : Bool} {name vNew : Str} {e : Entry} {doc : Doc}
    (h1 : e.state = .check) (h2 : e.vOld = vNew) :
    mergeOne nop name vNew e doc =
      .ok ({ e with vNew := vNew, sNew := vNew, state := .kept }, false, doc) := by
  unfold mergeOne
  rw [if_neg (by simp [h1]), if_pos h2]

theorem mergeOne_gt {nop : Bool} {name vNew : Str} {e : Entry} {doc : Doc}
    (h1 : e.state = .check) (h2 : ¬e.vOld = vNew)
    (h3 : semverGtE e.vOld vNew = some true) :
    mergeOne nop name vNew e doc =
      .ok ({ e with vNew := vNew, sNew := vNew, state := .kept }, false, doc) := by
  unfold mergeOne
  rw [if_neg (by simp [h1]), if_neg h2]
  simp only [h3]

theorem mergeOne_invalid {nop : Bool} {name vNew : Str} {e : Entry} {doc : Doc}
    (h1 : e.state = .check) (h2 : ¬e.vOld = vNew)
    (h3 : semverGtE e.vOld vNew = none) :
    mergeOne nop name vNew e doc = .error .invalidVersion := by
  unfold mergeOne
  rw [if_neg (by simp [h1]), if_neg h2]
  simp only [h3]

theorem mergeOne_notgt {nop : Bool} {name vNew : Str} {e : Entry} {doc : Doc}
    (h1 : e.state = .check) (h2 : ¬e.vOld = vNew)
    (h3 : semverGtE e.vOld vNew = some false) :
    mergeOne nop name vNew e doc =
      (if jsReplaceFirst e.sOld e.vOld vNew = e.sOld then .error (.substFailed name)
       else if nop then
         .ok ({ e with vNew := vNew, sNew := jsReplaceFirst e.sOld e.vOld vNew, state := .updated }, true, doc)
       else
         match astPatch e.sect name (jsonQuote (jsReplaceFirst e.sOld e.vOld vNew)) doc with
         | .error er => .error er
         | .ok doc2 =>
           .ok ({ e with vNew := vNew, sNew := jsReplaceFirst e.sOld e.vOld vNew, state := .updated }, true, doc2)) := by
  unfold mergeOne
  rw [if_neg (by simp [h1]), if_neg h2]
  simp only [h3]

theorem astPatch_error {sect module txt : Str} {d : Doc} {er : UpdErr}
    (h : astPatch sect module txt d = .error er) : er = .astQueryFailed module := by
  unfold astPatch at h
  by_cases hc : d.countP (fun t => t.key = some (sect, module)) = 1
  · rw [if_pos hc] at h
    cases h
  · rw [if_neg hc] at h
    injection h with h
    exact h.symm

/-! ## Claims about the merge step -/

/-- C2 (counterexample): the claim says a `check` entry whose resolved
version is strictly lower than its pinned version keeps
`newSpecifier = originalSpecifier`.  On the entry built from
`"left-pad": "^1.2.3"` with resolved version `1.2.2` (strictly lower
under semver), the merge keeps the entry but sets its `sNew` field to
the bare resolved version `1.2.2`, not to the original `^1.2.3`. -/
theorem C2_counterexample :
    semverGtE ("1.2.3".data) ("1.2.2".data) = some true ∧
    mergeOne true ("left-pad".data) ("1.2.2".data)
        (mixinEntry [] ("dependencies".data) ("left-pad".data) ("^1.2.3".data)) [] =
      .ok (⟨("dependencies".data), ("^1.2.3".data), ("1.2.3".data),
            ("1.2.2".data), ("1.2.2".data), .kept⟩, false, []) ∧
    ("1.2.2".data) ≠ ("^1.2.3".data) := by
  refine ⟨by decide, by decide, by decide⟩

/-- C2 (amended): for every `check` entry whose resolved version is
strictly lower than its pinned version under semver precedence
(`semver.gt vOld vNew`), the merge step keeps the entry
(`state = kept`), contributes no update, and leaves the document — and
hence the specifier on disk — untouched; the entry's `newSpecifier`
field, however, is overwritten with the bare resolved version rather
than left equal to the original specifier. -/
theorem C2_no_downgrade (nop : Bool) (name vNew : Str) (e : Entry) (doc : Doc)
    (hchk : e.state = .check) (hlt : semverGtE e.vOld vNew = some true) :
    mergeOne nop name vNew e doc =
      .ok ({ e with vNew := vNew, sNew := vNew, state := .kept }, false, doc) := by
  exact mergeOne_gt hchk (fun h2 => semverGtE_ne_of_gt hlt h2) hlt

theorem C2_no_downgrade_witness :
    mergeOne false ("left-pad".data) ("1.2.2".data)
      (⟨("dependencies".data), ("^1.2.3".data), ("1.2.3".data),
        ("^1.2.3".data), ("1.2.3".data), .check⟩ : Entry) [] =
      .ok ({ (⟨("dependencies".data), ("^1.2.3".data), ("1.2.3".data),
        ("^1.2.3".data), ("1.2.3".data), .check⟩ : Entry) with
          vNew := ("1.2.2".data), sNew := ("1.2.2".data), state := .kept }, false, []) :=
  C2_no_downgrade false ("left-pad".data) ("1.2.2".data) _ [] rfl (by decide)

/-- C3 (counterexample): the claim reads equality of resolved and
pinned version under the same semantic ordering it names, and asserts
that equal versions settle to `kept`.  The versions `1.2.3` and
`1.2.3+build` are equal under semver precedence (build metadata is
ignored), yet the merge step classifies the entry as `updated`, because
the code's first test is string equality. -/
theorem C3_counterexample :
    (∃ x y, parseSemVer ("1.2.3".data) = some x ∧
      parseSemVer ("1.2.3+build".data) = some y ∧ cmpSemVer x y = .eq) ∧
    mergeOne true ("left-pad".data) ("1.2.3+build".data)
        (mixinEntry [] ("dependencies".data) ("left-pad".data) ("^1.2.3".data)) [] =
      .ok (⟨("dependencies".data), ("^1.2.3".data), ("1.2.3".data),
            ("^1.2.3+build".data), ("1.2.3+build".data), .updated⟩, true, []) := by
  exact ⟨⟨_, _, rfl, rfl, by decide⟩, by decide⟩

/-- C3 (amended): for a `check` entry whose specifier decomposes per
the grammar, (a) a resolved version equal to the pinned version as a
string settles to `kept`; (b) a resolved version strictly greater under
semver precedence makes every successful merge of the entry `updated`
with the updates flag set and `newSpecifier` equal to the original
specifier with exactly the pinned-version span replaced by the resolved
version; in particular with the dry-run flag the merge succeeds with
that outcome. -/
theorem C3_strictly_greater_updates :
    (∀ (nop : Bool) (name vNew : Str) (e : Entry) (doc : Doc),
      e.state = .check → e.vOld = vNew →
      mergeOne nop name vNew e doc =
        .ok ({ e with vNew := vNew, sNew := vNew, state := .kept }, false, doc)) ∧
    (∀ (nop : Bool) (name vNew : Str) (e : Entry) (doc : Doc)
        (ws1 op ws2 ws3 : Str) (x y : SemVer),
      e.state = .check →
      e.sOld = ws1 ++ (op ++ (ws2 ++ (e.vOld ++ ws3))) →
      (∀ c ∈ ws1, isSpaceJS c = true) →
      (op = [] ∨ op = ['^'] ∨ op = ['~']) →
      (∀ c ∈ ws2, isSpaceJS c = true) →
      (∃ d t, e.vOld = d :: t ∧ isDigitC d = true) →
      parseSemVer e.vOld = some x → parseSemVer vNew = some y →
      cmpSemVer x y = .lt →
      (mergeOne true name vNew e doc =
        .ok ({ e with vNew := vNew, sNew := (ws1 ++ (op ++ ws2)) ++ vNew ++ ws3, state := .updated }, true, doc)) ∧
      (∀ e2 u doc2, mergeOne nop name vNew e doc = .ok (e2, u, doc2) →
        e2 = { e with vNew := vNew, sNew := (ws1 ++ (op ++ ws2)) ++ vNew ++ ws3, state := .updated } ∧
        u = true)) := by
  constructor
  · intro nop name vNew e doc h1 h2
    exact mergeOne_eq_str h1 h2
  · intro nop name vNew e doc ws1 op ws2 ws3 x y h1 hs hws1 hop hws2 hd hx hy hlt
    have hne : ¬e.vOld = vNew :=
      str_ne_of_cmp_ne_eq hx hy (by rw [hlt]; intro hcc; cases hcc)
    have hgt : semverGtE e.vOld vNew = some false := by
      simp only [semverGtE, hx, hy, hlt]
      rfl
    have hnd : ∀ c ∈ vNew, ¬c.toNat = 36 :=
      fun c hc => svChar_no_dollar (parseSemVer_chars hy c hc)
    have hrepl : jsReplaceFirst e.sOld e.vOld vNew = (ws1 ++ (op ++ ws2)) ++ vNew ++ ws3 :=
      jsReplaceFirst_decomp hs hws1 hop hws2 hd hnd
    have hnormal : e.sOld = (ws1 ++ (op ++ ws2)) ++ e.vOld ++ ws3 := by
      rw [hs]
      exact append_normal ws1 op ws2 e.vOld ws3
    have hsne : ¬jsReplaceFirst e.sOld e.vOld vNew = e.sOld := by
      rw [hrepl, hnormal]
      exact replaced_ne (fun hvv => hne hvv.symm)
    constructor
    · rw [mergeOne_notgt h1 hne hgt, if_neg hsne, if_pos rfl, hrepl]
    · intro e2 u doc2 hok
      rw [mergeOne_notgt h1 hne hgt, if_neg hsne] at hok
      by_cases hnop : nop = true
      · rw [hnop, if_pos rfl] at hok
        injection hok with hok
        injection hok with hok1 hok2
        injection hok2 with hok2 hok3
        rw [hrepl] at hok1
        exact ⟨hok1.symm, hok2.symm⟩
      · rw [if_neg hnop] at hok
        cases hap : astPatch e.sect name (jsonQuote (jsReplaceFirst e.sOld e.vOld vNew)) doc with
        | error er =>
          rw [hap] at hok
          cases hok
        | ok doc3 =>
          rw [hap] at hok
          injection hok with hok
          injection hok with hok1 hok2
          injection hok2 with hok2 hok3
          rw [hrepl] at hok1
          exact ⟨hok1.symm, hok2.symm⟩

theorem C3_strictly_greater_updates_witness :
    mergeOne true ("left-pad".data) ("1.3.0".data)
      (⟨("dependencies".data), ("^1.2.0".data), ("1.2.0".data),
        ("^1.2.0".data), ("1.2.0".data), .check⟩ : Entry) [] =
      .ok ({ (⟨("dependencies".data), ("^1.2.0".data), ("1.2.0".data),
        ("^1.2.0".data), ("1.2.0".data), .check⟩ : Entry) with
          vNew := ("1.3.0".data),
          sNew := ((['^'] ++ ([] ++ [])) ++ ("1.3.0".data) ++ []), state := .updated }, true, []) := by
  have h := (C3_strictly_greater_updates.2 true ("left-pad".data) ("1.3.0".data)
    (⟨("dependencies".data), ("^1.2.0".data), ("1.2.0".data),
      ("^1.2.0".data), ("1.2.0".data), .check⟩ : Entry) []
    [] ['^'] [] [] ⟨1, 2, 0, [], []⟩ ⟨1, 3, 0, [], []⟩
    rfl (by decide) (by decide) (by simp) (by decide)
    ⟨'1', (".2.0".data), by decide, by decide⟩ (by decide) (by decide) (by decide)).1
  simpa using h

/-- C10 (confirmed): for every entry whose pinned version was captured
by the specifier grammar, the substitution-failure branch of the merge
step is unreachable: whatever the resolved version, `mergeOne` never
returns the `substFailed` error.  Reaching the substitution requires
`semver.gt` to have succeeded, so both versions parse, the replacement
string contains no dollar escape, and replacing the captured span with
a version different from the pinned one always changes the specifier. -/
theorem C10_substitution_error_unreachable (nop : Bool) (name vNew : Str)
    (e : Entry) (doc : Doc) (hcap : specMatch e.sOld = some e.vOld) :
    ∀ n2 : Str, mergeOne nop name vNew e doc ≠ .error (.substFailed n2) := by
  intro n2 hcontra
  rcases (specMatch_iff_decomp _ _).mp hcap with
    ⟨ws1, op, ws2, ws3, hs, hws1, hop, hws2, hopws2, hws3, hd, htokFb⟩
  by_cases h1 : e.state = .check
  · by_cases h2 : e.vOld = vNew
    · rw [mergeOne_eq_str h1 h2] at hcontra
      cases hcontra
    · cases hg : semverGtE e.vOld vNew with
      | none =>
        rw [mergeOne_invalid h1 h2 hg] at hcontra
        injection hcontra with hcontra
        cases hcontra
      | some b =>
        cases b with
        | true =>
          rw [mergeOne_gt h1 h2 hg] at hcontra
          cases hcontra
        | false =>
          rcases (semverGtE_parses hg).2 with ⟨y, hy⟩
          have hnd : ∀ c ∈ vNew, ¬c.toNat = 36 :=
            fun c hc => svChar_no_dollar (parseSemVer_chars hy c hc)
          have hrepl := jsReplaceFirst_decomp hs hws1 hop hws2 hd hnd
          have hnormal : e.sOld = (ws1 ++ (op ++ ws2)) ++ e.vOld ++ ws3 := by
            rw [hs]
            exact append_normal ws1 op ws2 e.vOld ws3
          have hsne : ¬jsReplaceFirst e.sOld e.vOld vNew = e.sOld := by
            rw [hrepl, hnormal]
            exact replaced_ne (fun hvv => h2 hvv.symm)
          rw [mergeOne_notgt h1 h2 hg, if_neg hsne] at hcontra
          by_cases hnop : nop = true
          · rw [hnop, if_pos rfl] at hcontra
            cases hcontra
          · rw [if_neg hnop] at hcontra
            cases hap : astPatch e.sect name (jsonQuote (jsReplaceFirst e.sOld e.vOld vNew)) doc with
            | error er =>
              rw [hap] at hcontra
              injection hcontra with hcontra
              rw [astPatch_error hap] at hcontra
              cases hcontra
            | ok doc3 =>
              rw [hap] at hcontra
              cases hcontra
  · rw [mergeOne_not_check h1] at hcontra
    cases hcontra

/-! ## Inventory membership lemmas -/

theorem mem_ddupAux : ∀ (l seen : List Str) (a : Str),
    a ∈ ddupAux seen l ↔ (a ∈ l ∧ a ∉ seen)
  | [], seen, a => by simp [ddupAux]
  | b :: l, seen, a => by
    simp only [ddupAux]
    by_cases hb : b ∈ seen
    · rw [if_pos hb, mem_ddupAux l seen a]
      constructor
      · rintro ⟨h1, h2⟩
        exact ⟨List.mem_cons_of_mem _ h1, h2⟩
      · rintro ⟨h1, h2⟩
        rcases List.mem_cons.mp h1 with h1 | h1
        · subst h1
          exact absurd hb h2
        · exact ⟨h1, h2⟩
    · rw [if_neg hb]
      constructor
      · intro h
        rcases List.mem_cons.mp h with h | h
        · subst h
          exact ⟨by simp, hb⟩
        · rcases (mem_ddupAux l (b :: seen) a).mp h with ⟨h1, h2⟩
          simp only [List.mem_cons, not_or] at h2
          exact ⟨List.mem_cons_of_mem _ h1, h2.2⟩
      · rintro ⟨h1, h2⟩
        rcases List.mem_cons.mp h1 with h1 | h1
        · subst h1
          simp
        · by_cases hab : a = b
          · subst hab
            simp
          · refine List.mem_cons_of_mem _ ((mem_ddupAux l (b :: seen) a).mpr ⟨h1, ?_⟩)
            simp [hab, h2]

theorem ddupAux_nodup : ∀ (l seen : List Str), (ddupAux seen l).Nodup
  | [], _ => List.nodup_nil
  | b :: l, seen => by
    simp only [ddupAux]
    by_cases hb : b ∈ seen
    · rw [if_pos hb]
      exact ddupAux_nodup l seen
    · rw [if_neg hb]
      refine List.nodup_cons.mpr ⟨?_, ddupAux_nodup l (b :: seen)⟩
      intro hmem
      rcases (mem_ddupAux l (b :: seen) b).mp hmem with ⟨_, h2⟩
      exact h2 (by simp)

theorem ddup_nodup (l : List Str) : (ddup l).Nodup := ddupAux_nodup l []

theorem mem_ddup {l : List Str} {a : Str} : a ∈ ddup l ↔ a ∈ l := by
  rw [ddup, mem_ddupAux]
  simp

theorem mem_manifestKeys {pkg : Pkg} {n : Str} :
    n ∈ manifestKeys pkg ↔ ∃ tr ∈ allPairs pkg, tr.2.1 = n := by
  unfold manifestKeys
  rw [mem_ddup]
  simp [List.mem_map]

theorem buildManifest_keys (pats : List Str) (pkg : Pkg) :
    (buildManifest pats pkg).map Prod.fst = manifestKeys pkg := by
  unfold buildManifest
  rw [List.map_map]
  exact List.map_id'' (fun x => rfl) _

theorem hasCheck_bucketFor {pats : List Str} {pkg : Pkg} {n : Str} :
    hasCheck (bucketFor pats pkg n) = true ↔
      ∃ tr ∈ allPairs pkg, tr.2.1 = n ∧ (mixinEntry pats tr.1 n tr.2.2).state = .check := by
  unfold hasCheck bucketFor
  rw [List.any_eq_true]
  constructor
  · rintro ⟨e, he, hes⟩
    rcases List.mem_filterMap.mp he with ⟨tr, htr, hif⟩
    by_cases htn : tr.2.1 = n
    · rw [if_pos htn] at hif
      injection hif with hif
      subst hif
      exact ⟨tr, htr, htn, by simpa using hes⟩
    · rw [if_neg htn] at hif
      cases hif
  · rintro ⟨tr, htr, htn, hst⟩
    refine ⟨mixinEntry pats tr.1 n tr.2.2,
      List.mem_filterMap.mpr ⟨tr, htr, by rw [if_pos htn]⟩, by simpa using hst⟩

theorem checkedNames_mem {pats : List Str} {pkg : Pkg} {n : Str} :
    n ∈ checkedNames (buildManifest pats pkg) ↔
      n ∈ manifestKeys pkg ∧ hasCheck (bucketFor pats pkg n) = true := by
  unfold checkedNames buildManifest
  constructor
  · intro h
    rcases List.mem_map.mp h with ⟨b, hb, hfst⟩
    rcases List.mem_filter.mp hb with ⟨hbm, hchk⟩
    rcases List.mem_map.mp hbm with ⟨k, hk, hkb⟩
    subst hkb
    rcases hfst with rfl
    exact ⟨hk, hchk⟩
  · rintro ⟨hk, hc⟩
    exact List.mem_map.mpr ⟨(n, bucketFor pats pkg n),
      List.mem_filter.mpr ⟨List.mem_map.mpr ⟨n, hk, rfl⟩, hc⟩, rfl⟩

theorem mixinEntry_of_some {pats : List Str} {sect module sOld v : Str}
    (ht : classifyState pats module = .todo) (hm : specMatch sOld = some v) :
    mixinEntry pats sect module sOld = ⟨sect, sOld, v, sOld, v, .check⟩ := by
  unfold mixinEntry
  rw [ht, if_pos rfl, hm]

theorem mixinEntry_of_none {pats : List Str} {sect module sOld : Str}
    (ht : classifyState pats module = .todo) (hm : specMatch sOld = none) :
    mixinEntry pats sect module sOld = ⟨sect, sOld, sOld, sOld, sOld, .skipped⟩ := by
  unfold mixinEntry
  rw [ht, if_pos rfl, hm]

/-! ## Claims about selection and the grammar -/

/-- C6 (confirmed): an entry that passes selection becomes `check`
exactly when its specifier matches the operator-plus-bare-version
grammar — optional whitespace, an optional `^`/`~` operator, a token
starting with a digit with no `<`, `>`, `=`, `|` or whitespace — with
the token captured as the pinned version, and becomes `skipped`
otherwise; only names with at least one `check` entry are ever put on
the resolver's lookup list. -/
theorem C6_todo_check_skipped :
    (∀ s tok, specMatch s = some tok ↔ Decomp s tok) ∧
    (∀ pats sect module sOld, classifyState pats module = .todo →
      ((mixinEntry pats sect module sOld).state = .check ↔ ∃ tok, Decomp sOld tok) ∧
      (∀ tok, specMatch sOld = some tok →
        (mixinEntry pats sect module sOld).state = .check ∧
        (mixinEntry pats sect module sOld).vOld = tok) ∧
      ((mixinEntry pats sect module sOld).state = .skipped ↔ ¬∃ tok, Decomp sOld tok)) ∧
    (∀ pats pkg n, n ∈ checkedNames (buildManifest pats pkg) ↔
      ∃ tr ∈ allPairs pkg, tr.2.1 = n ∧ (mixinEntry pats tr.1 n tr.2.2).state = .check) := by
  refine ⟨specMatch_iff_decomp, ?_, ?_⟩
  · intro pats sect module sOld ht
    refine ⟨?_, ?_, ?_⟩
    · constructor
      · intro hst
        cases hm : specMatch sOld with
        | none =>
          rw [mixinEntry_of_none ht hm] at hst
          cases hst
        | some v => exact ⟨v, (specMatch_iff_decomp sOld v).mp hm⟩
      · rintro ⟨tok, hdec⟩
        rw [mixinEntry_of_some ht ((specMatch_iff_decomp sOld tok).mpr hdec)]
    · intro tok hm
      rw [mixinEntry_of_some ht hm]
      exact ⟨rfl, rfl⟩
    · constructor
      · intro hst
        rintro ⟨tok, hdec⟩
        rw [mixinEntry_of_some ht ((specMatch_iff_decomp sOld tok).mpr hdec)] at hst
        cases hst
      · intro hnone
        cases hm : specMatch sOld with
        | none => rw [mixinEntry_of_none ht hm]
        | some v => exact absurd ⟨v, (specMatch_iff_decomp sOld v).mp hm⟩ hnone
  · intro pats pkg n
    rw [checkedNames_mem, hasCheck_bucketFor]
    constructor
    · rintro ⟨_, h⟩
      exact h
    · rintro ⟨tr, htr, htn, hst⟩
      exact ⟨mem_manifestKeys.mpr ⟨tr, htr, htn⟩, ⟨tr, htr, htn, hst⟩⟩

theorem C6_todo_check_skipped_witness :
    Decomp ("^1.2.3".data) ("1.2.3".data) ∧
    (mixinEntry [] ("dependencies".data) ("is-odd".data)
      ("git+https://example/repo.git".data)).state = .skipped := by
  constructor
  · exact (C6_todo_check_skipped.1 ("^1.2.3".data) ("1.2.3".data)).mp (by decide)
  · decide

/-! ## Glob characterization -/

theorem starLoop_nil_false : ∀ r : Str,
    (starLoop (fun ts3 atS3 => globC [] ts3 atS3) r false = true ↔
      ∀ c ∈ r, ¬c.toNat = 47)
  | [] => by simp [starLoop, globC]
  | t :: r2 => by
    simp only [starLoop]
    rw [show globC [] (t :: r2) false = false from rfl, Bool.false_or]
    rw [Bool.and_eq_true, Bool.and_eq_true, starLoop_nil_false r2]
    constructor
    · rintro ⟨⟨h47, _⟩, hrest⟩
      intro c hc
      rcases List.mem_cons.mp hc with hc | hc
      · subst hc
        simpa using h47
      · exact hrest c hc
    · intro h
      exact ⟨⟨by simpa using h t (by simp), by simp⟩, fun c hc => h c (by simp [hc])⟩

theorem glob_star_iff : ∀ m : Str, glob ['*'] m = true ↔
    ((∀ c ∈ m, ¬c.toNat = 47) ∧ ∀ c t, m = c :: t → ¬c.toNat = 46)
  | [] => by
    constructor
    · intro _
      exact ⟨by simp, by intro c t h; cases h⟩
    · intro _
      decide
  | c :: r => by
    have hunf : glob ['*'] (c :: r) =
        (!(c.toNat = 47) && !(true && c.toNat = 46) &&
          starLoop (fun ts3 atS3 => globC [] ts3 atS3) r false) := rfl
    rw [hunf]
    rw [Bool.and_eq_true, Bool.and_eq_true, starLoop_nil_false r]
    constructor
    · rintro ⟨⟨h47, h46⟩, hrest⟩
      refine ⟨?_, ?_⟩
      · intro x hx
        rcases List.mem_cons.mp hx with hx | hx
        · subst hx
          simpa using h47
        · exact hrest x hx
      · intro x t hxt
        injection hxt with hxt1 hxt2
        subst hxt1
        simpa using h46
    · rintro ⟨h47, h46⟩
      refine ⟨⟨by simpa using h47 c (by simp), by simpa using h46 c r rfl⟩,
        fun x hx => h47 x (by simp [hx])⟩

/-- C7 (counterexample): the claim says that with patterns
`["!foo-*"]` every dependency not matching `foo-*` is `todo`.  The
scoped name `@scope/x` does not match `foo-*`, yet it is classified
`ignored`, because the prepended `*` glob does not match across the
`/` of a scoped package name. -/
theorem C7_counterexample :
    classifyState [("!foo-*".data)] ("@scope/x".data) = .ignored ∧
    glob ("foo-*".data) ("@scope/x".data) = false := by
  exact ⟨by decide, by decide⟩

/-- C7 (amended): selection is a pure function of the name and the
patterns; with no patterns every entry is `todo`; with patterns
`["!foo-*"]` (first pattern negated, so matching starts from the
prepended include-everything glob `*`) a name is `ignored` exactly when
it matches `foo-*` or is not matched by `*`, and `*` matches exactly
the names containing no `/` and not starting with a dot — so names
matching `foo-*`, scoped names containing `/`, and dot-initial names
are `ignored`, all others `todo`. -/
theorem C7_filter :
    (∀ module, classifyState [] module = .todo) ∧
    (∀ module, classifyState [("!foo-*".data)] module = .ignored ↔
      (glob ("foo-*".data) module = true ∨ ¬glob ['*'] module = true)) ∧
    (∀ m, glob ['*'] m = true ↔
      ((∀ c ∈ m, ¬c.toNat = 47) ∧ ∀ c t, m = c :: t → ¬c.toNat = 46)) := by
  refine ⟨?_, ?_, glob_star_iff⟩
  · intro module
    simp [classifyState]
  · intro module
    have hpats : ¬([("!foo-*".data)] : List Str) = [] := by simp
    have hneg : isNegPat (([("!foo-*".data)] : List Str).headD []) = true := by decide
    have hhit : micromatchHit module ((if isNegPat (([("!foo-*".data)] : List Str).headD [])
        then [['*']] else []) ++ [("!foo-*".data)]) =
        (glob ['*'] module && !glob ("foo-*".data) module) := by
      rw [hneg, if_pos rfl]
      show micromatchHit module [['*'], ("!foo-*".data)] = _
      unfold micromatchHit
      rw [if_neg (by decide)]
      cases hg1 : glob ['*'] module <;> cases hg2 : glob ("foo-*".data) module <;>
        simp [isNegPat, stripNeg, hg1, hg2]
    unfold classifyState
    rw [if_neg hpats, hhit]
    cases hg1 : glob ['*'] module <;> cases hg2 : glob ("foo-*".data) module <;> simp [hg1, hg2]

theorem C7_filter_witness :
    classifyState [] ("left-pad".data) = .todo ∧
    classifyState [("!foo-*".data)] ("foo-bar".data) = .ignored ∧
    glob ['*'] ("abc".data) = true := by
  refine ⟨C7_filter.1 ("left-pad".data), ?_, ?_⟩
  · exact (C7_filter.2.1 ("foo-bar".data)).mpr (Or.inl (by decide))
  · refine (C7_filter.2.2 ("abc".data)).mpr ⟨by decide, ?_⟩
    intro c t h
    have h2 : ('a' :: ("bc".data)) = c :: t := h
    injection h2 with hc _
    subst hc
    decide

theorem C10_substitution_error_unreachable_witness :
    mergeOne false ("a".data) ("2.0.0".data)
      (⟨("dependencies".data), ("~1.0.0".data), ("1.0.0".data),
        ("~1.0.0".data), ("1.0.0".data), .check⟩ : Entry) [] ≠
      .error (.substFailed ("a".data)) :=
  C10_substitution_error_unreachable false ("a".data) ("2.0.0".data) _ [] (by decide)
    ("a".data)

/-! ## Pure characterization of the merge loop -/

theorem mergeOne_pure {nop : Bool} {name vNew : Str} {e : Entry} {doc : Doc}
    {e2 : Entry} {u : Bool} {doc2 : Doc}
    (h : mergeOne nop name vNew e doc = .ok (e2, u, doc2)) :
    mergeEntryOk vNew e = some (e2, u) := by
  by_cases h1 : e.state = .check
  · by_cases h2 : e.vOld = vNew
    · rw [mergeOne_eq_str h1 h2] at h
      injection h with h
      injection h with ha hb
      injection hb with hb _
      unfold mergeEntryOk
      rw [if_neg (by simp [h1]), if_pos h2, ha, hb]
    · cases hg : semverGtE e.vOld vNew with
      | none =>
        rw [mergeOne_invalid h1 h2 hg] at h
        cases h
      | some b =>
        cases b with
        | true =>
          rw [mergeOne_gt h1 h2 hg] at h
          injection h with h
          injection h with ha hb
          injection hb with hb _
          unfold mergeEntryOk
          rw [if_neg (by simp [h1]), if_neg h2]
          simp only [hg, ha, hb]
        | false =>
          rw [mergeOne_notgt h1 h2 hg] at h
          by_cases hrepl : jsReplaceFirst e.sOld e.vOld vNew = e.sOld
          · rw [if_pos hrepl] at h
            cases h
          · rw [if_neg hrepl] at h
            have hgoal : mergeEntryOk vNew e =
                some ({ e with vNew := vNew, sNew := jsReplaceFirst e.sOld e.vOld vNew, state := .updated }, true) := by
              unfold mergeEntryOk
              rw [if_neg (by simp [h1]), if_neg h2]
              simp only [hg]
              rw [if_neg hrepl]
            by_cases hnop : nop = true
            · rw [hnop, if_pos rfl] at h
              injection h with h
              injection h with ha hb
              injection hb with hb _
              rw [hgoal, ha, hb]
            · rw [if_neg hnop] at h
              cases hap : astPatch e.sect name (jsonQuote (jsReplaceFirst e.sOld e.vOld vNew)) doc with
              | error er =>
                rw [hap] at h
                cases h
              | ok doc3 =>
                rw [hap] at h
                injection h with h
                injection h with ha hb
                injection hb with hb _
                rw [hgoal, ha, hb]
  · rw [mergeOne_not_check h1] at h
    injection h with h
    injection h with ha hb
    injection hb with hb _
    unfold mergeEntryOk
    rw [if_pos h1, ha, hb]

theorem extractE_not_check {v : Str} {e : Entry} (h : ¬e.state = .check) :
    extractE v e = e ∧ mergeFlag v e = false := by
  have hm : mergeEntryOk v e = some (e, false) := by
    unfold mergeEntryOk
    rw [if_pos h]
  constructor
  · unfold extractE
    rw [hm]
  · unfold mergeFlag
    rw [hm]

theorem mergeEntryOk_not_check_out {v : Str} {e : Entry} {p : Entry × Bool}
    (h : mergeEntryOk v e = some p) : ¬p.1.state = .check := by
  unfold mergeEntryOk at h
  by_cases h1 : e.state ≠ .check
  · rw [if_pos h1] at h
    injection h with h
    rw [← h]
    exact h1
  · rw [if_neg h1] at h
    by_cases h2 : e.vOld = v
    · rw [if_pos h2] at h
      injection h with h
      rw [← h]
      intro hc
      cases hc
    · rw [if_neg h2] at h
      cases hg : semverGtE e.vOld v with
      | none =>
        rw [hg] at h
        cases h
      | some b =>
        cases b with
        | true =>
          rw [hg] at h
          injection h with h
          rw [← h]
          intro hc
          cases hc
        | false =>
          rw [hg] at h
          by_cases hrepl : jsReplaceFirst e.sOld e.vOld v = e.sOld
          · rw [if_pos hrepl] at h
            cases h
          · rw [if_neg hrepl] at h
            injection h with h
            rw [← h]
            intro hc
            cases hc

theorem extractE_extractE {v v2 : Str} {e : Entry} (h : mergeEntryOk v e ≠ none) :
    extractE v2 (extractE v e) = extractE v e ∧ mergeFlag v2 (extractE v e) = false := by
  cases hm : mergeEntryOk v e with
  | none => exact absurd hm h
  | some p =>
    have hx : extractE v e = p.1 := by
      unfold extractE
      rw [hm]
    rw [hx]
    exact extractE_not_check (mergeEntryOk_not_check_out hm)

theorem extractE_fields (v : Str) (e : Entry) :
    (extractE v e).sect = e.sect ∧ (extractE v e).sOld = e.sOld ∧
      (extractE v e).vOld = e.vOld := by
  unfold extractE mergeEntryOk
  by_cases h1 : e.state ≠ .check
  · rw [if_pos h1]
    exact ⟨rfl, rfl, rfl⟩
  · rw [if_neg h1]
    by_cases h2 : e.vOld = v
    · rw [if_pos h2]
      exact ⟨rfl, rfl, rfl⟩
    · rw [if_neg h2]
      cases hg : semverGtE e.vOld v with
      | none => exact ⟨rfl, rfl, rfl⟩
      | some b =>
        cases b with
        | true => exact ⟨rfl, rfl, rfl⟩
        | false =>
          by_cases hrepl : jsReplaceFirst e.sOld e.vOld v = e.sOld
          · rw [if_pos hrepl]
            exact ⟨rfl, rfl, rfl⟩
          · rw [if_neg hrepl]
            exact ⟨rfl, rfl, rfl⟩

theorem mergeSpecs_char {nop : Bool} {name vNew : Str} :
    ∀ {es : List Entry} {doc : Doc} {es2 : List Entry} {u : Bool} {doc2 : Doc},
    mergeSpecs nop name vNew es doc = .ok (es2, u, doc2) →
    es2 = es.map (extractE vNew) ∧ u = es.any (mergeFlag vNew) ∧
      ∀ e ∈ es, mergeEntryOk vNew e ≠ none := by
  intro es
  induction es with
  | nil =>
    intro doc es2 u doc2 h
    injection h with h
    injection h with ha hb
    injection hb with hb _
    exact ⟨ha.symm, hb.symm, by intro e he; cases he⟩
  | cons e es ih =>
    intro doc es2 u doc2 h
    unfold mergeSpecs at h
    cases hm : mergeOne nop name vNew e doc with
    | error er =>
      simp only [hm] at h
      cases h
    | ok trip =>
      rcases trip with ⟨e2h, u1, doc'⟩
      simp only [hm] at h
      cases hms : mergeSpecs nop name vNew es doc' with
      | error er =>
        simp only [hms] at h
        cases h
      | ok trip2 =>
        rcases trip2 with ⟨es2', u2, doc''⟩
        simp only [hms] at h
        injection h with h
        injection h with ha hb
        injection hb with hb hc
        rcases ih hms with ⟨ih1, ih2, ih3⟩
        have hpure := mergeOne_pure hm
        have hx : extractE vNew e = e2h := by
          unfold extractE
          rw [hpure]
        have hf : mergeFlag vNew e = u1 := by
          unfold mergeFlag
          rw [hpure]
        refine ⟨?_, ?_, ?_⟩
        · rw [← ha, List.map_cons, hx, ih1]
        · rw [← hb, List.any_cons, hf, ih2]
        · intro e3 he3
          rcases List.mem_cons.mp he3 with he3 | he3
          · subst he3
            rw [hpure]
            intro hc
            cases hc
          · exact ih3 e3 he3

theorem updBucket_char {nop : Bool} {name vNew : Str} :
    ∀ {m : Manifest} {doc : Doc} {m2 : Manifest} {u : Bool} {doc2 : Doc},
    updBucket nop name vNew m doc = .ok (m2, u, doc2) →
    (m.map Prod.fst).Nodup →
    m2 = m.map (fun b => if b.1 = name then (b.1, b.2.map (extractE vNew)) else b) ∧
    u = m.any (fun b => decide (b.1 = name) && b.2.any (mergeFlag vNew)) ∧
    ∀ b ∈ m, b.1 = name → ∀ e ∈ b.2, mergeEntryOk vNew e ≠ none := by
  intro m
  induction m with
  | nil =>
    intro doc m2 u doc2 h _
    injection h with h
    injection h with ha hb
    injection hb with hb _
    exact ⟨ha.symm, hb.symm, by intro b hb2; cases hb2⟩
  | cons b0 m ih =>
    intro doc m2 u doc2 h hnd
    rcases b0 with ⟨k, es⟩
    have hndm : (m.map Prod.fst).Nodup := (List.nodup_cons.mp hnd).2
    have hknotin : k ∉ m.map Prod.fst := (List.nodup_cons.mp hnd).1
    unfold updBucket at h
    by_cases hk : k = name
    · rw [if_pos hk] at h
      cases hms : mergeSpecs nop name vNew es doc with
      | error er =>
        simp only [hms] at h
        cases h
      | ok trip =>
        rcases trip with ⟨es2, u1, doc'⟩
        simp only [hms] at h
        injection h with h
        injection h with ha hb
        injection hb with hb _
        rcases mergeSpecs_char hms with ⟨hc1, hc2, hc3⟩
        have hrest : ∀ b ∈ m, ¬b.1 = name := by
          intro b hbm hbn
          exact hknotin (by
            rw [hk]
            rw [← hbn]
            exact List.mem_map.mpr ⟨b, hbm, rfl⟩)
        refine ⟨?_, ?_, ?_⟩
        · rw [← ha, List.map_cons, if_pos hk, ← hc1]
          have : m.map (fun b => if b.1 = name then (b.1, b.2.map (extractE vNew)) else b) = m := by
            have h2 := List.map_congr_left (l := m)
              (f := fun b => if b.1 = name then (b.1, b.2.map (extractE vNew)) else b)
              (g := fun b => b) (fun b hbm => by simp [hrest b hbm])
            rw [h2, List.map_id']
          rw [this]
        · rw [← hb, List.any_cons, hc2]
          have : m.any (fun b => decide (b.1 = name) && b.2.any (mergeFlag vNew)) = false := by
            rw [List.any_eq_false]
            intro b hbm
            simp [hrest b hbm]
          rw [this, hk]
          simp
        · intro b hbm hbn e he
          rcases List.mem_cons.mp hbm with hbm | hbm
          · subst hbm
            exact hc3 e he
          · exact absurd hbn (hrest b hbm)
    · rw [if_neg hk] at h
      cases hub : updBucket nop name vNew m doc with
      | error er =>
        simp only [hub] at h
        cases h
      | ok trip =>
        rcases trip with ⟨m2', u1, doc'⟩
        simp only [hub] at h
        injection h with h
        injection h with ha hb
        injection hb with hb _
        rcases ih hub hndm with ⟨hc1, hc2, hc3⟩
        refine ⟨?_, ?_, ?_⟩
        · rw [← ha, hc1, List.map_cons, if_neg hk]
        · rw [← hb, hc2, List.any_cons]
          simp [hk]
        · intro b hbm hbn e he
          rcases List.mem_cons.mp hbm with hbm | hbm
          · subst hbm
            exact absurd hbn hk
          · exact hc3 b hbm hbn e he

theorem lookupA_cons {β : Type} (k0 : Str) (v0 : β) (r : List (Str × β)) (n : Str) :
    lookupA ((k0, v0) :: r) n = if k0 = n then some v0 else lookupA r n := rfl

theorem resolveFor_head {g : Bool} {name : Str} {d : PkgData} {rest : List (Str × PkgData)}
    {v : Str} (hres : resolveTarget g name d = .ok v) :
    resolveFor g ((name, d) :: rest) name = some v := by
  unfold resolveFor
  rw [lookupA_cons, if_pos rfl]
  simp [hres]

theorem resolveFor_tail {g : Bool} {name k : Str} {d : PkgData} {rest : List (Str × PkgData)}
    (hk : ¬k = name) :
    resolveFor g ((name, d) :: rest) k = resolveFor g rest k := by
  unfold resolveFor
  rw [lookupA_cons, if_neg (fun h => hk h.symm)]

theorem any_or_distrib {p q : α → Bool} : ∀ l : List α,
    (l.any p || l.any q) = l.any (fun x => p x || q x)
  | [] => rfl
  | a :: l => by
    simp only [List.any_cons]
    rw [← any_or_distrib l]
    cases p a <;> cases q a <;> cases l.any p <;> cases l.any q <;> rfl

theorem any_congr {p q : α → Bool} {l : List α} (h : ∀ a ∈ l, p a = q a) :
    l.any p = l.any q := by
  induction l with
  | nil => rfl
  | cons a l ih =>
    simp only [List.any_cons]
    rw [h a (by simp), ih (fun x hx => h x (by simp [hx]))]

theorem step_keys (name vNew : Str) (m : Manifest) :
    (m.map (fun b => if b.1 = name then (b.1, b.2.map (extractE vNew)) else b)).map Prod.fst =
      m.map Prod.fst := by
  rw [List.map_map]
  apply List.map_congr_left
  intro b _
  by_cases hb : b.1 = name
  · rw [Function.comp_apply, if_pos hb]
  · rw [Function.comp_apply, if_neg hb]

theorem mergeResults_char {nop g : Bool} :
    ∀ {rs : List (Str × PkgData)} {m : Manifest} {doc : Doc} {m2 : Manifest} {u : Bool}
      {doc2 : Doc},
    mergeResults nop g rs m doc = .ok (m2, u, doc2) →
    (m.map Prod.fst).Nodup →
    m2 = m.map (fun b => (b.1, finalBucket g rs b.1 b.2)) ∧
    u = m.any (fun b => bucketFlag g rs b.1 b.2) ∧
    ∀ b ∈ m, ∀ v, resolveFor g rs b.1 = some v → ∀ e ∈ b.2, mergeEntryOk v e ≠ none := by
  intro rs
  induction rs with
  | nil =>
    intro m doc m2 u doc2 h _
    injection h with h
    injection h with ha hb
    injection hb with hb _
    refine ⟨?_, ?_, ?_⟩
    · rw [← ha]
      have : m.map (fun b => (b.1, finalBucket g [] b.1 b.2)) = m.map (fun b => b) := by
        apply List.map_congr_left
        intro b _
        rw [show finalBucket g [] b.1 b.2 = b.2 from rfl]
      rw [this, List.map_id']
    · rw [← hb]
      symm
      rw [List.any_eq_false]
      intro b _ hc
      rw [show bucketFlag g [] b.1 b.2 = false from rfl] at hc
      cases hc
    · intro b _ v hv
      cases hv
  | cons nd rs ih =>
    intro m doc m2 u doc2 h hnd
    rcases nd with ⟨name, d⟩
    unfold mergeResults at h
    cases hrt : resolveTarget g name d with
    | error er =>
      simp only [hrt] at h
      cases h
    | ok v =>
      simp only [hrt] at h
      cases hub : updBucket nop name v m doc with
      | error er =>
        simp only [hub] at h
        cases h
      | ok trip =>
        rcases trip with ⟨m', u1, doc'⟩
        simp only [hub] at h
        cases hmr : mergeResults nop g rs m' doc' with
        | error er =>
          simp only [hmr] at h
          cases h
        | ok trip2 =>
          rcases trip2 with ⟨m3, u2, doc3⟩
          simp only [hmr] at h
          injection h with h
          injection h with ha hb
          injection hb with hb _
          rcases updBucket_char hub hnd with ⟨hb1, hb2, hb3⟩
          have hnd' : (m'.map Prod.fst).Nodup := by
            rw [hb1, step_keys]
            exact hnd
          rcases ih hmr hnd' with ⟨hi1, hi2, hi3⟩
          refine ⟨?_, ?_, ?_⟩
          · rw [← ha, hi1, hb1, List.map_map]
            apply List.map_congr_left
            intro b hbm
            rw [Function.comp_apply]
            by_cases hk : b.1 = name
            · rw [if_pos hk]
              show (b.1, finalBucket g rs b.1 (b.2.map (extractE v))) =
                (b.1, finalBucket g ((name, d) :: rs) b.1 b.2)
              have hfull : finalBucket g ((name, d) :: rs) b.1 b.2 = b.2.map (extractE v) := by
                rw [hk]
                simp only [finalBucket, resolveFor_head hrt]
              rw [hfull]
              refine congrArg (fun l => ((b.1 : Str), l)) ?_
              cases hrf : resolveFor g rs b.1 with
              | none => simp only [finalBucket, hrf]
              | some v2 =>
                simp only [finalBucket, hrf]
                rw [List.map_map]
                apply List.map_congr_left
                intro e hem
                rw [Function.comp_apply]
                exact (extractE_extractE (hb3 b hbm hk e hem)).1
            · rw [if_neg hk]
              show (b.1, finalBucket g rs b.1 b.2) =
                (b.1, finalBucket g ((name, d) :: rs) b.1 b.2)
              refine congrArg (fun l => ((b.1 : Str), l)) ?_
              simp only [finalBucket, resolveFor_tail hk]
          · rw [← hb, hi2, hb1, hb2, List.any_map, any_or_distrib]
            apply any_congr
            intro b hbm
            rw [Function.comp_apply]
            by_cases hk : b.1 = name
            · have hfull : bucketFlag g ((name, d) :: rs) b.1 b.2 = b.2.any (mergeFlag v) := by
                rw [hk]
                simp only [bucketFlag, resolveFor_head hrt]
              have hzero : bucketFlag g rs b.1 (b.2.map (extractE v)) = false := by
                cases hrf : resolveFor g rs b.1 with
                | none => simp only [bucketFlag, hrf]
                | some v2 =>
                  simp only [bucketFlag, hrf]
                  rw [List.any_eq_false]
                  intro e2 he2
                  rcases List.mem_map.mp he2 with ⟨e, hem, hee⟩
                  intro hc
                  rw [← hee] at hc
                  rw [(extractE_extractE (hb3 b hbm hk e hem)).2] at hc
                  cases hc
              rw [if_pos hk]
              show (decide (b.1 = name) && b.2.any (mergeFlag v) ||
                bucketFlag g rs b.1 (b.2.map (extractE v))) =
                bucketFlag g ((name, d) :: rs) b.1 b.2
              rw [hfull, hzero, hk]
              simp
            · have hfull : bucketFlag g ((name, d) :: rs) b.1 b.2 = bucketFlag g rs b.1 b.2 := by
                simp only [bucketFlag, resolveFor_tail hk]
              rw [if_neg hk]
              show (decide (b.1 = name) && b.2.any (mergeFlag v) ||
                bucketFlag g rs b.1 b.2) = bucketFlag g ((name, d) :: rs) b.1 b.2
              rw [hfull]
              simp [hk]
          · intro b hbm v0 hv0 e he
            by_cases hk : b.1 = name
            · rw [hk, resolveFor_head hrt] at hv0
              injection hv0 with hv0
              subst hv0
              exact hb3 b hbm hk e he
            · rw [resolveFor_tail hk] at hv0
              have hbm' : b ∈ m' := by
                rw [hb1]
                refine List.mem_map.mpr ⟨b, hbm, ?_⟩
                rw [if_neg hk]
              exact hi3 b hbm' v0 hv0 e he

/-! ## Run-level lemmas -/

theorem classifyState_cases (pats : List Str) (module : Str) :
    classifyState pats module = .todo ∨ classifyState pats module = .ignored := by
  unfold classifyState
  by_cases h1 : pats = []
  · rw [if_pos h1]
    exact Or.inl rfl
  · rw [if_neg h1]
    by_cases h2 : micromatchHit module
        ((if isNegPat (pats.headD []) then [['*']] else []) ++ pats) = true
    · rw [if_pos h2]
      exact Or.inl rfl
    · rw [if_neg h2]
      exact Or.inr rfl

theorem mixinEntry_state_init (pats : List Str) (sect module sOld : Str) :
    (mixinEntry pats sect module sOld).state = .ignored ∨
    (mixinEntry pats sect module sOld).state = .skipped ∨
    (mixinEntry pats sect module sOld).state = .check := by
  rcases classifyState_cases pats module with ht | ht
  · cases hm : specMatch sOld with
    | some v =>
      rw [mixinEntry_of_some ht hm]
      exact Or.inr (Or.inr rfl)
    | none =>
      rw [mixinEntry_of_none ht hm]
      exact Or.inr (Or.inl rfl)
  · unfold mixinEntry
    rw [ht]
    rw [if_neg (by intro hc; cases hc)]
    exact Or.inl rfl

theorem mem_bucketFor {pats : List Str} {pkg : Pkg} {n : Str} {e : Entry}
    (he : e ∈ bucketFor pats pkg n) :
    ∃ tr ∈ allPairs pkg, tr.2.1 = n ∧ e = mixinEntry pats tr.1 n tr.2.2 := by
  rcases List.mem_filterMap.mp he with ⟨tr, htr, hif⟩
  by_cases htn : tr.2.1 = n
  · rw [if_pos htn] at hif
    injection hif with hif
    exact ⟨tr, htr, htn, hif.symm⟩
  · rw [if_neg htn] at hif
    cases hif

theorem buildManifest_init_states {pats : List Str} {pkg : Pkg} {b : Str × List Entry}
    (hb : b ∈ buildManifest pats pkg) {e : Entry} (he : e ∈ b.2) :
    e.state = .ignored ∨ e.state = .skipped ∨ e.state = .check := by
  rcases List.mem_map.mp hb with ⟨n, _, hnb⟩
  rw [← hnb] at he
  rcases mem_bucketFor he with ⟨tr, _, _, hee⟩
  rw [hee]
  exact mixinEntry_state_init pats tr.1 n tr.2.2

theorem runUpd_inv {argv : Argv} {pkg : Pkg} {reg : Str → Except Str PkgData}
    {doc : Doc} {out : RunOut} (h : runUpd argv pkg reg doc = .ok out) :
    ∃ results m2 u doc2,
      fetchAll reg (checkedNames (buildManifest argv.patterns pkg)) = .ok results ∧
      mergeResults argv.nop argv.greatest results (buildManifest argv.patterns pkg) doc =
        .ok (m2, u, doc2) ∧
      out = ⟨m2, mkReport argv.all m2, u,
        if u && !argv.nop then some (unparse doc2) else none⟩ := by
  simp only [runUpd] at h
  cases hf : fetchAll reg (checkedNames (buildManifest argv.patterns pkg)) with
  | error er =>
    rw [hf] at h
    cases h
  | ok results =>
    simp only [hf] at h
    cases hm : mergeResults argv.nop argv.greatest results (buildManifest argv.patterns pkg) doc with
    | error er =>
      rw [hm] at h
      cases h
    | ok trip =>
      rcases trip with ⟨m2, u, doc2⟩
      simp only [hm] at h
      injection h with h
      exact ⟨results, m2, u, doc2, rfl, hm, h.symm⟩

theorem checkedNames_iff {m : Manifest} {n : Str} :
    n ∈ checkedNames m ↔ ∃ b ∈ m, b.1 = n ∧ ∃ e ∈ b.2, e.state = .check := by
  unfold checkedNames
  constructor
  · intro h
    rcases List.mem_map.mp h with ⟨b, hb, hfst⟩
    rcases List.mem_filter.mp hb with ⟨hbm, hchk⟩
    refine ⟨b, hbm, hfst, ?_⟩
    rcases List.any_eq_true.mp hchk with ⟨e, he, hst⟩
    exact ⟨e, he, by simpa using hst⟩
  · rintro ⟨b, hbm, hfst, e, he, hst⟩
    refine List.mem_map.mpr ⟨b, List.mem_filter.mpr ⟨hbm, ?_⟩, hfst⟩
    exact List.any_eq_true.mpr ⟨e, he, by simpa using hst⟩

theorem mergeEntryOk_vNew {v : Str} {e : Entry} {p : Entry × Bool}
    (h : mergeEntryOk v e = some p) (hchk : e.state = .check) : p.1.vNew = v := by
  unfold mergeEntryOk at h
  rw [if_neg (by simp [hchk])] at h
  by_cases h2 : e.vOld = v
  · rw [if_pos h2] at h
    injection h with h
    rw [← h]
  · rw [if_neg h2] at h
    cases hg : semverGtE e.vOld v with
    | none =>
      rw [hg] at h
      cases h
    | some b =>
      cases b with
      | true =>
        rw [hg] at h
        injection h with h
        rw [← h]
      | false =>
        rw [hg] at h
        by_cases hrepl : jsReplaceFirst e.sOld e.vOld v = e.sOld
        · rw [if_pos hrepl] at h
          cases h
        · rw [if_neg hrepl] at h
          injection h with h
          rw [← h]

/-- C5 (confirmed): the lookup list is the deduplicated list of names
having at least one `check` entry — so one registry lookup per such
name, independent of how many sections declare it — and after a
successful merge every bucket's `kept`/`updated` entries carry one and
the same resolved version. -/
theorem C5_dedup_single_lookup (argv : Argv) (pkg : Pkg)
    (reg : Str → Except Str PkgData) (doc : Doc) (out : RunOut)
    (h : runUpd argv pkg reg doc = .ok out) :
    (checkedNames (buildManifest argv.patterns pkg)).Nodup ∧
    (∀ n, n ∈ checkedNames (buildManifest argv.patterns pkg) ↔
      ∃ b ∈ buildManifest argv.patterns pkg, b.1 = n ∧ ∃ e ∈ b.2, e.state = .check) ∧
    (∀ b2 ∈ out.manifest, ∃ v, ∀ e2 ∈ b2.2,
      (e2.state = .kept ∨ e2.state = .updated) → e2.vNew = v) := by
  have hndkeys : ((buildManifest argv.patterns pkg).map Prod.fst).Nodup := by
    rw [buildManifest_keys]
    exact ddup_nodup _
  refine ⟨?_, fun n => checkedNames_iff, ?_⟩
  · unfold checkedNames
    exact List.Nodup.sublist (List.Sublist.map _ (List.filter_sublist _)) hndkeys
  · rcases runUpd_inv h with ⟨results, m2, u, doc2, hf, hm, hout⟩
    rcases mergeResults_char hm hndkeys with ⟨hc1, _, hc3⟩
    intro b2 hb2
    rw [hout] at hb2
    rw [hc1] at hb2
    rcases List.mem_map.mp hb2 with ⟨b, hbm, hbb⟩
    cases hrf : resolveFor argv.greatest results b.1 with
    | none =>
      refine ⟨[], ?_⟩
      intro e2 he2 hst
      rw [← hbb] at he2
      have he2b : e2 ∈ b.2 := by
        have : finalBucket argv.greatest results b.1 b.2 = b.2 := by
          simp only [finalBucket, hrf]
        rw [this] at he2
        exact he2
      rcases buildManifest_init_states hbm he2b with h1 | h1 | h1 <;>
        rcases hst with h2 | h2 <;> rw [h1] at h2 <;> cases h2
    | some v =>
      refine ⟨v, ?_⟩
      intro e2 he2 hst
      rw [← hbb] at he2
      have : finalBucket argv.greatest results b.1 b.2 = b.2.map (extractE v) := by
        simp only [finalBucket, hrf]
      rw [this] at he2
      rcases List.mem_map.mp he2 with ⟨e, hem, hee⟩
      by_cases hchk : e.state = .check
      · cases hme : mergeEntryOk v e with
        | none => exact absurd hme (hc3 b hbm v hrf e hem)
        | some p =>
          have hx : extractE v e = p.1 := by
            unfold extractE
            rw [hme]
          rw [← hee, hx]
          exact mergeEntryOk_vNew hme hchk
      · have hx : extractE v e = e := (extractE_not_check hchk).1
        rw [← hee, hx] at hst
        rcases buildManifest_init_states hbm hem with h1 | h1 | h1 <;>
          rcases hst with h2 | h2 <;> rw [h1] at h2 <;> cases h2

theorem C5_dedup_single_lookup_witness :
    ∃ out, runUpd ⟨[], false, false, false⟩
        [(("devDependencies".data), [(("left-pad".data), ("^1.2.0".data))]),
         (("dependencies".data), [(("left-pad".data), ("^1.2.0".data))])]
        (fun n => if n = ("left-pad".data) then
          .ok ⟨[("1.3.0".data)], some ("1.3.0".data)⟩ else .error [])
        [⟨some (("devDependencies".data), ("left-pad".data)), ("X".data)⟩,
         ⟨some (("dependencies".data), ("left-pad".data)), ("Y".data)⟩] = .ok out ∧
      (checkedNames (buildManifest []
        [(("devDependencies".data), [(("left-pad".data), ("^1.2.0".data))]),
         (("dependencies".data), [(("left-pad".data), ("^1.2.0".data))])])).Nodup := by
  have hrun : runUpd ⟨[], false, false, false⟩
      [(("devDependencies".data), [(("left-pad".data), ("^1.2.0".data))]),
       (("dependencies".data), [(("left-pad".data), ("^1.2.0".data))])]
      (fun n => if n = ("left-pad".data) then
        .ok ⟨[("1.3.0".data)], some ("1.3.0".data)⟩ else .error [])
      [⟨some (("devDependencies".data), ("left-pad".data)), ("X".data)⟩,
       ⟨some (("dependencies".data), ("left-pad".data)), ("Y".data)⟩] =
      .ok ⟨[(("left-pad".data),
        [⟨("devDependencies".data), ("^1.2.0".data), ("1.2.0".data), ("^1.3.0".data), ("1.3.0".data), .updated⟩,
         ⟨("dependencies".data), ("^1.2.0".data), ("1.2.0".data), ("^1.3.0".data), ("1.3.0".data), .updated⟩])],
        [⟨("left-pad".data), ("^1.2.0".data), ("^1.3.0".data), .updated⟩,
         ⟨("left-pad".data), ("^1.2.0".data), ("^1.3.0".data), .updated⟩],
        true, some (jsonQuote ("^1.3.0".data) ++ jsonQuote ("^1.3.0".data))⟩ := by decide
  exact ⟨_, hrun, (C5_dedup_single_lookup _ _ _ _ _ hrun).1⟩

/-! ## Dry-run simulation -/

theorem mergeOne_of_pure {name v : Str} {e : Entry} {p : Entry × Bool}
    (h : mergeEntryOk v e = some p) (doc : Doc) :
    mergeOne true name v e doc = .ok (p.1, p.2, doc) := by
  unfold mergeEntryOk at h
  by_cases h1 : e.state ≠ .check
  · rw [if_pos h1] at h
    injection h with h
    rw [← h, mergeOne_not_check h1]
  · rw [if_neg h1] at h
    push_neg at h1
    by_cases h2 : e.vOld = v
    · rw [if_pos h2] at h
      injection h with h
      rw [← h, mergeOne_eq_str h1 h2]
    · rw [if_neg h2] at h
      cases hg : semverGtE e.vOld v with
      | none =>
        rw [hg] at h
        cases h
      | some b =>
        cases b with
        | true =>
          rw [hg] at h
          injection h with h
          rw [← h, mergeOne_gt h1 h2 hg]
        | false =>
          rw [hg] at h
          by_cases hrepl : jsReplaceFirst e.sOld e.vOld v = e.sOld
          · rw [if_pos hrepl] at h
            cases h
          · rw [if_neg hrepl] at h
            injection h with h
            rw [← h, mergeOne_notgt h1 h2 hg, if_neg hrepl, if_pos rfl]

theorem mergeSpecs_nop {name v : Str} :
    ∀ {es : List Entry} {doc : Doc} {es2 : List Entry} {u : Bool} {doc2 : Doc},
    mergeSpecs false name v es doc = .ok (es2, u, doc2) →
    ∀ doc3, mergeSpecs true name v es doc3 = .ok (es2, u, doc3) := by
  intro es
  induction es with
  | nil =>
    intro doc es2 u doc2 h doc3
    injection h with h
    injection h with ha hb
    injection hb with hb _
    rw [← ha, ← hb]
    rfl
  | cons e es ih =>
    intro doc es2 u doc2 h doc3
    unfold mergeSpecs at h ⊢
    cases hm : mergeOne false name v e doc with
    | error er =>
      rw [hm] at h
      cases h
    | ok trip =>
      rcases trip with ⟨e2h, u1, doc'⟩
      simp only [hm] at h
      cases hms : mergeSpecs false name v es doc' with
      | error er =>
        simp only [hms] at h
        cases h
      | ok trip2 =>
        rcases trip2 with ⟨es2', u2, doc''⟩
        simp only [hms] at h
        injection h with h
        injection h with ha hb
        injection hb with hb _
        rw [mergeOne_of_pure (mergeOne_pure hm) doc3]
        simp only [ih hms doc3]
        rw [ha, hb]

theorem updBucket_nop {name v : Str} :
    ∀ {m : Manifest} {doc : Doc} {m2 : Manifest} {u : Bool} {doc2 : Doc},
    updBucket false name v m doc = .ok (m2, u, doc2) →
    ∀ doc3, updBucket true name v m doc3 = .ok (m2, u, doc3) := by
  intro m
  induction m with
  | nil =>
    intro doc m2 u doc2 h doc3
    injection h with h
    injection h with ha hb
    injection hb with hb _
    rw [← ha, ← hb]
    rfl
  | cons b0 m ih =>
    intro doc m2 u doc2 h doc3
    rcases b0 with ⟨k, es⟩
    unfold updBucket at h ⊢
    by_cases hk : k = name
    · rw [if_pos hk] at h ⊢
      cases hms : mergeSpecs false name v es doc with
      | error er =>
        rw [hms] at h
        cases h
      | ok trip =>
        rcases trip with ⟨es2, u1, doc'⟩
        simp only [hms] at h
        injection h with h
        injection h with ha hb
        injection hb with hb _
        rw [mergeSpecs_nop hms doc3]
        show Except.ok ((k, es2) :: m, u1, doc3) = Except.ok (m2, u, doc3)
        rw [ha, hb]
    · rw [if_neg hk] at h ⊢
      cases hub : updBucket false name v m doc with
      | error er =>
        rw [hub] at h
        cases h
      | ok trip =>
        rcases trip with ⟨m2', u1, doc'⟩
        simp only [hub] at h
        injection h with h
        injection h with ha hb
        injection hb with hb _
        rw [ih hub doc3]
        simp only []
        rw [ha, hb]

theorem mergeResults_nop {g : Bool} :
    ∀ {rs : List (Str × PkgData)} {m : Manifest} {doc : Doc} {m2 : Manifest} {u : Bool}
      {doc2 : Doc},
    mergeResults false g rs m doc = .ok (m2, u, doc2) →
    ∀ doc3, mergeResults true g rs m doc3 = .ok (m2, u, doc3) := by
  intro rs
  induction rs with
  | nil =>
    intro m doc m2 u doc2 h doc3
    injection h with h
    injection h with ha hb
    injection hb with hb _
    rw [← ha, ← hb]
    rfl
  | cons nd rs ih =>
    intro m doc m2 u doc2 h doc3
    rcases nd with ⟨name, d⟩
    unfold mergeResults at h ⊢
    cases hrt : resolveTarget g name d with
    | error er =>
      rw [hrt] at h
      cases h
    | ok v =>
      simp only [hrt] at h ⊢
      cases hub : updBucket false name v m doc with
      | error er =>
        simp only [hub] at h
        cases h
      | ok trip =>
        rcases trip with ⟨m', u1, doc'⟩
        simp only [hub] at h
        cases hmr : mergeResults false g rs m' doc' with
        | error er =>
          simp only [hmr] at h
          cases h
        | ok trip2 =>
          rcases trip2 with ⟨m3, u2, doc3'⟩
          simp only [hmr] at h
          injection h with h
          injection h with ha hb
          injection hb with hb _
          rw [updBucket_nop hub doc3]
          simp only [ih hmr doc3]
          rw [ha, hb]

theorem mergeFlag_updated {v : Str} {e : Entry} (h : mergeFlag v e = true) :
    (extractE v e).state = .updated ∧ e.state = .check := by
  unfold mergeFlag at h
  cases hm : mergeEntryOk v e with
  | none =>
    rw [hm] at h
    cases h
  | some p =>
    rw [hm] at h
    have hx : extractE v e = p.1 := by
      unfold extractE
      rw [hm]
    rw [hx]
    unfold mergeEntryOk at hm
    by_cases h1 : e.state ≠ .check
    · rw [if_pos h1] at hm
      injection hm with hm
      rw [← hm] at h
      cases h
    · rw [if_neg h1] at hm
      push_neg at h1
      refine ⟨?_, h1⟩
      by_cases h2 : e.vOld = v
      · rw [if_pos h2] at hm
        injection hm with hm
        rw [← hm] at h
        cases h
      · rw [if_neg h2] at hm
        cases hg : semverGtE e.vOld v with
        | none =>
          rw [hg] at hm
          cases hm
        | some b =>
          cases b with
          | true =>
            rw [hg] at hm
            injection hm with hm
            rw [← hm] at h
            cases h
          | false =>
            rw [hg] at hm
            by_cases hrepl : jsReplaceFirst e.sOld e.vOld v = e.sOld
            · rw [if_pos hrepl] at hm
              cases hm
            · rw [if_neg hrepl] at hm
              injection hm with hm
              rw [← hm]

theorem extractE_updated_flag {v : Str} {e : Entry} (hchk : e.state = .check)
    (h : (extractE v e).state = .updated) : mergeFlag v e = true := by
  unfold extractE at h
  unfold mergeFlag
  cases hm : mergeEntryOk v e with
  | none =>
    rw [hm] at h
    rw [hchk] at h
    cases h
  | some p =>
    rw [hm] at h
    unfold mergeEntryOk at hm
    rw [if_neg (by simp [hchk])] at hm
    by_cases h2 : e.vOld = v
    · rw [if_pos h2] at hm
      injection hm with hm
      rw [← hm] at h
      cases h
    · rw [if_neg h2] at hm
      cases hg : semverGtE e.vOld v with
      | none =>
        rw [hg] at hm
        cases hm
      | some b =>
        cases b with
        | true =>
          rw [hg] at hm
          injection hm with hm
          rw [← hm] at h
          cases h
        | false =>
          rw [hg] at hm
          by_cases hrepl : jsReplaceFirst e.sOld e.vOld v = e.sOld
          · rw [if_pos hrepl] at hm
            cases hm
          · rw [if_neg hrepl] at hm
            injection hm with hm
            rw [← hm]

/-- C4 (confirmed): a successful run writes the file exactly when some
entry reached `updated` and the dry-run flag is off; the updates flag
holds exactly when some entry of the final inventory is `updated`; any
thrown error yields `Except.error`, which carries no written document,
so the file is untouched on failure; and the dry run of a succeeding
non-dry run succeeds with the same inventory, the same report and the
same updates flag, writing nothing. -/
theorem C4_write_guard (argv : Argv) (pkg : Pkg) (reg : Str → Except Str PkgData)
    (doc : Doc) (out : RunOut) (h : runUpd argv pkg reg doc = .ok out) :
    (out.written = none ↔ (out.updates = false ∨ argv.nop = true)) ∧
    (out.updates = true ↔ ∃ b ∈ out.manifest, ∃ e ∈ b.2, e.state = .updated) ∧
    (argv.nop = false → ∃ out2, runUpd { argv with nop := true } pkg reg doc = .ok out2 ∧
      out2.report = out.report ∧ out2.updates = out.updates ∧
      out2.manifest = out.manifest ∧ out2.written = none) := by
  have hndkeys : ((buildManifest argv.patterns pkg).map Prod.fst).Nodup := by
    rw [buildManifest_keys]
    exact ddup_nodup _
  rcases runUpd_inv h with ⟨results, m2, u, doc2, hf, hm, hout⟩
  rcases mergeResults_char hm hndkeys with ⟨hc1, hc2, hc3⟩
  refine ⟨?_, ?_, ?_⟩
  · rw [hout]
    cases u <;> cases hnop : argv.nop <;> simp
  · rw [hout]
    show u = true ↔ ∃ b ∈ m2, ∃ e ∈ b.2, e.state = .updated
    constructor
    · intro hu
      rw [hu] at hc2
      rcases List.any_eq_true.mp hc2.symm with ⟨b, hbm, hflag⟩
      have hrf : ∃ v, resolveFor argv.greatest results b.1 = some v ∧
          b.2.any (mergeFlag v) = true := by
        cases hrf : resolveFor argv.greatest results b.1 with
        | none =>
          rw [show bucketFlag argv.greatest results b.1 b.2 = false from by
            simp only [bucketFlag, hrf]] at hflag
          cases hflag
        | some v =>
          refine ⟨v, rfl, ?_⟩
          rw [show bucketFlag argv.greatest results b.1 b.2 = b.2.any (mergeFlag v) from by
            simp only [bucketFlag, hrf]] at hflag
          exact hflag
      rcases hrf with ⟨v, hrf, hany⟩
      rcases List.any_eq_true.mp hany with ⟨e, hem, hfl⟩
      refine ⟨(b.1, finalBucket argv.greatest results b.1 b.2), ?_, extractE v e, ?_, ?_⟩
      · rw [hc1]
        exact List.mem_map.mpr ⟨b, hbm, rfl⟩
      · show extractE v e ∈ finalBucket argv.greatest results b.1 b.2
        rw [show finalBucket argv.greatest results b.1 b.2 = b.2.map (extractE v) from by
          simp only [finalBucket, hrf]]
        exact List.mem_map.mpr ⟨e, hem, rfl⟩
      · exact (mergeFlag_updated hfl).1
    · rintro ⟨b2, hb2, e2, he2, hst⟩
      rw [hc1] at hb2
      rcases List.mem_map.mp hb2 with ⟨b, hbm, hbb⟩
      rw [← hbb] at he2
      cases hrf : resolveFor argv.greatest results b.1 with
      | none =>
        rw [show finalBucket argv.greatest results b.1 b.2 = b.2 from by
          simp only [finalBucket, hrf]] at he2
        rcases buildManifest_init_states hbm he2 with h1 | h1 | h1 <;>
          rw [h1] at hst <;> cases hst
      | some v =>
        rw [show finalBucket argv.greatest results b.1 b.2 = b.2.map (extractE v) from by
          simp only [finalBucket, hrf]] at he2
        rcases List.mem_map.mp he2 with ⟨e, hem, hee⟩
        by_cases hchk : e.state = .check
        · have hfl : mergeFlag v e = true := by
            apply extractE_updated_flag hchk
            rw [hee]
            exact hst
          rw [hc2]
          apply List.any_eq_true.mpr
          refine ⟨b, hbm, ?_⟩
          rw [show bucketFlag argv.greatest results b.1 b.2 = b.2.any (mergeFlag v) from by
            simp only [bucketFlag, hrf]]
          exact List.any_eq_true.mpr ⟨e, hem, hfl⟩
        · have hx : extractE v e = e := (extractE_not_check hchk).1
          rw [hx] at hee
          rw [← hee] at hst
          rcases buildManifest_init_states hbm hem with h1 | h1 | h1 <;>
            rw [h1] at hst <;> cases hst
  · intro hnop
    rw [hnop] at hm
    refine ⟨⟨m2, mkReport argv.all m2, u, none⟩, ?_, ?_, ?_, ?_, rfl⟩
    · simp only [runUpd, hf]
      rw [mergeResults_nop hm doc]
      simp
    · rw [hout]
    · rw [hout]
    · rw [hout]

theorem C4_write_guard_witness :
    ∃ out, runUpd ⟨[], false, false, false⟩
        [(("dependencies".data), [(("left-pad".data), ("^1.2.0".data))])]
        (fun n => if n = ("left-pad".data) then
          .ok ⟨[("1.3.0".data)], some ("1.3.0".data)⟩ else .error [])
        [⟨some (("dependencies".data), ("left-pad".data)), ("X".data)⟩] = .ok out ∧
      (out.written = none ↔ (out.updates = false ∨ (false : Bool) = true)) := by
  have hrun : runUpd ⟨[], false, false, false⟩
      [(("dependencies".data), [(("left-pad".data), ("^1.2.0".data))])]
      (fun n => if n = ("left-pad".data) then
        .ok ⟨[("1.3.0".data)], some ("1.3.0".data)⟩ else .error [])
      [⟨some (("dependencies".data), ("left-pad".data)), ("X".data)⟩] =
      .ok ⟨[(("left-pad".data),
        [⟨("dependencies".data), ("^1.2.0".data), ("1.2.0".data), ("^1.3.0".data), ("1.3.0".data), .updated⟩])],
        [⟨("left-pad".data), ("^1.2.0".data), ("^1.3.0".data), .updated⟩],
        true, some (jsonQuote ("^1.3.0".data))⟩ := by decide
  exact ⟨_, hrun, (C4_write_guard ⟨[], false, false, false⟩ _ _ _ _ hrun).1⟩

/-! ## Format preservation -/

theorem DocChanges_refl (P : Str × Str → Prop) (doc : Doc) : DocChanges P doc doc :=
  ⟨rfl, fun _ _ _ => ⟨rfl, fun _ => rfl⟩⟩

theorem DocChanges_trans {P : Str × Str → Prop} {d1 d2 d3 : Doc}
    (a : DocChanges P d1 d2) (b : DocChanges P d2 d3) : DocChanges P d1 d3 := by
  obtain ⟨al, af⟩ := a
  obtain ⟨bl, bf⟩ := b
  refine ⟨bl.trans al, ?_⟩
  intro i h1 h3
  have h2 : i < d2.length := by omega
  obtain ⟨ak, ae⟩ := af i h1 h2
  obtain ⟨bk, be⟩ := bf i h2 h3
  refine ⟨bk.trans ak, ?_⟩
  intro hnp
  have e2 := ae hnp
  have e3 := be (fun kk hk => hnp kk (ak.symm.trans hk))
  rw [e3, e2]

theorem DocChanges_mono {P Q : Str × Str → Prop} (hpq : ∀ k, P k → Q k) {d1 d2 : Doc}
    (a : DocChanges P d1 d2) : DocChanges Q d1 d2 :=
  ⟨a.1, fun i h1 h2 => ⟨(a.2 i h1 h2).1,
    fun hn => (a.2 i h1 h2).2 (fun kk hk hp => hn kk hk (hpq kk hp))⟩⟩

theorem astPatch_changes {sect module txt : Str} {d d2 : Doc}
    (h : astPatch sect module txt d = .ok d2) :
    DocChanges (fun k => k = (sect, module)) d d2 := by
  unfold astPatch at h
  by_cases hc : d.countP (fun t => t.key = some (sect, module)) = 1
  · rw [if_pos hc] at h
    injection h with h
    subst h
    refine ⟨List.length_map _ _, ?_⟩
    intro i h1 h2
    have hget : (List.map (fun t => if t.key = some (sect, module) then
        { t with text := txt } else t) d).get ⟨i, h2⟩ =
        (fun t => if t.key = some (sect, module) then { t with text := txt } else t)
          (d.get ⟨i, h1⟩) := by
      simp
    rw [hget]
    constructor
    · show (if (d.get ⟨i, h1⟩).key = some (sect, module) then
          { d.get ⟨i, h1⟩ with text := txt } else d.get ⟨i, h1⟩).key = (d.get ⟨i, h1⟩).key
      by_cases ht : (d.get ⟨i, h1⟩).key = some (sect, module)
      · rw [if_pos ht]
      · rw [if_neg ht]
    · intro hn
      show (if (d.get ⟨i, h1⟩).key = some (sect, module) then
          { d.get ⟨i, h1⟩ with text := txt } else d.get ⟨i, h1⟩) = d.get ⟨i, h1⟩
      by_cases ht : (d.get ⟨i, h1⟩).key = some (sect, module)
      · exact absurd rfl (hn _ ht)
      · rw [if_neg ht]
  · rw [if_neg hc] at h
    cases h

theorem mergeOne_doc {nop : Bool} {name v : Str} {e : Entry} {doc : Doc} {e2 : Entry}
    {u : Bool} {doc2 : Doc} (h : mergeOne nop name v e doc = .ok (e2, u, doc2)) :
    doc2 = doc ∨ (e2.state = .updated ∧ e2.sect = e.sect ∧
      astPatch e.sect name (jsonQuote (jsReplaceFirst e.sOld e.vOld v)) doc = .ok doc2) := by
  by_cases h1 : e.state = .check
  · by_cases h2 : e.vOld = v
    · rw [mergeOne_eq_str h1 h2] at h
      injection h with h
      injection h with ha hb
      injection hb with hb hc
      exact Or.inl hc.symm
    · cases hg : semverGtE e.vOld v with
      | none =>
        rw [mergeOne_invalid h1 h2 hg] at h
        cases h
      | some b =>
        cases b with
        | true =>
          rw [mergeOne_gt h1 h2 hg] at h
          injection h with h
          injection h with ha hb
          injection hb with hb hc
          exact Or.inl hc.symm
        | false =>
          rw [mergeOne_notgt h1 h2 hg] at h
          by_cases hrepl : jsReplaceFirst e.sOld e.vOld v = e.sOld
          · rw [if_pos hrepl] at h
            cases h
          · rw [if_neg hrepl] at h
            cases hnop : nop with
            | true =>
              rw [hnop, if_pos rfl] at h
              injection h with h
              injection h with ha hb
              injection hb with hb hc
              exact Or.inl hc.symm
            | false =>
              rw [hnop] at h
              rw [if_neg (by simp)] at h
              cases hap : astPatch e.sect name
                  (jsonQuote (jsReplaceFirst e.sOld e.vOld v)) doc with
              | error er =>
                simp only [hap] at h
                cases h
              | ok d3 =>
                simp only [hap] at h
                injection h with h
                injection h with ha hb
                injection hb with hb hc
                refine Or.inr ⟨?_, ?_, ?_⟩
                · rw [← ha]
                · rw [← ha]
                · rw [← hc]
  · rw [mergeOne_not_check h1] at h
    injection h with h
    injection h with ha hb
    injection hb with hb hc
    exact Or.inl hc.symm

theorem mergeSpecs_doc {nop : Bool} {name v : Str} :
    ∀ {es : List Entry} {doc : Doc} {es2 : List Entry} {u : Bool} {doc2 : Doc},
    mergeSpecs nop name v es doc = .ok (es2, u, doc2) →
    DocChanges (fun k => ∃ e2 ∈ es2, e2.state = .updated ∧ k = (e2.sect, name)) doc doc2 := by
  intro es
  induction es with
  | nil =>
    intro doc es2 u doc2 h
    injection h with h
    injection h with ha hb
    injection hb with hb hc
    rw [← hc]
    exact DocChanges_refl _ _
  | cons e es ih =>
    intro doc es2 u doc2 h
    unfold mergeSpecs at h
    cases hm : mergeOne nop name v e doc with
    | error er =>
      rw [hm] at h
      cases h
    | ok trip =>
      rcases trip with ⟨e2h, u1, doc3⟩
      simp only [hm] at h
      cases hms : mergeSpecs nop name v es doc3 with
      | error er =>
        simp only [hms] at h
        cases h
      | ok trip2 =>
        rcases trip2 with ⟨es2t, u2, doc4⟩
        simp only [hms] at h
        injection h with h
        injection h with ha hb
        injection hb with hb hc
        subst hc
        refine DocChanges_trans ?_ (DocChanges_mono ?_ (ih hms))
        · rcases mergeOne_doc hm with hdd | ⟨hst, hse, hap⟩
          · rw [hdd]
            exact DocChanges_refl _ _
          · refine DocChanges_mono ?_ (astPatch_changes hap)
            intro k hk
            refine ⟨e2h, ?_, hst, ?_⟩
            · rw [← ha]
              exact List.mem_cons_self _ _
            · rw [hk, hse]
        · intro k hk
          rcases hk with ⟨e2, he2, hs, hkk⟩
          refine ⟨e2, ?_, hs, hkk⟩
          rw [← ha]
          exact List.mem_cons_of_mem _ he2

theorem mem_updatedKeysL {m : Manifest} {k : Str × Str} :
    k ∈ updatedKeysL m ↔ ∃ b ∈ m, ∃ e ∈ b.2, e.state = .updated ∧ k = (e.sect, b.1) := by
  unfold updatedKeysL
  rw [List.mem_flatten]
  constructor
  · rintro ⟨l, hl, hk⟩
    rcases List.mem_map.mp hl with ⟨b, hbm, hbl⟩
    rw [← hbl] at hk
    rcases List.mem_filterMap.mp hk with ⟨e, he, hif⟩
    by_cases hst : e.state = .updated
    · rw [if_pos hst] at hif
      injection hif with hif
      exact ⟨b, hbm, e, he, hst, hif.symm⟩
    · rw [if_neg hst] at hif
      cases hif
  · rintro ⟨b, hbm, e, he, hst, hk⟩
    refine ⟨_, List.mem_map.mpr ⟨b, hbm, rfl⟩, ?_⟩
    refine List.mem_filterMap.mpr ⟨e, he, ?_⟩
    rw [if_pos hst, hk]

theorem updBucket_doc {nop : Bool} {name v : Str} :
    ∀ {m : Manifest} {doc : Doc} {m2 : Manifest} {u : Bool} {doc2 : Doc},
    updBucket nop name v m doc = .ok (m2, u, doc2) →
    DocChanges (fun k => k ∈ updatedKeysL m2) doc doc2 := by
  intro m
  induction m with
  | nil =>
    intro doc m2 u doc2 h
    injection h with h
    injection h with ha hb
    injection hb with hb hc
    rw [← hc]
    exact DocChanges_refl _ _
  | cons b0 m ih =>
    intro doc m2 u doc2 h
    rcases b0 with ⟨k0, es⟩
    unfold updBucket at h
    by_cases hk : k0 = name
    · rw [if_pos hk] at h
      cases hms : mergeSpecs nop name v es doc with
      | error er =>
        rw [hms] at h
        cases h
      | ok trip =>
        rcases trip with ⟨es2, u1, doc3⟩
        simp only [hms] at h
        injection h with h
        injection h with ha hb
        injection hb with hb hc
        subst hc
        refine DocChanges_mono ?_ (mergeSpecs_doc hms)
        intro kk hkk
        rcases hkk with ⟨e2, he2, hs, hkk⟩
        rw [← ha]
        apply mem_updatedKeysL.mpr
        refine ⟨(k0, es2), List.mem_cons_self _ _, e2, he2, hs, ?_⟩
        show kk = (e2.sect, k0)
        rw [hkk, hk]
    · rw [if_neg hk] at h
      cases hub : updBucket nop name v m doc with
      | error er =>
        rw [hub] at h
        cases h
      | ok trip =>
        rcases trip with ⟨m2t, u1, doc3⟩
        simp only [hub] at h
        injection h with h
        injection h with ha hb
        injection hb with hb hc
        subst hc
        refine DocChanges_mono ?_ (ih hub)
        intro kk hkk
        rw [← ha]
        apply mem_updatedKeysL.mpr
        rcases mem_updatedKeysL.mp hkk with ⟨b, hbm, e, he, hs, hkk2⟩
        exact ⟨b, List.mem_cons_of_mem _ hbm, e, he, hs, hkk2⟩

theorem updBucket_updated_pres {nop : Bool} {name v : Str} :
    ∀ {m : Manifest} {doc : Doc} {m2 : Manifest} {u : Bool} {doc2 : Doc},
    updBucket nop name v m doc = .ok (m2, u, doc2) →
    ∀ k ∈ updatedKeysL m, k ∈ updatedKeysL m2 := by
  intro m
  induction m with
  | nil =>
    intro doc m2 u doc2 h k hk
    simp [updatedKeysL] at hk
  | cons b0 m ih =>
    intro doc m2 u doc2 h k hk
    rcases b0 with ⟨k0, es⟩
    unfold updBucket at h
    by_cases hk0 : k0 = name
    · rw [if_pos hk0] at h
      cases hms : mergeSpecs nop name v es doc with
      | error er =>
        rw [hms] at h
        cases h
      | ok trip =>
        rcases trip with ⟨es2, u1, doc3⟩
        simp only [hms] at h
        injection h with h
        injection h with ha hb
        injection hb with hb hc
        rw [← ha]
        rcases mem_updatedKeysL.mp hk with ⟨b, hbm, e, he, hs, hkk⟩
        rcases List.mem_cons.mp hbm with hbm | hbm
        · apply mem_updatedKeysL.mpr
          have hes2 : e ∈ es2 := by
            rw [(mergeSpecs_char hms).1]
            have hnc : ¬e.state = .check := by
              rw [hs]
              intro hcc
              cases hcc
            refine List.mem_map.mpr ⟨e, ?_, (extractE_not_check hnc).1⟩
            rw [hbm] at he
            exact he
          refine ⟨(k0, es2), List.mem_cons_self _ _, e, hes2, hs, ?_⟩
          show k = (e.sect, k0)
          rw [hkk, hbm]
        · apply mem_updatedKeysL.mpr
          exact ⟨b, List.mem_cons_of_mem _ hbm, e, he, hs, hkk⟩
    · rw [if_neg hk0] at h
      cases hub : updBucket nop name v m doc with
      | error er =>
        rw [hub] at h
        cases h
      | ok trip =>
        rcases trip with ⟨m2t, u1, doc3⟩
        simp only [hub] at h
        injection h with h
        injection h with ha hb
        injection hb with hb hc
        rw [← ha]
        rcases mem_updatedKeysL.mp hk with ⟨b, hbm, e, he, hs, hkk⟩
        rcases List.mem_cons.mp hbm with hbm | hbm
        · apply mem_updatedKeysL.mpr
          exact ⟨(k0, es), List.mem_cons_self _ _, e, by rw [← hbm]; exact he, hs,
            by rw [hkk, hbm]⟩
        · have hkm : k ∈ updatedKeysL m :=
            mem_updatedKeysL.mpr ⟨b, hbm, e, he, hs, hkk⟩
          have := ih hub k hkm
          apply mem_updatedKeysL.mpr
          rcases mem_updatedKeysL.mp this with ⟨b2, hb2, e2, he2, hs2, hkk2⟩
          exact ⟨b2, List.mem_cons_of_mem _ hb2, e2, he2, hs2, hkk2⟩

theorem mergeResults_updated_pres {nop g : Bool} :
    ∀ {rs : List (Str × PkgData)} {m : Manifest} {doc : Doc} {m2 : Manifest} {u : Bool}
      {doc2 : Doc},
    mergeResults nop g rs m doc = .ok (m2, u, doc2) →
    ∀ k ∈ updatedKeysL m, k ∈ updatedKeysL m2 := by
  intro rs
  induction rs with
  | nil =>
    intro m doc m2 u doc2 h k hk
    injection h with h
    injection h with ha hb
    rw [← ha]
    exact hk
  | cons nd rs ih =>
    intro m doc m2 u doc2 h k hk
    rcases nd with ⟨name, d⟩
    unfold mergeResults at h
    cases hrt : resolveTarget g name d with
    | error er =>
      rw [hrt] at h
      cases h
    | ok v =>
      simp only [hrt] at h
      cases hub : updBucket nop name v m doc with
      | error er =>
        simp only [hub] at h
        cases h
      | ok trip =>
        rcases trip with ⟨m3, u1, doc3⟩
        simp only [hub] at h
        cases hmr : mergeResults nop g rs m3 doc3 with
        | error er =>
          simp only [hmr] at h
          cases h
        | ok trip2 =>
          rcases trip2 with ⟨m4, u2, doc4⟩
          simp only [hmr] at h
          injection h with h
          injection h with ha hb
          rw [← ha]
          exact ih hmr k (updBucket_updated_pres hub k hk)

theorem mergeResults_doc {nop g : Bool} :
    ∀ {rs : List (Str × PkgData)} {m : Manifest} {doc : Doc} {m2 : Manifest} {u : Bool}
      {doc2 : Doc},
    mergeResults nop g rs m doc = .ok (m2, u, doc2) →
    DocChanges (fun k => k ∈ updatedKeysL m2) doc doc2 := by
  intro rs
  induction rs with
  | nil =>
    intro m doc m2 u doc2 h
    injection h with h
    injection h with ha hb
    injection hb with hb hc
    rw [← hc]
    exact DocChanges_refl _ _
  | cons nd rs ih =>
    intro m doc m2 u doc2 h
    rcases nd with ⟨name, d⟩
    unfold mergeResults at h
    cases hrt : resolveTarget g name d with
    | error er =>
      rw [hrt] at h
      cases h
    | ok v =>
      simp only [hrt] at h
      cases hub : updBucket nop name v m doc with
      | error er =>
        simp only [hub] at h
        cases h
      | ok trip =>
        rcases trip with ⟨m3, u1, doc3⟩
        simp only [hub] at h
        cases hmr : mergeResults nop g rs m3 doc3 with
        | error er =>
          simp only [hmr] at h
          cases h
        | ok trip2 =>
          rcases trip2 with ⟨m4, u2, doc4⟩
          simp only [hmr] at h
          injection h with h
          injection h with ha hb
          injection hb with hb hc
          subst hc
          rw [← ha]
          refine DocChanges_trans (DocChanges_mono ?_ (updBucket_doc hub)) (ih hmr)
          intro k hk
          exact mergeResults_updated_pres hmr k hk

/-- C1 (confirmed): when a successful run writes a document back, the
written text is the re-rendering of a leaf list of the same length and
the same keys as the original tree, in which every leaf other than the
specifier value strings of entries that reached `updated` is exactly
the original leaf — so every byte outside the replaced specifier spans
(whitespace, key order, unrelated values) is unchanged. -/
theorem C1_format_preservation (argv : Argv) (pkg : Pkg)
    (reg : Str → Except Str PkgData) (doc : Doc) (out : RunOut) (t : Str)
    (h : runUpd argv pkg reg doc = .ok out) (hw : out.written = some t) :
    ∃ doc2, t = unparse doc2 ∧
      DocChanges (fun k => k ∈ updatedKeysL out.manifest) doc doc2 := by
  rcases runUpd_inv h with ⟨results, m2, u, doc2, hf, hm, hout⟩
  rw [hout] at hw
  have hw2 : (if (u && !argv.nop) = true then some (unparse doc2) else none) = some t := hw
  by_cases hcond : (u && !argv.nop) = true
  · rw [if_pos hcond] at hw2
    injection hw2 with hw2
    refine ⟨doc2, hw2.symm, ?_⟩
    rw [hout]
    exact mergeResults_doc hm
  · rw [if_neg hcond] at hw2
    cases hw2

theorem C1_format_preservation_witness :
    ∃ doc2, (jsonQuote ("^1.3.0".data) ++ ("B".data)) = unparse doc2 ∧
      DocChanges (fun k => k ∈ updatedKeysL
        [(("left-pad".data),
          [⟨("dependencies".data), ("^1.2.0".data), ("1.2.0".data), ("^1.3.0".data),
            ("1.3.0".data), .updated⟩])])
        [⟨some (("dependencies".data), ("left-pad".data)), ("X".data)⟩,
         ⟨none, ("B".data)⟩] doc2 := by
  have hrun : runUpd ⟨[], false, false, false⟩
      [(("dependencies".data), [(("left-pad".data), ("^1.2.0".data))])]
      (fun n => if n = ("left-pad".data) then
        .ok ⟨[("1.3.0".data)], some ("1.3.0".data)⟩ else .error [])
      [⟨some (("dependencies".data), ("left-pad".data)), ("X".data)⟩,
       ⟨none, ("B".data)⟩] =
      .ok ⟨[(("left-pad".data),
        [⟨("dependencies".data), ("^1.2.0".data), ("1.2.0".data), ("^1.3.0".data),
          ("1.3.0".data), .updated⟩])],
        [⟨("left-pad".data), ("^1.2.0".data), ("^1.3.0".data), .updated⟩],
        true, some (jsonQuote ("^1.3.0".data) ++ ("B".data))⟩ := by decide
  exact C1_format_preservation ⟨[], false, false, false⟩ _ _ _ _ _ hrun rfl

/-! ## The second run: structural lemmas -/

theorem firstSect_cons (e : Entry) (es : List Entry) (s : Str) :
    firstSect (e :: es) s = if e.sect = s then some e else firstSect es s := rfl

theorem lookupA_mem {β : Type} : ∀ {l : List (Str × β)} {n : Str} {b : β},
    lookupA l n = some b → (n, b) ∈ l
  | [], _, _, h => by cases h
  | (k, v) :: r, n, b, h => by
    rw [lookupA_cons] at h
    by_cases hk : k = n
    · rw [if_pos hk] at h
      injection h with h
      subst hk
      rw [← h]
      exact List.mem_cons_self _ _
    · rw [if_neg hk] at h
      exact List.mem_cons_of_mem _ (lookupA_mem h)

theorem lookupA_mem_fst {β : Type} : ∀ {l : List (Str × β)} {n : Str},
    n ∈ l.map Prod.fst → ∃ b, lookupA l n = some b
  | [], n, h => absurd h (List.not_mem_nil n)
  | (k, v) :: r, n, h => by
    rw [lookupA_cons]
    by_cases hk : k = n
    · rw [if_pos hk]
      exact ⟨v, rfl⟩
    · rw [if_neg hk]
      apply lookupA_mem_fst
      simp only [List.map_cons] at h
      rcases List.mem_cons.mp h with h | h
      · exact absurd h.symm hk
      · exact h

theorem lookupA_keysmap {A : Type} (f : Str → A) :
    ∀ (ks : List Str) (n : Str), n ∈ ks →
    lookupA (ks.map (fun k => (k, f k))) n = some (f n)
  | [], n, h => absurd h (List.not_mem_nil n)
  | k :: ks, n, h => by
    show lookupA ((k, f k) :: ks.map (fun k => (k, f k))) n = some (f n)
    rw [lookupA_cons]
    by_cases hk : k = n
    · subst hk
      rw [if_pos rfl]
    · rw [if_neg hk]
      refine lookupA_keysmap f ks n ?_
      rcases List.mem_cons.mp h with h | h
      · exact absurd h.symm hk
      · exact h

theorem lookupA_mapB {A B : Type} (G : Str → A → B) :
    ∀ (l : List (Str × A)) (n : Str),
    lookupA (l.map (fun b => (b.1, G b.1 b.2))) n = (lookupA l n).map (G n)
  | [], _ => rfl
  | (k, a) :: r, n => by
    show lookupA ((k, G k a) :: r.map (fun b => (b.1, G b.1 b.2))) n = _
    rw [lookupA_cons, lookupA_cons]
    by_cases hk : k = n
    · subst hk
      rw [if_pos rfl, if_pos rfl]
      rfl
    · rw [if_neg hk, if_neg hk]
      exact lookupA_mapB G r n

theorem lookupA_buildManifest (pats : List Str) (pkg : Pkg) (n : Str)
    (hn : n ∈ manifestKeys pkg) :
    lookupA (buildManifest pats pkg) n = some (bucketFor pats pkg n) := by
  unfold buildManifest
  exact lookupA_keysmap (bucketFor pats pkg) (manifestKeys pkg) n hn

theorem lookupA_nextPkg (m : Manifest) :
    ∀ (pkg : Pkg) (s : Str),
    lookupA (nextPkg m pkg) s =
      (lookupA pkg s).map (fun items => items.map (fun it => (it.1, nextSpec m s it.1 it.2)))
  | [], _ => rfl
  | (k, items) :: rest, s => by
    show lookupA ((k, items.map (fun it => (it.1, nextSpec m k it.1 it.2))) ::
      nextPkg m rest) s = _
    rw [lookupA_cons, lookupA_cons]
    by_cases hk : k = s
    · subst hk
      rw [if_pos rfl, if_pos rfl]
      rfl
    · rw [if_neg hk, if_neg hk]
      exact lookupA_nextPkg m rest s

theorem orderedSections_nextPkg (m : Manifest) (pkg : Pkg) :
    orderedSections (nextPkg m pkg) =
      (orderedSections pkg).map
        (fun se => (se.1, se.2.map (fun it => (it.1, nextSpec m se.1 it.1 it.2)))) := by
  unfold orderedSections
  rw [List.map_filterMap]
  congr 1
  funext s
  rw [lookupA_nextPkg m pkg s]
  cases lookupA pkg s with
  | none => rfl
  | some items => rfl

theorem allPairs_nextPkg (m : Manifest) (pkg : Pkg) :
    allPairs (nextPkg m pkg) =
      (allPairs pkg).map (fun tr => (tr.1, tr.2.1, nextSpec m tr.1 tr.2.1 tr.2.2)) := by
  unfold allPairs
  rw [orderedSections_nextPkg, List.map_map, List.map_flatten, List.map_map]
  congr 1
  apply List.map_congr_left
  intro se _
  simp only [Function.comp_apply]
  rw [List.map_map, List.map_map]
  rfl

theorem manifestKeys_nextPkg (m : Manifest) (pkg : Pkg) :
    manifestKeys (nextPkg m pkg) = manifestKeys pkg := by
  unfold manifestKeys
  rw [allPairs_nextPkg, List.map_map]
  rfl

theorem bucketFor_nextPkg (pats : List Str) (m : Manifest) (pkg : Pkg) (n : Str) :
    bucketFor pats (nextPkg m pkg) n =
      (allPairs pkg).filterMap (fun tr => if tr.2.1 = n then
        some (mixinEntry pats tr.1 n (nextSpec m tr.1 tr.2.1 tr.2.2)) else none) := by
  unfold bucketFor
  rw [allPairs_nextPkg, List.filterMap_map]
  rfl

theorem nodup_keys_val_eq {A : Type} :
    ∀ {l : List (Str × A)}, (l.map Prod.fst).Nodup →
    ∀ {n : Str} {v1 v2 : A}, (n, v1) ∈ l → (n, v2) ∈ l → v1 = v2
  | [], _, _, _, _, h, _ => absurd h (List.not_mem_nil _)
  | (k, v) :: r, hnd, n, v1, v2, h1, h2 => by
    simp only [List.map_cons, List.nodup_cons] at hnd
    rcases List.mem_cons.mp h1 with h1 | h1 <;> rcases List.mem_cons.mp h2 with h2 | h2
    · injection h1 with ha hb
      injection h2 with hc hd
      rw [hb, hd]
    · injection h1 with ha hb
      exfalso
      apply hnd.1
      refine List.mem_map.mpr ⟨(n, v2), h2, ?_⟩
      rw [← ha]
    · injection h2 with ha hb
      exfalso
      apply hnd.1
      refine List.mem_map.mpr ⟨(n, v1), h1, ?_⟩
      rw [← ha]
    · exact nodup_keys_val_eq hnd.2 h1 h2

theorem orderedSections_inv {pkg : Pkg} {se : Str × List (Str × Str)}
    (h : se ∈ orderedSections pkg) : lookupA pkg se.1 = some se.2 := by
  unfold orderedSections at h
  rcases List.mem_filterMap.mp h with ⟨s, _, hf⟩
  cases hl : lookupA pkg s with
  | none =>
    rw [hl] at hf
    cases hf
  | some items =>
    rw [hl] at hf
    injection hf with hf
    rw [← hf]
    exact hl

theorem allPairs_inv {pkg : Pkg} {tr : Str × Str × Str} (h : tr ∈ allPairs pkg) :
    ∃ items, lookupA pkg tr.1 = some items ∧ (tr.2.1, tr.2.2) ∈ items := by
  unfold allPairs at h
  rcases List.mem_flatten.mp h with ⟨l, hl, htr⟩
  rcases List.mem_map.mp hl with ⟨se, hse, hsel⟩
  rw [← hsel] at htr
  rcases List.mem_map.mp htr with ⟨it, hit, hite⟩
  refine ⟨se.2, ?_, ?_⟩
  · rw [show tr.1 = se.1 from by rw [← hite]]
    exact orderedSections_inv hse
  · rw [show (tr.2.1, tr.2.2) = it from by rw [← hite]]
    exact hit

theorem allPairs_spec_uniq {pkg : Pkg}
    (hnd : ∀ s items, lookupA pkg s = some items → (items.map Prod.fst).Nodup)
    {sect n s1 s2 : Str}
    (h1 : (sect, n, s1) ∈ allPairs pkg) (h2 : (sect, n, s2) ∈ allPairs pkg) : s1 = s2 := by
  rcases allPairs_inv h1 with ⟨items1, hl1, hm1⟩
  rcases allPairs_inv h2 with ⟨items2, hl2, hm2⟩
  rw [hl1] at hl2
  injection hl2 with hl2
  rw [← hl2] at hm2
  exact nodup_keys_val_eq (hnd sect items1 hl1) hm1 hm2

theorem mixinEntry_sect (pats : List Str) (sect module sOld : Str) :
    (mixinEntry pats sect module sOld).sect = sect := by
  rcases classifyState_cases pats module with ht | ht
  · cases hm : specMatch sOld with
    | some v => rw [mixinEntry_of_some ht hm]
    | none => rw [mixinEntry_of_none ht hm]
  · unfold mixinEntry
    rw [ht]
    rw [if_neg (by intro hc; cases hc)]

theorem mixinEntry_ignored {pats : List Str} {sect module sOld : Str}
    (hcl : classifyState pats module = .ignored) :
    mixinEntry pats sect module sOld = ⟨sect, sOld, sOld, sOld, sOld, .ignored⟩ := by
  unfold mixinEntry
  rw [hcl]
  rw [if_neg (by intro hc; cases hc)]

theorem mergeResults_resolves {nop g : Bool} :
    ∀ {rs : List (Str × PkgData)} {m : Manifest} {doc : Doc} {m2 : Manifest} {u : Bool}
      {doc2 : Doc},
    mergeResults nop g rs m doc = .ok (m2, u, doc2) →
    ∀ p ∈ rs, ∃ v, resolveTarget g p.1 p.2 = .ok v := by
  intro rs
  induction rs with
  | nil =>
    intro m doc m2 u doc2 h p hp
    cases hp
  | cons nd rs ih =>
    intro m doc m2 u doc2 h p hp
    rcases nd with ⟨name, d⟩
    unfold mergeResults at h
    cases hrt : resolveTarget g name d with
    | error er =>
      rw [hrt] at h
      cases h
    | ok v =>
      simp only [hrt] at h
      cases hub : updBucket nop name v m doc with
      | error er =>
        simp only [hub] at h
        cases h
      | ok trip =>
        rcases trip with ⟨m3, u1, doc3⟩
        simp only [hub] at h
        cases hmr : mergeResults nop g rs m3 doc3 with
        | error er =>
          simp only [hmr] at h
          cases h
        | ok trip2 =>
          rcases trip2 with ⟨m4, u2, doc4⟩
          simp only [hmr] at h
          rcases List.mem_cons.mp hp with hp | hp
          · rw [hp]
            exact ⟨v, hrt⟩
          · exact ih hmr p hp

theorem fetchAll_names {reg : Str → Except Str PkgData} :
    ∀ {ns : List Str} {rs : List (Str × PkgData)},
    fetchAll reg ns = .ok rs → rs.map Prod.fst = ns
  | [], rs, h => by
    injection h with h
    rw [← h]
    rfl
  | n :: ns, rs, h => by
    unfold fetchAll at h
    cases hd : reg (lowerStr n) with
    | error msg =>
      rw [hd] at h
      cases h
    | ok d =>
      simp only [hd] at h
      cases hrs : fetchAll reg ns with
      | error er =>
        simp only [hrs] at h
        cases h
      | ok rs2 =>
        simp only [hrs] at h
        injection h with h
        rw [← h, List.map_cons, fetchAll_names hrs]

theorem fetchAll_mem_reg {reg : Str → Except Str PkgData} :
    ∀ {ns : List Str} {rs : List (Str × PkgData)},
    fetchAll reg ns = .ok rs → ∀ p ∈ rs, reg (lowerStr p.1) = .ok p.2
  | [], rs, h => by
    injection h with h
    rw [← h]
    intro p hp
    cases hp
  | n :: ns, rs, h => by
    unfold fetchAll at h
    cases hd : reg (lowerStr n) with
    | error msg =>
      rw [hd] at h
      cases h
    | ok d =>
      simp only [hd] at h
      cases hrs : fetchAll reg ns with
      | error er =>
        simp only [hrs] at h
        cases h
      | ok rs2 =>
        simp only [hrs] at h
        injection h with h
        intro p hp
        rw [← h] at hp
        rcases List.mem_cons.mp hp with hp | hp
        · rw [hp]
          exact hd
        · exact fetchAll_mem_reg hrs p hp

theorem fetchAll_ok {reg : Str → Except Str PkgData} :
    ∀ (ns : List Str), (∀ n ∈ ns, ∃ d, reg (lowerStr n) = .ok d) →
    ∃ rs, fetchAll reg ns = .ok rs
  | [], _ => ⟨[], rfl⟩
  | n :: ns, h => by
    rcases h n (List.mem_cons_self _ _) with ⟨d, hd⟩
    rcases fetchAll_ok ns (fun x hx => h x (List.mem_cons_of_mem _ hx)) with ⟨rs, hrs⟩
    refine ⟨(n, d) :: rs, ?_⟩
    unfold fetchAll
    simp [hd, hrs]

theorem filterMap_cons_eq {α β : Type} (f : α → Option β) (a : α) (l : List α) :
    List.filterMap f (a :: l) = match f a with
      | none => List.filterMap f l
      | some b => b :: List.filterMap f l := by
  cases h : f a with
  | none => rw [List.filterMap_cons_none h]
  | some b => rw [List.filterMap_cons_some h]

theorem firstSect_bucketGen (pats : List Str) (n sect : Str)
    (G : Str × Str × Str → Str) :
    ∀ {L : List (Str × Str × Str)} {s : Str},
    (sect, n, s) ∈ L →
    (∀ s2, (sect, n, s2) ∈ L → s2 = s) →
    firstSect (L.filterMap (fun tr => if tr.2.1 = n then
      some (mixinEntry pats tr.1 n (G tr)) else none)) sect =
      some (mixinEntry pats sect n (G (sect, n, s))) := by
  intro L
  induction L with
  | nil =>
    intro s hmem huniq
    cases hmem
  | cons tr L ih =>
    intro s hmem huniq
    by_cases htn : tr.2.1 = n
    · rw [filterMap_cons_eq, if_pos htn]
      show firstSect (mixinEntry pats tr.1 n (G tr) :: List.filterMap
        (fun tr => if tr.2.1 = n then some (mixinEntry pats tr.1 n (G tr)) else none) L)
        sect = some (mixinEntry pats sect n (G (sect, n, s)))
      rw [firstSect_cons, mixinEntry_sect]
      by_cases hts : tr.1 = sect
      · rw [if_pos hts]
        have htreq : (sect, n, tr.2.2) = tr := by
          rw [← hts, ← htn]
        have h22 : tr.2.2 = s := huniq tr.2.2 (by rw [htreq]; exact List.mem_cons_self _ _)
        have htr2 : tr = (sect, n, s) := by
          rw [← htreq, h22]
        rw [htr2]
      · rw [if_neg hts]
        refine ih ?_ ?_
        · rcases List.mem_cons.mp hmem with h | h
          · exfalso
            apply hts
            rw [← h]
          · exact h
        · intro s2 h2
          exact huniq s2 (List.mem_cons_of_mem _ h2)
    · rw [filterMap_cons_eq, if_neg htn]
      refine ih ?_ ?_
      · rcases List.mem_cons.mp hmem with h | h
        · exfalso
          apply htn
          rw [← h]
        · exact h
      · intro s2 h2
        exact huniq s2 (List.mem_cons_of_mem _ h2)

theorem firstSect_map_extract (v : Str) :
    ∀ (es : List Entry) (sect : Str),
    firstSect (es.map (extractE v)) sect = (firstSect es sect).map (extractE v)
  | [], _ => rfl
  | e :: es, sect => by
    show firstSect (extractE v e :: es.map (extractE v)) sect = _
    rw [firstSect_cons, firstSect_cons, (extractE_fields v e).1]
    by_cases hs : e.sect = sect
    · rw [if_pos hs, if_pos hs]
      rfl
    · rw [if_neg hs, if_neg hs]
      exact firstSect_map_extract v es sect

theorem extractE_of_ok {v : Str} {e : Entry} {p : Entry × Bool}
    (h : mergeEntryOk v e = some p) : extractE v e = p.1 := by
  unfold extractE
  rw [h]

theorem mergeEntryOk_kept {v : Str} {e : Entry} (hchk : e.state = .check)
    (hv : e.vOld = v ∨ (¬e.vOld = v ∧ semverGtE e.vOld v = some true)) :
    mergeEntryOk v e = some ({ e with vNew := v, sNew := v, state := .kept }, false) := by
  unfold mergeEntryOk
  rw [if_neg (by simp [hchk])]
  rcases hv with hv | ⟨hne, hgt⟩
  · rw [if_pos hv]
  · rw [if_neg hne, hgt]

theorem mergeOne_ok_flagfalse {nop : Bool} {name v : Str} {e e2 : Entry} {doc : Doc}
    (h : mergeEntryOk v e = some (e2, false)) :
    mergeOne nop name v e doc = .ok (e2, false, doc) := by
  unfold mergeEntryOk at h
  by_cases h1 : e.state ≠ .check
  · rw [if_pos h1] at h
    injection h with h
    injection h with ha hb
    rw [← ha, mergeOne_not_check h1]
  · rw [if_neg h1] at h
    push_neg at h1
    by_cases h2 : e.vOld = v
    · rw [if_pos h2] at h
      injection h with h
      injection h with ha hb
      rw [← ha, mergeOne_eq_str h1 h2]
    · rw [if_neg h2] at h
      cases hg : semverGtE e.vOld v with
      | none =>
        rw [hg] at h
        cases h
      | some b =>
        cases b with
        | true =>
          rw [hg] at h
          injection h with h
          injection h with ha hb
          rw [← ha, mergeOne_gt h1 h2 hg]
        | false =>
          rw [hg] at h
          by_cases hrepl : jsReplaceFirst e.sOld e.vOld v = e.sOld
          · rw [if_pos hrepl] at h
            cases h
          · rw [if_neg hrepl] at h
            injection h with h
            injection h with ha hb
            cases hb

theorem mergeSpecs_ok_nopatch {nop : Bool} {name v : Str} :
    ∀ {es : List Entry} (doc : Doc),
    (∀ e ∈ es, ∃ e2, mergeEntryOk v e = some (e2, false)) →
    mergeSpecs nop name v es doc = .ok (es.map (extractE v), false, doc)
  | [], doc, _ => rfl
  | e :: es, doc, h => by
    rcases h e (List.mem_cons_self _ _) with ⟨e2, he2⟩
    unfold mergeSpecs
    rw [mergeOne_ok_flagfalse he2]
    show (match mergeSpecs nop name v es doc with
      | Except.error er => Except.error er
      | Except.ok (es2, u2, doc3) => Except.ok (e2 :: es2, false || u2, doc3)) = _
    rw [mergeSpecs_ok_nopatch doc (fun x hx => h x (List.mem_cons_of_mem _ hx))]
    show Except.ok (e2 :: es.map (extractE v), false || false, doc) =
      Except.ok ((e :: es).map (extractE v), false, doc)
    rw [show (e2 : Entry) = extractE v e from (extractE_of_ok he2).symm]
    rfl

theorem updBucket_ok_nopatch {nop : Bool} {name v : Str} :
    ∀ {m : Manifest} (doc : Doc),
    (∀ b ∈ m, b.1 = name → ∀ e ∈ b.2, ∃ e2, mergeEntryOk v e = some (e2, false)) →
    ∃ m2, updBucket nop name v m doc = .ok (m2, false, doc) ∧
      ∀ b2 ∈ m2, b2 ∈ m ∨ b2.1 = name := by
  intro m
  induction m with
  | nil =>
    intro doc h
    exact ⟨[], rfl, fun b2 h2 => absurd h2 (List.not_mem_nil _)⟩
  | cons b0 rest ih =>
    intro doc h
    rcases b0 with ⟨k, es⟩
    by_cases hk : k = name
    · refine ⟨(k, es.map (extractE v)) :: rest, ?_, ?_⟩
      · unfold updBucket
        rw [if_pos hk]
        rw [mergeSpecs_ok_nopatch doc (h (k, es) (List.mem_cons_self _ _) hk)]
      · intro b2 hb2
        rcases List.mem_cons.mp hb2 with hb2 | hb2
        · right
          rw [hb2]
          exact hk
        · left
          exact List.mem_cons_of_mem _ hb2
    · rcases ih doc (fun b hb => h b (List.mem_cons_of_mem _ hb)) with ⟨m2, hup, hmem⟩
      refine ⟨(k, es) :: m2, ?_, ?_⟩
      · unfold updBucket
        rw [if_neg hk, hup]
      · intro b2 hb2
        rcases List.mem_cons.mp hb2 with hb2 | hb2
        · left
          rw [hb2]
          exact List.mem_cons_self _ _
        · rcases hmem b2 hb2 with hb | hb
          · left
            exact List.mem_cons_of_mem _ hb
          · right
            exact hb

theorem mergeResults_ok_nopatch {nop g : Bool} :
    ∀ {rs : List (Str × PkgData)} {m : Manifest} (doc : Doc),
    (∀ p ∈ rs, ∃ v, resolveTarget g p.1 p.2 = .ok v ∧
      ∀ b ∈ m, b.1 = p.1 → ∀ e ∈ b.2, ∃ e2, mergeEntryOk v e = some (e2, false)) →
    (rs.map Prod.fst).Nodup →
    ∃ m2, mergeResults nop g rs m doc = .ok (m2, false, doc) := by
  intro rs
  induction rs with
  | nil =>
    intro m doc h hnd
    exact ⟨m, rfl⟩
  | cons p rs ih =>
    intro m doc h hnd
    rcases p with ⟨name, d⟩
    rcases h (name, d) (List.mem_cons_self _ _) with ⟨v, hrt0, hcond0⟩
    have hrt : resolveTarget g name d = .ok v := hrt0
    have hcond : ∀ b ∈ m, b.1 = name → ∀ e ∈ b.2, ∃ e2, mergeEntryOk v e = some (e2, false) :=
      hcond0
    rcases @updBucket_ok_nopatch nop name v m doc hcond with ⟨m1x, hup, hmem⟩
    simp only [List.map_cons, List.nodup_cons] at hnd
    have hcond2 : ∀ p2 ∈ rs, ∃ v2, resolveTarget g p2.1 p2.2 = .ok v2 ∧
        ∀ b ∈ m1x, b.1 = p2.1 → ∀ e ∈ b.2, ∃ e2, mergeEntryOk v2 e = some (e2, false) := by
      intro p2 hp2
      rcases h p2 (List.mem_cons_of_mem _ hp2) with ⟨v2, hrt2, hc2⟩
      refine ⟨v2, hrt2, ?_⟩
      intro b hb hbn e he
      rcases hmem b hb with hbm | hbname
      · exact hc2 b hbm hbn e he
      · exfalso
        apply hnd.1
        have hbname2 : b.1 = name := hbname
        have hnp : name = p2.1 := by
          rw [← hbname2]
          exact hbn
        rw [hnp]
        exact List.mem_map.mpr ⟨p2, hp2, rfl⟩
    rcases ih doc hcond2 hnd.2 with ⟨m2, hmr⟩
    refine ⟨m2, ?_⟩
    unfold mergeResults
    simp only [hrt, hup, hmr]
    rfl

theorem specMatch_replace {s c v : Str} (hd : Decomp s c)
    (hpv : ∃ y, parseSemVer v = some y)
    (hdig : ∃ d t, v = d :: t ∧ isDigitC d = true) :
    specMatch (jsReplaceFirst s c v) = some v := by
  rcases hd with ⟨ws1, op, ws2, ws3, hs, hws1, hop, hws2, hopws2, hws3, hdigC, hfbC⟩
  rcases hpv with ⟨y, hy⟩
  have hch : ∀ ch ∈ v, svChar ch = true := parseSemVer_chars hy
  rw [jsReplaceFirst_decomp hs hws1 hop hws2 hdigC
    (fun ch hc => svChar_no_dollar (hch ch hc))]
  apply (specMatch_iff_decomp _ _).mpr
  refine ⟨ws1, op, ws2, ws3, ?_, hws1, hop, hws2, hopws2, hws3, hdig,
    fun ch hc => svChar_notFb (hch ch hc)⟩
  simp [List.append_assoc]

theorem nextSpec_eval (pats : List Str) (g : Bool) (rs1 : List (Str × PkgData))
    (pkg : Pkg) (sect n s : Str) {e1 : Entry}
    (hn : n ∈ manifestKeys pkg)
    (hfs : firstSect (bucketFor pats pkg n) sect = some e1) :
    nextSpec ((buildManifest pats pkg).map (fun b => (b.1, finalBucket g rs1 b.1 b.2)))
      sect n s =
      match resolveFor g rs1 n with
      | none => if e1.state = .updated then e1.sNew else s
      | some v => if (extractE v e1).state = .updated then (extractE v e1).sNew else s := by
  unfold nextSpec
  rw [lookupA_mapB (finalBucket g rs1) (buildManifest pats pkg) n,
    lookupA_buildManifest pats pkg n hn]
  show (match firstSect (finalBucket g rs1 n (bucketFor pats pkg n)) sect with
    | none => s
    | some e => if e.state = EState.updated then e.sNew else s) = _
  cases hrf : resolveFor g rs1 n with
  | none =>
    rw [show finalBucket g rs1 n (bucketFor pats pkg n) = bucketFor pats pkg n from by
      simp only [finalBucket, hrf]]
    rw [hfs]
  | some v =>
    rw [show finalBucket g rs1 n (bucketFor pats pkg n) =
        (bucketFor pats pkg n).map (extractE v) from by simp only [finalBucket, hrf]]
    rw [firstSect_map_extract, hfs]
    rfl

theorem nextSpec_cases (pats : List Str) (g : Bool) (pkg : Pkg)
    (rs1 : List (Str × PkgData)) (sect n s : Str) (m2 : Manifest)
    (hm2 : m2 = (buildManifest pats pkg).map (fun b => (b.1, finalBucket g rs1 b.1 b.2)))
    (hnd : ∀ s0 items, lookupA pkg s0 = some items → (items.map Prod.fst).Nodup)
    (htr : (sect, n, s) ∈ allPairs pkg)
    (hok : ∀ v, resolveFor g rs1 n = some v →
      mergeEntryOk v (mixinEntry pats sect n s) ≠ none)
    (hres : (mixinEntry pats sect n s).state = .check →
      ∃ v, resolveFor g rs1 n = some v)
    (hdigit : ∀ v, resolveFor g rs1 n = some v → ∃ c t, v = c :: t ∧ isDigitC c = true) :
    (mixinEntry pats sect n (nextSpec m2 sect n s)).state = .ignored ∨
    (mixinEntry pats sect n (nextSpec m2 sect n s)).state = .skipped ∨
    ((mixinEntry pats sect n (nextSpec m2 sect n s)).state = .check ∧
     (mixinEntry pats sect n s).state = .check ∧
     ∃ v, resolveFor g rs1 n = some v ∧
       ((mixinEntry pats sect n (nextSpec m2 sect n s)).vOld = v ∨
        (¬(mixinEntry pats sect n (nextSpec m2 sect n s)).vOld = v ∧
         semverGtE (mixinEntry pats sect n (nextSpec m2 sect n s)).vOld v = some true))) := by
  have hn : n ∈ manifestKeys pkg := mem_manifestKeys.mpr ⟨(sect, n, s), htr, rfl⟩
  have huniq : ∀ s2, (sect, n, s2) ∈ allPairs pkg → s2 = s :=
    fun s2 h2 => allPairs_spec_uniq hnd h2 htr
  have hfs : firstSect (bucketFor pats pkg n) sect = some (mixinEntry pats sect n s) :=
    firstSect_bucketGen pats n sect (fun tr => tr.2.2) htr huniq
  have heval := nextSpec_eval pats g rs1 pkg sect n s hn hfs
  rw [← hm2] at heval
  rcases classifyState_cases pats n with hcl | hcl
  case inr =>
    left
    rw [mixinEntry_ignored hcl]
  case inl =>
    cases hsm : specMatch s with
    | none =>
      have he1 : mixinEntry pats sect n s = ⟨sect, s, s, s, s, .skipped⟩ :=
        mixinEntry_of_none hcl hsm
      have hns : nextSpec m2 sect n s = s := by
        rw [heval, he1]
        cases hrf : resolveFor g rs1 n with
        | none =>
          show (if (⟨sect, s, s, s, s, .skipped⟩ : Entry).state = .updated then
            (⟨sect, s, s, s, s, .skipped⟩ : Entry).sNew else s) = s
          rw [if_neg (by intro hc; cases hc)]
        | some v =>
          show (if (extractE v ⟨sect, s, s, s, s, .skipped⟩).state = .updated then
            (extractE v ⟨sect, s, s, s, s, .skipped⟩).sNew else s) = s
          rw [(extractE_not_check
            (show ¬(⟨sect, s, s, s, s, .skipped⟩ : Entry).state = .check by
              intro hc; cases hc)).1]
          rw [if_neg (by intro hc; cases hc)]
      right
      left
      rw [hns, he1]
    | some c =>
      have he1 : mixinEntry pats sect n s = ⟨sect, s, c, s, c, .check⟩ :=
        mixinEntry_of_some hcl hsm
      rcases hres (by rw [he1]) with ⟨v, hrf⟩
      have hmne := hok v hrf
      by_cases hcv : c = v
      · have hns : nextSpec m2 sect n s = s := by
          rw [heval, hrf, he1]
          show (if (extractE v ⟨sect, s, c, s, c, .check⟩).state = .updated then
            (extractE v ⟨sect, s, c, s, c, .check⟩).sNew else s) = s
          rw [extractE_of_ok (mergeEntryOk_kept rfl (Or.inl hcv))]
          rw [if_neg (by intro hc; cases hc)]
        right
        right
        refine ⟨?_, ?_, v, hrf, Or.inl ?_⟩
        · rw [hns, he1]
        · rw [he1]
        · rw [hns, he1]
          exact hcv
      · cases hgt : semverGtE c v with
        | none =>
          exfalso
          apply hmne
          rw [he1]
          unfold mergeEntryOk
          rw [if_neg (by simp), if_neg hcv, hgt]
        | some b =>
          cases b with
          | true =>
            have hns : nextSpec m2 sect n s = s := by
              rw [heval, hrf, he1]
              show (if (extractE v ⟨sect, s, c, s, c, .check⟩).state = .updated then
                (extractE v ⟨sect, s, c, s, c, .check⟩).sNew else s) = s
              rw [extractE_of_ok (mergeEntryOk_kept rfl (Or.inr ⟨hcv, hgt⟩))]
              rw [if_neg (by intro hc; cases hc)]
            right
            right
            refine ⟨?_, ?_, v, hrf, Or.inr ⟨?_, ?_⟩⟩
            · rw [hns, he1]
            · rw [he1]
            · rw [hns, he1]
              exact hcv
            · rw [hns, he1]
              exact hgt
          | false =>
            have hD : Decomp s c := (specMatch_iff_decomp s c).mp hsm
            have hpv : ∃ y, parseSemVer v = some y := (semverGtE_parses hgt).2
            have hdigv := hdigit v hrf
            have hsm2 : specMatch (jsReplaceFirst s c v) = some v :=
              specMatch_replace hD hpv hdigv
            by_cases hrepl : jsReplaceFirst s c v = s
            · exfalso
              apply hmne
              rw [he1]
              unfold mergeEntryOk
              rw [if_neg (by simp), if_neg hcv, hgt]
              show (if jsReplaceFirst s c v = s then none else
                some ((⟨sect, s, c, jsReplaceFirst s c v, v, .updated⟩ : Entry), true)) = none
              rw [if_pos hrepl]
            · have hmk : mergeEntryOk v (⟨sect, s, c, s, c, .check⟩ : Entry) =
                  some (⟨sect, s, c, jsReplaceFirst s c v, v, .updated⟩, true) := by
                unfold mergeEntryOk
                rw [if_neg (by simp), if_neg hcv, hgt]
                show (if jsReplaceFirst s c v = s then none else
                  some ((⟨sect, s, c, jsReplaceFirst s c v, v, .updated⟩ : Entry), true)) = _
                rw [if_neg hrepl]
              have hns : nextSpec m2 sect n s = jsReplaceFirst s c v := by
                rw [heval, hrf, he1]
                show (if (extractE v ⟨sect, s, c, s, c, .check⟩).state = .updated then
                  (extractE v ⟨sect, s, c, s, c, .check⟩).sNew else s) =
                  jsReplaceFirst s c v
                rw [extractE_of_ok hmk]
                rw [if_pos rfl]
              have he2 : mixinEntry pats sect n (jsReplaceFirst s c v) =
                  ⟨sect, jsReplaceFirst s c v, v, jsReplaceFirst s c v, v, .check⟩ :=
                mixinEntry_of_some hcl hsm2
              right
              right
              refine ⟨?_, ?_, v, hrf, Or.inl ?_⟩
              · rw [hns, he2]
              · rw [he1]
              · rw [hns, he2]

/-- C8 (corrected, amended): when every version the registry resolves
begins with a digit, the second run over the rewritten manifest makes no
further changes — it succeeds, no entry reaches `updated`, the updates
flag is false, nothing is written, and every entry settles to `ignored`,
`skipped` or `kept`.  (The unamended claim fails when a resolved version
carries node-semver's tolerated leading `v`: the rewritten specifier no
longer matches the pinned-version grammar and the entry settles to
`skipped` instead of `kept`.) -/
theorem C8_second_run_stable (argv : Argv) (pkg : Pkg)
    (reg : Str → Except Str PkgData) (doc doc2 : Doc) (out : RunOut)
    (h : runUpd argv pkg reg doc = .ok out)
    (hnd : ∀ s items, lookupA pkg s = some items → (items.map Prod.fst).Nodup)
    (hdig : ∀ n d v, reg (lowerStr n) = .ok d →
      resolveTarget argv.greatest n d = .ok v → ∃ c t, v = c :: t ∧ isDigitC c = true) :
    ∃ out2, runUpd argv (nextPkg out.manifest pkg) reg doc2 = .ok out2 ∧
      out2.updates = false ∧ out2.written = none ∧
      ∀ b ∈ out2.manifest, ∀ e ∈ b.2,
        e.state = .ignored ∨ e.state = .skipped ∨ e.state = .kept := by
  rcases runUpd_inv h with ⟨rs1, m2, u, doc1x, hf, hm, hout⟩
  have hndkeys1 : ((buildManifest argv.patterns pkg).map Prod.fst).Nodup := by
    rw [buildManifest_keys]
    exact ddup_nodup _
  rcases mergeResults_char hm hndkeys1 with ⟨hc1, hc2, hc3⟩
  have homan : out.manifest = m2 := by rw [hout]
  rw [homan]
  have hrs1names : rs1.map Prod.fst = checkedNames (buildManifest argv.patterns pkg) :=
    fetchAll_names hf
  have hcases : ∀ sect n s0, (sect, n, s0) ∈ allPairs pkg →
      (mixinEntry argv.patterns sect n (nextSpec m2 sect n s0)).state = .ignored ∨
      (mixinEntry argv.patterns sect n (nextSpec m2 sect n s0)).state = .skipped ∨
      ((mixinEntry argv.patterns sect n (nextSpec m2 sect n s0)).state = .check ∧
       (mixinEntry argv.patterns sect n s0).state = .check ∧
       ∃ v, resolveFor argv.greatest rs1 n = some v ∧
         ((mixinEntry argv.patterns sect n (nextSpec m2 sect n s0)).vOld = v ∨
          (¬(mixinEntry argv.patterns sect n (nextSpec m2 sect n s0)).vOld = v ∧
           semverGtE (mixinEntry argv.patterns sect n (nextSpec m2 sect n s0)).vOld v =
             some true))) := by
    intro sect n s0 htr
    have hn : n ∈ manifestKeys pkg := mem_manifestKeys.mpr ⟨(sect, n, s0), htr, rfl⟩
    refine nextSpec_cases argv.patterns argv.greatest pkg rs1 sect n s0 m2 hc1 hnd htr
      ?_ ?_ ?_
    · intro v hrf
      have hbm : (n, bucketFor argv.patterns pkg n) ∈ buildManifest argv.patterns pkg :=
        List.mem_map.mpr ⟨n, hn, rfl⟩
      have hem : mixinEntry argv.patterns sect n s0 ∈ bucketFor argv.patterns pkg n := by
        unfold bucketFor
        refine List.mem_filterMap.mpr ⟨(sect, n, s0), htr, ?_⟩
        rw [if_pos rfl]
      exact hc3 (n, bucketFor argv.patterns pkg n) hbm v hrf
        (mixinEntry argv.patterns sect n s0) hem
    · intro hchk
      have hcn : n ∈ checkedNames (buildManifest argv.patterns pkg) := by
        apply checkedNames_mem.mpr
        exact ⟨hn, hasCheck_bucketFor.mpr ⟨(sect, n, s0), htr, rfl, hchk⟩⟩
      have hmemn : n ∈ rs1.map Prod.fst := by
        rw [hrs1names]
        exact hcn
      rcases lookupA_mem_fst hmemn with ⟨d, hld⟩
      rcases mergeResults_resolves hm (n, d) (lookupA_mem hld) with ⟨v, hrt0⟩
      have hrt : resolveTarget argv.greatest n d = .ok v := hrt0
      refine ⟨v, ?_⟩
      unfold resolveFor
      rw [hld]
      show (match resolveTarget argv.greatest n d with
        | .ok v0 => some v0
        | .error _ => none) = some v
      rw [hrt]
    · intro v hrf
      have hrf2 := hrf
      unfold resolveFor at hrf2
      cases hld : lookupA rs1 n with
      | none =>
        rw [hld] at hrf2
        cases hrf2
      | some d =>
        simp only [hld] at hrf2
        cases hrt : resolveTarget argv.greatest n d with
        | error er =>
          simp only [hrt] at hrf2
          cases hrf2
        | ok v0 =>
          simp only [hrt] at hrf2
          injection hrf2 with hv0
          have hreg : reg (lowerStr n) = .ok d :=
            fetchAll_mem_reg hf (n, d) (lookupA_mem hld)
          rw [← hv0]
          exact hdig n d v0 hreg hrt
  have hbucket2 : ∀ n e, e ∈ bucketFor argv.patterns (nextPkg m2 pkg) n →
      ∃ sect s0, (sect, n, s0) ∈ allPairs pkg ∧
        e = mixinEntry argv.patterns sect n (nextSpec m2 sect n s0) := by
    intro n e he
    rw [bucketFor_nextPkg] at he
    rcases List.mem_filterMap.mp he with ⟨tr, htr, hif⟩
    by_cases htn : tr.2.1 = n
    · rw [if_pos htn] at hif
      injection hif with hif
      refine ⟨tr.1, tr.2.2, ?_, ?_⟩
      · rw [show (tr.1, n, tr.2.2) = tr from by rw [← htn]]
        exact htr
      · rw [← hif, htn]
    · rw [if_neg htn] at hif
      cases hif
  have hmkcn : ∀ sect k s0, (sect, k, s0) ∈ allPairs pkg →
      (mixinEntry argv.patterns sect k (nextSpec m2 sect k s0)).state = .check →
      k ∈ checkedNames (buildManifest argv.patterns (nextPkg m2 pkg)) := by
    intro sect k s0 htrk hchk
    apply checkedNames_mem.mpr
    refine ⟨?_, ?_⟩
    · rw [manifestKeys_nextPkg]
      exact mem_manifestKeys.mpr ⟨(sect, k, s0), htrk, rfl⟩
    · apply hasCheck_bucketFor.mpr
      refine ⟨(sect, k, nextSpec m2 sect k s0), ?_, rfl, ?_⟩
      · rw [allPairs_nextPkg]
        exact List.mem_map.mpr ⟨(sect, k, s0), htrk, rfl⟩
      · exact hchk
  have hcn2sub : ∀ n, n ∈ checkedNames (buildManifest argv.patterns (nextPkg m2 pkg)) →
      n ∈ checkedNames (buildManifest argv.patterns pkg) ∧
      ∃ v, resolveFor argv.greatest rs1 n = some v := by
    intro n hn2
    rcases checkedNames_mem.mp hn2 with ⟨hk2, hchk2⟩
    rcases hasCheck_bucketFor.mp hchk2 with ⟨tr2, htr2, htn2, hst2⟩
    rw [allPairs_nextPkg] at htr2
    rcases List.mem_map.mp htr2 with ⟨tr, htr, htr2e⟩
    have htn : tr.2.1 = n := by
      rw [← htr2e] at htn2
      exact htn2
    have hst : (mixinEntry argv.patterns tr.1 n (nextSpec m2 tr.1 n tr.2.2)).state =
        EState.check := by
      rw [← htr2e] at hst2
      rw [htn] at hst2
      exact hst2
    have htrn : (tr.1, n, tr.2.2) ∈ allPairs pkg := by
      rw [show (tr.1, n, tr.2.2) = tr from by rw [← htn]]
      exact htr
    rcases hcases tr.1 n tr.2.2 htrn with hcs | hcs | hcs
    · rw [hst] at hcs
      cases hcs
    · rw [hst] at hcs
      cases hcs
    · rcases hcs with ⟨_, hchk1, v, hrf, _⟩
      constructor
      · apply checkedNames_mem.mpr
        refine ⟨?_, ?_⟩
        · exact mem_manifestKeys.mpr ⟨(tr.1, n, tr.2.2), htrn, rfl⟩
        · exact hasCheck_bucketFor.mpr ⟨(tr.1, n, tr.2.2), htrn, rfl, hchk1⟩
      · exact ⟨v, hrf⟩
  rcases fetchAll_ok (checkedNames (buildManifest argv.patterns (nextPkg m2 pkg)))
      (by
        intro n hn2
        rcases hcn2sub n hn2 with ⟨hcn1, _⟩
        have hmn : n ∈ rs1.map Prod.fst := by
          rw [hrs1names]
          exact hcn1
        rcases lookupA_mem_fst hmn with ⟨d, hld⟩
        exact ⟨d, fetchAll_mem_reg hf (n, d) (lookupA_mem hld)⟩) with ⟨rs2, hf2⟩
  have hrs2names : rs2.map Prod.fst =
      checkedNames (buildManifest argv.patterns (nextPkg m2 pkg)) := fetchAll_names hf2
  have hndkeys2 : ((buildManifest argv.patterns (nextPkg m2 pkg)).map Prod.fst).Nodup := by
    rw [buildManifest_keys]
    exact ddup_nodup _
  have hnd2 : (rs2.map Prod.fst).Nodup := by
    rw [hrs2names]
    unfold checkedNames
    refine List.Nodup.sublist (List.Sublist.map _ (List.filter_sublist _)) ?_
    rw [buildManifest_keys]
    exact ddup_nodup _
  have hrffix : ∀ n, n ∈ checkedNames (buildManifest argv.patterns (nextPkg m2 pkg)) →
      ∀ v, resolveFor argv.greatest rs1 n = some v →
      resolveFor argv.greatest rs2 n = some v := by
    intro n hn2 v hrf1
    have hmem2 : n ∈ rs2.map Prod.fst := by
      rw [hrs2names]
      exact hn2
    rcases lookupA_mem_fst hmem2 with ⟨d2, hld2⟩
    have hreg2 : reg (lowerStr n) = .ok d2 :=
      fetchAll_mem_reg hf2 (n, d2) (lookupA_mem hld2)
    unfold resolveFor at hrf1
    cases hld1 : lookupA rs1 n with
    | none =>
      rw [hld1] at hrf1
      cases hrf1
    | some d1 =>
      simp only [hld1] at hrf1
      cases hrt1 : resolveTarget argv.greatest n d1 with
      | error er =>
        simp only [hrt1] at hrf1
        cases hrf1
      | ok v0 =>
        simp only [hrt1] at hrf1
        injection hrf1 with hv0
        have hreg1 : reg (lowerStr n) = .ok d1 :=
          fetchAll_mem_reg hf (n, d1) (lookupA_mem hld1)
        have hd12 : d2 = d1 := by
          rw [hreg1] at hreg2
          injection hreg2 with h2
          exact h2.symm
        unfold resolveFor
        rw [hld2, hd12]
        show (match resolveTarget argv.greatest n d1 with
          | .ok v1 => some v1
          | .error _ => none) = some v
        rw [hrt1, hv0]
  have hcond : ∀ p ∈ rs2, ∃ v, resolveTarget argv.greatest p.1 p.2 = .ok v ∧
      ∀ b ∈ buildManifest argv.patterns (nextPkg m2 pkg), b.1 = p.1 →
        ∀ e ∈ b.2, ∃ e2, mergeEntryOk v e = some (e2, false) := by
    intro p hp
    rcases p with ⟨n, d⟩
    have hnn : n ∈ checkedNames (buildManifest argv.patterns (nextPkg m2 pkg)) := by
      rw [← hrs2names]
      exact List.mem_map.mpr ⟨(n, d), hp, rfl⟩
    rcases hcn2sub n hnn with ⟨hcn1, v, hrf1⟩
    have hrf2 : resolveFor argv.greatest rs2 n = some v := hrffix n hnn v hrf1
    have hmemf : n ∈ rs2.map Prod.fst := List.mem_map.mpr ⟨(n, d), hp, rfl⟩
    rcases lookupA_mem_fst hmemf with ⟨d3, hld3⟩
    have hd3 : d3 = d := nodup_keys_val_eq hnd2 (lookupA_mem hld3) hp
    have hrt : resolveTarget argv.greatest n d = .ok v := by
      unfold resolveFor at hrf2
      simp only [hld3] at hrf2
      cases hrt3 : resolveTarget argv.greatest n d3 with
      | error er =>
        simp only [hrt3] at hrf2
        cases hrf2
      | ok v3 =>
        simp only [hrt3] at hrf2
        injection hrf2 with hv3
        rw [← hd3, hrt3, hv3]
    refine ⟨v, hrt, ?_⟩
    intro b hb hbn e he
    rcases List.mem_map.mp hb with ⟨k, hkm, hkb⟩
    have hkn : k = n := by
      rw [← hkb] at hbn
      exact hbn
    subst hkn
    rw [← hkb] at he
    rcases hbucket2 k e he with ⟨sect, s0, htrk, hee⟩
    rcases hcases sect k s0 htrk with hcs | hcs | hcs
    · have hne : e.state ≠ EState.check := by
        intro hc
        rw [hee] at hc
        rw [hcs] at hc
        cases hc
      exact ⟨e, by unfold mergeEntryOk; rw [if_pos hne]⟩
    · have hne : e.state ≠ EState.check := by
        intro hc
        rw [hee] at hc
        rw [hcs] at hc
        cases hc
      exact ⟨e, by unfold mergeEntryOk; rw [if_pos hne]⟩
    · rcases hcs with ⟨hchk, _, v4, hrf4, hvv⟩
      have hv4 : v4 = v := by
        rw [hrf1] at hrf4
        injection hrf4 with h4
        exact h4.symm
      have hchk0 : e.state = EState.check := by
        rw [hee]
        exact hchk
      have hvv0 : e.vOld = v ∨ (¬e.vOld = v ∧ semverGtE e.vOld v = some true) := by
        rw [hee, ← hv4]
        exact hvv
      exact ⟨_, mergeEntryOk_kept hchk0 hvv0⟩
  rcases @mergeResults_ok_nopatch argv.nop argv.greatest rs2
      (buildManifest argv.patterns (nextPkg m2 pkg)) doc2 hcond hnd2 with ⟨m2x, hmr2⟩
  refine ⟨⟨m2x, mkReport argv.all m2x, false, none⟩, ?_, rfl, rfl, ?_⟩
  · simp only [runUpd, hf2, hmr2]
    rfl
  · intro b hb e he
    rcases mergeResults_char hmr2 hndkeys2 with ⟨hc1x, _, _⟩
    rw [hc1x] at hb
    rcases List.mem_map.mp hb with ⟨b0, hb0m, hb0b⟩
    rcases List.mem_map.mp hb0m with ⟨k, hkm, hkb⟩
    rw [← hb0b] at he
    rw [← hkb] at he
    cases hrf2 : resolveFor argv.greatest rs2 k with
    | none =>
      rw [show finalBucket argv.greatest rs2 k (bucketFor argv.patterns (nextPkg m2 pkg) k) =
          bucketFor argv.patterns (nextPkg m2 pkg) k from by
          simp only [finalBucket, hrf2]] at he
      rcases hbucket2 k e he with ⟨sect, s0, htrk, hee⟩
      rcases hcases sect k s0 htrk with hcs | hcs | hcs
      · left
        rw [hee]
        exact hcs
      · right
        left
        rw [hee]
        exact hcs
      · exfalso
        rcases hcs with ⟨hchk, _, v, hrf1, _⟩
        have hnn := hmkcn sect k s0 htrk hchk
        have hx := hrffix k hnn v hrf1
        rw [hrf2] at hx
        cases hx
    | some w =>
      rw [show finalBucket argv.greatest rs2 k (bucketFor argv.patterns (nextPkg m2 pkg) k) =
          (bucketFor argv.patterns (nextPkg m2 pkg) k).map (extractE w) from by
          simp only [finalBucket, hrf2]] at he
      rcases List.mem_map.mp he with ⟨e0, he0, he0e⟩
      rcases hbucket2 k e0 he0 with ⟨sect, s0, htrk, hee⟩
      rcases hcases sect k s0 htrk with hcs | hcs | hcs
      · have hnc : ¬e0.state = EState.check := by
          intro hc
          rw [hee] at hc
          rw [hcs] at hc
          cases hc
        left
        rw [← he0e, (extractE_not_check hnc).1, hee]
        exact hcs
      · have hnc : ¬e0.state = EState.check := by
          intro hc
          rw [hee] at hc
          rw [hcs] at hc
          cases hc
        right
        left
        rw [← he0e, (extractE_not_check hnc).1, hee]
        exact hcs
      · rcases hcs with ⟨hchk, _, v, hrf1, hvv⟩
        have hnn := hmkcn sect k s0 htrk hchk
        have hrf2v := hrffix k hnn v hrf1
        rw [hrf2] at hrf2v
        injection hrf2v with hwv
        right
        right
        rw [← he0e, hwv]
        have hchk0 : e0.state = EState.check := by
          rw [hee]
          exact hchk
        have hvv0 : e0.vOld = v ∨ (¬e0.vOld = v ∧ semverGtE e0.vOld v = some true) := by
          rw [hee]
          exact hvv
        rw [extractE_of_ok (mergeEntryOk_kept hchk0 hvv0)]

theorem C8_counterexample :
    ∃ out out2,
      runUpd ⟨[], false, false, false⟩
        [(("dependencies".data), [(("a".data), ("1.2.3".data))])]
        (fun n => if n = ("a".data) then
          .ok ⟨[("v1.2.4".data)], some ("v1.2.4".data)⟩ else .error [])
        [⟨some (("dependencies".data), ("a".data)), ("X".data)⟩] = .ok out ∧
      runUpd ⟨[], false, false, false⟩
        (nextPkg out.manifest [(("dependencies".data), [(("a".data), ("1.2.3".data))])])
        (fun n => if n = ("a".data) then
          .ok ⟨[("v1.2.4".data)], some ("v1.2.4".data)⟩ else .error [])
        [⟨some (("dependencies".data), ("a".data)), jsonQuote ("v1.2.4".data)⟩] =
          .ok out2 ∧
      ∃ b ∈ out2.manifest, ∃ e ∈ b.2, e.state = .skipped ∧ ¬e.state = .kept := by
  refine ⟨⟨[(("a".data),
      [⟨("dependencies".data), ("1.2.3".data), ("1.2.3".data), ("v1.2.4".data),
        ("v1.2.4".data), .updated⟩])],
      [⟨("a".data), ("1.2.3".data), ("v1.2.4".data), .updated⟩],
      true, some (jsonQuote ("v1.2.4".data))⟩,
    ⟨[(("a".data),
      [⟨("dependencies".data), ("v1.2.4".data), ("v1.2.4".data), ("v1.2.4".data),
        ("v1.2.4".data), .skipped⟩])],
      [], false, none⟩, ?_, ?_, ?_⟩
  · decide
  · decide
  · refine ⟨(("a".data),
      [⟨("dependencies".data), ("v1.2.4".data), ("v1.2.4".data), ("v1.2.4".data),
        ("v1.2.4".data), .skipped⟩]), by decide,
      ⟨("dependencies".data), ("v1.2.4".data), ("v1.2.4".data), ("v1.2.4".data),
        ("v1.2.4".data), .skipped⟩, by decide, by decide, by decide⟩

theorem C8_second_run_stable_witness :
    ∃ out2, runUpd ⟨[], false, false, false⟩
        (nextPkg [(("left-pad".data),
          [⟨("dependencies".data), ("^1.2.0".data), ("1.2.0".data), ("^1.3.0".data),
            ("1.3.0".data), .updated⟩])]
          [(("dependencies".data), [(("left-pad".data), ("^1.2.0".data))])])
        (fun n => if n = ("left-pad".data) then
          .ok ⟨[("1.3.0".data)], some ("1.3.0".data)⟩ else .error [])
        [] = .ok out2 ∧
      out2.updates = false ∧ out2.written = none ∧
      ∀ b ∈ out2.manifest, ∀ e ∈ b.2,
        e.state = .ignored ∨ e.state = .skipped ∨ e.state = .kept := by
  have hrun : runUpd ⟨[], false, false, false⟩
      [(("dependencies".data), [(("left-pad".data), ("^1.2.0".data))])]
      (fun n => if n = ("left-pad".data) then
        .ok ⟨[("1.3.0".data)], some ("1.3.0".data)⟩ else .error [])
      [⟨some (("dependencies".data), ("left-pad".data)), ("X".data)⟩] =
      .ok ⟨[(("left-pad".data),
        [⟨("dependencies".data), ("^1.2.0".data), ("1.2.0".data), ("^1.3.0".data),
          ("1.3.0".data), .updated⟩])],
        [⟨("left-pad".data), ("^1.2.0".data), ("^1.3.0".data), .updated⟩],
        true, some (jsonQuote ("^1.3.0".data))⟩ := by decide
  have hnd : ∀ s items,
      lookupA [(("dependencies".data), [(("left-pad".data), ("^1.2.0".data))])] s =
        some items → (items.map Prod.fst).Nodup := by
    intro s items hl
    rw [lookupA_cons] at hl
    by_cases hs : ("dependencies".data) = s
    · rw [if_pos hs] at hl
      injection hl with hl
      rw [← hl]
      decide
    · rw [if_neg hs] at hl
      simp [lookupA] at hl
  have hdig : ∀ n d v,
      (if lowerStr n = ("left-pad".data) then
        Except.ok (⟨[("1.3.0".data)], some ("1.3.0".data)⟩ : PkgData)
        else Except.error ([] : Str)) = Except.ok d →
      resolveTarget false n d = Except.ok v → ∃ c t, v = c :: t ∧ isDigitC c = true := by
    intro n d v hr ht
    by_cases hn : lowerStr n = ("left-pad".data)
    · rw [if_pos hn] at hr
      injection hr with hr
      rw [← hr] at ht
      have hv : v = ("1.3.0".data) := by
        unfold resolveTarget at ht
        simp at ht
        exact ht.symm
      rw [hv]
      exact ⟨'1', (".3.0".data), by decide, by decide⟩
    · rw [if_neg hn] at hr
      cases hr
  exact C8_second_run_stable ⟨[], false, false, false⟩
    [(("dependencies".data), [(("left-pad".data), ("^1.2.0".data))])]
    (fun n => if n = ("left-pad".data) then
      .ok ⟨[("1.3.0".data)], some ("1.3.0".data)⟩ else .error [])
    [⟨some (("dependencies".data), ("left-pad".data)), ("X".data)⟩] [] _ hrun hnd hdig

end Upd
